import Mathlib

/-! DLBFoam load balancer: partitioning, exchange and load metrics.

A shallow embedding of `LoadBalancerBase` (files `LoadBalancerBase.H` and
`LoadBalancerBase.C`) and of the reference mapper (file
`mixtureFractionRefMapper.C`), together with theorems about them.

Conventions of the embedding.
* `label` is the OpenFOAM integer type.  `partition` takes a
  `std::vector<int>` where `checkSizes` takes a `std::vector<label>`, so the
  code only compiles with `label = int`; it is embedded as `Int`, in exact
  arithmetic.  Signed overflow is undefined behaviour in C++; `partition` and
  `checkSizes` speak about the inputs whose sums stay inside the range of
  `int`, and `partitionInt32` and `checkSizesInt32` form the sum of the size
  check as an `int` of 32 bits does.
* `scalar` (a `double`) is embedded as an exact rational number.
  `getMeanDouble` is the mean with every operation rounded to a `double`.  A
  `double` division by zero does not stop the program: the one of
  `check_if_refcell` is embedded by `quotientBelow`; the one of `getMean` on an
  empty list is outside the embedding.
* `DynamicList<T>` and `std::vector<T>` are embedded as `List T`.
* A fatal error (an abort or a throw) is an `Except.error` carrying the
  message.
* The transport between the processes belongs to the OpenFOAM library.  It is
  embedded as the spec describes it, reliable and ordered: the mailbox of a
  process holds the sub-buffers sent to it, and a receive takes the oldest
  unread sub-buffer of the named source.
-/

namespace Foam

/-- The OpenFOAM integer type. -/
abbrev label := Int

/-- The OpenFOAM floating point type, in exact arithmetic. -/
abbrev scalar := ℚ

/-! ## Library primitives used by the balancer -/

/-- Modelled from the spec: the header `runtime_assert.H` is not among the
sources.  Sections 4.4 and 7 say that a violated precondition is a fatal error
that terminates the run with a descriptive message. -/
def runtime_assert (condition : Bool) (message : String) : Except String Unit :=
  if condition then Except.ok () else Except.error message

/-- The constructor `DynamicList<T>(s, a)` of the OpenFOAM library: a list of
`s` copies of `a`.  The library aborts with "bad size" on a negative size. -/
def filledList {T : Type} (s : label) (a : T) : Except String (List T) :=
  if s < 0 then Except.error "bad size" else Except.ok (List.replicate s.toNat a)

/-- The call `std::copy(begin(src) + first, begin(src) + last, begin(dst))`:
for `k = 0, 1, ..., last - first - 1` the element `src[first + k]` is written
to `dst[k]`.  An access outside either list is undefined behaviour in C++; the
embedding skips it. -/
def stdCopy {T : Type} (src : List T) (first last : label) (dst : List T) : List T :=
  (List.range (last - first).toNat).foldl
    (fun d k =>
      match src[first.toNat + k]? with
      | some x => d.set k x
      | none => d)
    dst

/-- The call `std::accumulate(first, last, init)` with the default `+`, in
exact arithmetic; `accumulateInt32` is the sum that an `int` holds. -/
def accumulate (xs : List label) (init : label) : label :=
  xs.foldl (fun acc x => acc + x) init

/-! ## The partitioner -/

/-- Embeds `LoadBalancerBase::checkSizes`: does the total send count match the
problem count?  The sum is exact; `checkSizesInt32` forms it as an `int`
does. -/
def checkSizes {T : Type} (bigArray : List T) (subsizes : List label) : Bool :=
  if accumulate subsizes 0 ≠ (bigArray.length : label) then false else true

/-- The first loop of `partition`: for every `s` of `subsizes` a list of `s`
copies of `element_copy` is appended to `ret`. -/
def allocate {T : Type} (element_copy : T) : List label → Except String (List (List T))
  | [] => Except.ok []
  | s :: ss =>
    match filledList s element_copy with
    | Except.error e => Except.error e
    | Except.ok sub =>
      match allocate element_copy ss with
      | Except.error e => Except.error e
      | Except.ok rest => Except.ok (sub :: rest)

/-- The second loop of `partition`, started at offset `start`: the range
`[start, start + subsizes[i])` of `bigArray` is copied into `ret[i]` and the
next range starts where this one stops. -/
def copyLoop {T : Type} (bigArray : List T) : List label → List (List T) → label → List (List T)
  | [], ret, _ => ret
  | _ :: _, [], _ => []
  | s :: ss, sub :: rest, start =>
    let stop := start + s
    stdCopy bigArray start stop sub :: copyLoop bigArray ss rest stop

/-- Embeds `LoadBalancerBase::partition`: splits `bigArray` into arrays of the sizes
`subsizes`. -/
def partition {T : Type} [Inhabited T] (bigArray : List T) (subsizes : List label) :
    Except String (List (List T)) :=
  match runtime_assert (checkSizes bigArray subsizes)
      "Total send count not matching the problem count!" with
  | Except.error e => Except.error e
  | Except.ok _ =>
    let element_copy : T := if bigArray.length > 0 then bigArray.headD default else default
    match allocate element_copy subsizes with
    | Except.error e => Except.error e
    | Except.ok ret => Except.ok (copyLoop bigArray subsizes ret 0)

/-- Modelled from the spec: `merge` is not a function of the sources.  Section
4.4 describes it as concatenating the sub-sequences back into one flat
sequence, preserving the order within each chunk and the order of the
chunks. -/
def merge {T : Type} : List (List T) → List T
  | [] => []
  | chunk :: chunks => chunk ++ merge chunks

/-! ## Specification-level view of the partitioner -/

/-- Section 4.4 in its own words: contiguous sub-sequences of the given
sizes, in order, cut from `flat` beginning at position `start`. -/
def slicesFrom {T : Type} (flat : List T) : Nat → List label → List (List T)
  | _, [] => []
  | start, s :: ss => (flat.drop start).take s.toNat :: slicesFrom flat (start + s.toNat) ss

/-- The offset of the `i`-th slice: `sizes[0] + ... + sizes[i-1]`. -/
def offset (sizes : List label) (i : Nat) : label :=
  (sizes.take i).sum

/-- The value that an `int` of 32 bits holds when the exact result of an
addition is `x`: `x` itself when it lies in `[-2^31, 2^31)`, and otherwise the
number of that range that differs from `x` by a multiple of `2^32`.  The C++
standard leaves a signed overflow undefined; this is what the compiled code
computes. -/
def wrapInt32 (x : Int) : Int :=
  (x + 2147483648) % 4294967296 - 2147483648

/-- The call `std::accumulate(first, last, 0)` of `checkSizes` as the machine
runs it: the literal `0` makes the running sum an `int`, so every addition
ends in the range of an `int`. -/
def accumulateInt32 (xs : List label) (init : label) : label :=
  xs.foldl (fun acc x => wrapInt32 (acc + x)) init

/-- Embeds `LoadBalancerBase::checkSizes` with the sum of an `int`. -/
def checkSizesInt32 {T : Type} (bigArray : List T) (subsizes : List label) : Bool :=
  if accumulateInt32 subsizes 0 ≠ (bigArray.length : label) then false else true

/-- Embeds `LoadBalancerBase::partition` with the size check of
`checkSizesInt32`; the two loops are those of `partition`. -/
def partitionInt32 {T : Type} [Inhabited T] (bigArray : List T) (subsizes : List label) :
    Except String (List (List T)) :=
  match runtime_assert (checkSizesInt32 bigArray subsizes)
      "Total send count not matching the problem count!" with
  | Except.error e => Except.error e
  | Except.ok _ =>
    let element_copy : T := if bigArray.length > 0 then bigArray.headD default else default
    match allocate element_copy subsizes with
    | Except.error e => Except.error e
    | Except.ok ret => Except.ok (copyLoop bigArray subsizes ret 0)

/-- Every running sum `init + xs[0] + ... + xs[k]` lies in the range of an
`int`, so that no addition of `std::accumulate` overflows. -/
def runningSumsFit : List label → label → Bool
  | [], _ => true
  | x :: xs, acc =>
    decide (-2147483648 ≤ acc + x ∧ acc + x ≤ 2147483647) && runningSumsFit xs (acc + x)

/-! ## The exchange protocol -/

/-- Embeds `LoadBalancerBase::BalancerState`. -/
structure BalancerState where
  /-- The ranks which send to this process. -/
  sources : List label
  /-- The ranks to which this process sends. -/
  destinations : List label
  /-- The number of problems which this rank sends or receives. -/
  nProblems : List label
  deriving DecidableEq, Repr

/-- A sub-buffer in transit, with the rank of the process at the other end:
the destination for a message that is being sent, the sender for a message
that has been delivered. -/
abbrev Message (ET : Type) := label × List ET

/-- What one call of `sendRecv` does: the messages it hands to the transport
and the buffer it returns. -/
structure Exchange (ET : Type) where
  /-- The pairs (destination, sub-buffer) in the order in which they are sent. -/
  sent : List (Message ET)
  /-- The returned buffer. -/
  received : List (List ET)
  deriving DecidableEq, Repr

/-- Embeds `LoadBalancerBase::getSendBuffer`: the send buffer for the current state
and the input values. -/
def getSendBuffer {T : Type} [Inhabited T] (state_ : BalancerState) (values : List T) :
    Except String (List (List T)) :=
  if state_.destinations.length = 1 then
    Except.ok (List.replicate 1 values)
  else
    partition values state_.nProblems

/-- The send loop of `sendRecv`, from index `i` on: `send_buffer[i]` is
streamed to `destinations[i]`.  Indexing `send_buffer` outside its range is
undefined behaviour in C++; the embedding stops with an error. -/
def sendLoop {ET : Type} (send_buffer : List (List ET)) :
    List label → Nat → Except String (List (Message ET))
  | [], _ => Except.ok []
  | d :: ds, i =>
    match send_buffer[i]? with
    | none => Except.error "send_buffer index out of range"
    | some sub =>
      match sendLoop send_buffer ds (i + 1) with
      | Except.error e => Except.error e
      | Except.ok rest => Except.ok ((d, sub) :: rest)

/-- Modelled from the spec: the transport (`PstreamBuffers`, `UIPstream`) is
outside the sources.  Sections 4.5 and 7 describe it as reliable and ordered: a
receive from a source takes the oldest sub-buffer of that source that has not
been read yet.  `mailbox` holds what was delivered to this process. -/
def takeFrom {ET : Type} (source : label) :
    List (Message ET) → Option (List ET × List (Message ET))
  | [] => none
  | m :: rest =>
    if m.1 = source then some (m.2, rest)
    else
      match takeFrom source rest with
      | none => none
      | some (sub, rest2) => some (sub, m :: rest2)

/-- The receive loop of `sendRecv`: one sub-buffer is read from each entry of
`sources`, in order.  Reading from a source that has nothing left for this
process has no result (the spec calls it a protocol bug); the embedding stops
with an error. -/
def recvLoop {ET : Type} : List (Message ET) → List label → Except String (List (List ET))
  | _, [] => Except.ok []
  | mailbox, s :: ss =>
    match takeFrom s mailbox with
    | none => Except.error "nothing to receive from a declared source"
    | some (sub, mailbox2) =>
      match recvLoop mailbox2 ss with
      | Except.error e => Except.error e
      | Except.ok rest => Except.ok (sub :: rest)

/-- Embeds `LoadBalancerBase::sendRecv`: sends the split `send_buffer` to
`destinations` and receives one buffer from each of `sources`.  `parRun` is
`Pstream::parRun()` and `mailbox` is what the transport delivers to this
process once all sends are finished. -/
def sendRecv {ET : Type} (parRun : Bool) (mailbox : List (Message ET))
    (send_buffer : List (List ET)) (sources destinations : List label) :
    Except String (Exchange ET) :=
  if parRun then
    match sendLoop send_buffer destinations 0 with
    | Except.error e => Except.error e
    | Except.ok sent =>
      match recvLoop mailbox sources with
      | Except.error e => Except.error e
      | Except.ok recv_buffers => Except.ok (Exchange.mk sent recv_buffers)
  else
    Except.ok (Exchange.mk [] send_buffer)

/-- Embeds `LoadBalancerBase::balance`. -/
def balance {T : Type} [Inhabited T] (parRun : Bool) (mailbox : List (Message T))
    (state_ : BalancerState) (values : List T) : Except String (Exchange T) :=
  match getSendBuffer state_ values with
  | Except.error e => Except.error e
  | Except.ok send_buffer =>
    sendRecv parRun mailbox send_buffer state_.sources state_.destinations

/-- Embeds `LoadBalancerBase::unbalance`. -/
def unbalance {T : Type} (parRun : Bool) (mailbox : List (Message T))
    (state_ : BalancerState) (values : List (List T)) : Except String (Exchange T) :=
  sendRecv parRun mailbox values state_.destinations state_.sources

/-! ### All workers together -/

/-- One worker of a parallel run: its plan and its local units. -/
structure Worker (T : Type) where
  /-- The plan of this worker. -/
  state : BalancerState
  /-- The local flat buffer of this worker. -/
  values : List T

/-- The messages a worker hands to the transport in `balance`: the send
buffer of `getSendBuffer` run through the send loop of `sendRecv`. -/
def sentBy {T : Type} [Inhabited T] (w : Worker T) : Except String (List (Message T)) :=
  match getSendBuffer w.state w.values with
  | Except.error e => Except.error e
  | Except.ok send_buffer => sendLoop send_buffer w.state.destinations 0

/-- The messages of every worker, in rank order; a failure of one worker
ends the run. -/
def sentByAll {T : Type} [Inhabited T] : List (Worker T) → Except String (List (List (Message T)))
  | [] => Except.ok []
  | w :: ws =>
    match sentBy w with
    | Except.error e => Except.error e
    | Except.ok sent =>
      match sentByAll ws with
      | Except.error e => Except.error e
      | Except.ok rest => Except.ok (sent :: rest)

/-- Modelled from the spec: the transport is outside the sources; sections 4.5
and 7 describe it as reliable and ordered.  `deliveredTo r s allSent` is the
mailbox of rank `r`: every message addressed to `r`, tagged with the rank of
its sender, sender by sender (the senders are numbered from `s` on) and in
send order. -/
def deliveredTo {T : Type} (r : label) : Nat → List (List (Message T)) → List (Message T)
  | _, [] => []
  | s, sent :: rest =>
    ((sent.filter (fun m => decide (m.1 = r))).map (fun m => ((s : label), m.2)))
      ++ deliveredTo r (s + 1) rest

/-- The receive side of `balance` on every worker of `ws`, whose ranks start
at `r`. -/
def balanceFrom {T : Type} [Inhabited T] (allSent : List (List (Message T))) :
    Nat → List (Worker T) → Except String (List (List (List T)))
  | _, [] => Except.ok []
  | r, w :: ws =>
    match balance true (deliveredTo (r : label) 0 allSent) w.state w.values with
    | Except.error e => Except.error e
    | Except.ok ex =>
      match balanceFrom allSent (r + 1) ws with
      | Except.error e => Except.error e
      | Except.ok rest => Except.ok (ex.received :: rest)

/-- A parallel run of `balance`: worker `r` of the list has rank `r`; the
result holds the buffer that `balance` returns on each worker. -/
def balanceAll {T : Type} [Inhabited T] (workers : List (Worker T)) :
    Except String (List (List (List T))) :=
  match sentByAll workers with
  | Except.error e => Except.error e
  | Except.ok allSent => balanceFrom allSent 0 workers

/-- The number of units in a buffer of buffers. -/
def unitCount {T : Type} (buffer : List (List T)) : Nat :=
  (buffer.map List.length).sum

/-- The number of units held by all workers before the exchange. -/
def unitsBefore {T : Type} (workers : List (Worker T)) : Nat :=
  (workers.map (fun w => w.values.length)).sum

/-- The number of units held by all workers after the exchange. -/
def unitsAfter {T : Type} (results : List (List (List T))) : Nat :=
  (results.map unitCount).sum

/-- The units among `sent` that are addressed to rank `r`. -/
def unitsAddressedTo {T : Type} (r : label) (sent : List (Message T)) : Nat :=
  unitCount ((sent.filter (fun m => decide (m.1 = r))).map Prod.snd)

/-- The number of sub-buffers that the plans of `workers` address to rank `r`:
how often `r` stands among the destinations of any worker. -/
def addressedTo {T : Type} (workers : List (Worker T)) (r : Nat) : Nat :=
  (workers.map (fun w => w.state.destinations.count (r : label))).sum

/-- The number of sources that worker `r` declares. -/
def sourcesDeclared {T : Type} (workers : List (Worker T)) (r : Nat) : Nat :=
  (workers.map (fun w => w.state.sources.length)).getD r 0

/-! ## Load metrics -/

/-- Modelled from the spec: the header `ChemistryProblem.H` is not among the
sources.  Section 3 lists the fields of a work unit, and the sources use them
under these names. -/
structure ChemistryProblem where
  /-- The concentration vector. -/
  c : List scalar
  /-- The temperature. -/
  Ti : scalar
  /-- The pressure. -/
  pi : scalar
  /-- The density. -/
  rhoi : scalar
  /-- The current chemistry sub-step size. -/
  deltaTChem : scalar
  /-- The flow time step. -/
  deltaT : scalar
  /-- The last measured solve cost. -/
  cpuTime : scalar
  /-- The index of the cell of origin. -/
  cellid : label
  deriving DecidableEq, Repr

/-- Modelled from the spec: the header `ChemistryLoad.H` is not among the
sources.  Section 3 describes a load metric as a worker identifier with a
scalar cost; the sources build it as `ChemistryLoad(rank, value)`. -/
structure ChemistryLoad where
  /-- The worker identifier. -/
  rank : label
  /-- The cost. -/
  value : scalar
  deriving DecidableEq, Repr

/-- Embeds `LoadBalancerBase::computeLoad`; `myProcNo` is `Pstream::myProcNo()`. -/
def computeLoad (myProcNo : label) (problems : List ChemistryProblem) : ChemistryLoad :=
  let lambda := fun (sum : scalar) (rhs : ChemistryProblem) => sum + rhs.cpuTime
  let sum : scalar := problems.foldl lambda 0
  ChemistryLoad.mk myProcNo sum

/-- The scan of `std::min_element`: `smallest` is the position and the value
of the smallest element so far, `first` the position of the head of the rest;
the smallest moves only when `comp(*first, *smallest)`. -/
def minScan {α : Type} (comp : α → α → Bool) : Nat × α → Nat → List α → Nat × α
  | smallest, _, [] => smallest
  | smallest, first, x :: xs =>
    if comp x smallest.2 then minScan comp (first, x) (first + 1) xs
    else minScan comp smallest (first + 1) xs

/-- Embeds `std::min_element(first, last, comp)`: the position (with its element) of
the smallest element; `none` stands for the iterator `last` of an empty
range. -/
def min_element {α : Type} (comp : α → α → Bool) : List α → Option (Nat × α)
  | [] => none
  | x :: xs => some (minScan comp (0, x) 1 xs)

/-- The scan of `std::max_element`: the largest moves only when
`comp(*largest, *first)`. -/
def maxScan {α : Type} (comp : α → α → Bool) : Nat × α → Nat → List α → Nat × α
  | largest, _, [] => largest
  | largest, first, x :: xs =>
    if comp largest.2 x then maxScan comp (first, x) (first + 1) xs
    else maxScan comp largest (first + 1) xs

/-- Embeds `std::max_element(first, last, comp)`: the position (with its element) of
the largest element; `none` stands for the iterator `last` of an empty
range. -/
def max_element {α : Type} (comp : α → α → Bool) : List α → Option (Nat × α)
  | [] => none
  | x :: xs => some (maxScan comp (0, x) 1 xs)

/-- Embeds `LoadBalancerBase::getMin`.  Dereferencing the end iterator of an empty
list is undefined behaviour in C++; the embedding has no result there. -/
def getMin (vec : List ChemistryLoad) : Option ChemistryLoad :=
  let comp := fun (lhs rhs : ChemistryLoad) => decide (lhs.value < rhs.value)
  (min_element comp vec).map (fun it => it.2)

/-- Embeds `LoadBalancerBase::getMax`.  Dereferencing the end iterator of an empty
list is undefined behaviour in C++; the embedding has no result there. -/
def getMax (vec : List ChemistryLoad) : Option ChemistryLoad :=
  let comp := fun (lhs rhs : ChemistryLoad) => decide (lhs.value < rhs.value)
  (max_element comp vec).map (fun it => it.2)

/-! ## The state of the balancer -/

/-- Embeds `LoadBalancerBase::getMean` in exact arithmetic: the accumulated values
divided by the number of loads.  The C++ divides by zero on an empty list.
`getMeanDouble` is the mean with the rounding of `double` arithmetic. -/
def getMean (loads : List ChemistryLoad) : scalar :=
  let op := fun (sum : scalar) (load : ChemistryLoad) => sum + load.value
  loads.foldl op 0 / (loads.length : scalar)

/-- The loop of `rankToLoadIdx` from index `i` on, over the loads not yet
visited. -/
def rankToLoadIdxFrom (rank : label) : List ChemistryLoad → label → Except String label
  | [], _ => Except.error "Could not find my rank from loads."
  | load :: rest, i =>
    if load.rank = rank then Except.ok i else rankToLoadIdxFrom rank rest (i + 1)

/-- Embeds `LoadBalancerBase::rankToLoadIdx`: the index of the load having
`load.rank = rank`. -/
def rankToLoadIdx (loads : List ChemistryLoad) (rank : label) : Except String label :=
  rankToLoadIdxFrom rank loads 0

/-- The data member of the class `LoadBalancerBase`. -/
structure LoadBalancerBase where
  /-- The current state of the object. -/
  state_ : BalancerState
  deriving DecidableEq, Repr

/-- Embeds `LoadBalancerBase::validState`: the body of checks is commented out
in the source ("TODO: enable") and the function returns true. -/
def validState (_self : LoadBalancerBase) : Bool :=
  true

/-- Embeds `LoadBalancerBase::vectorToString`: the entries between brackets,
each one followed by a blank. -/
def vectorToString (vec : List label) : String :=
  (vec.foldl (fun (ret : String) (v : label) => ret ++ toString v ++ " ") "(") ++ ")"

/-- Embeds `LoadBalancerBase::printState`: the text streamed to `Pout`,
without the end of line.  Calling `back()` on an empty `nProblems` is
undefined behaviour in C++; the embedding prints nothing for it. -/
def printState (myProcNo : label) (self : LoadBalancerBase) : String :=
  if self.state_.sources.length > 1 then
    "Receiver rank: " ++ toString myProcNo ++ " receives from "
      ++ vectorToString self.state_.sources ++ " own problems "
      ++ vectorToString self.state_.nProblems
  else if self.state_.destinations.length > 1 then
    "Sender rank: " ++ toString myProcNo ++ " sends to: "
      ++ vectorToString self.state_.destinations ++ " counts: "
      ++ vectorToString self.state_.nProblems ++ " remaining problems:  "
      ++ (match self.state_.nProblems.getLast? with
          | some n => toString n
          | none => "")
  else
    "Rank: " ++ toString myProcNo ++ " does not take part in balancing."

/-- What a call of `setState` leaves behind: the object, the text printed and
the error thrown, if any. -/
structure SetStateOutcome where
  /-- The object after the call. -/
  self : LoadBalancerBase
  /-- The text streamed to `Pout`, if any. -/
  printed : Option String
  /-- The error thrown, if any. -/
  thrown : Option String
  deriving DecidableEq, Repr

/-- Embeds `LoadBalancerBase::setState`: the state is stored first; an invalid
state is printed and an error is thrown. -/
def setState (myProcNo : label) (_self : LoadBalancerBase) (state : BalancerState) :
    SetStateOutcome :=
  let self : LoadBalancerBase := LoadBalancerBase.mk state
  if !validState self then
    SetStateOutcome.mk self (some (printState myProcNo self))
      (some "Invalid balance state in ChemistryLoadBalancing.")
  else
    SetStateOutcome.mk self none none

/-- Embeds `LoadBalancerBase::getState`. -/
def getState (self : LoadBalancerBase) : BalancerState :=
  self.state_

/-! ## The collective gather -/

/-- The first two statements of `allGather` on one process: a list of
`nProcs` copies of `myData` whose entry `myProcNo` is assigned `myData`. -/
def allGatherLocal {T : Type} (nProcs myProcNo : Nat) (myData : T) : List T :=
  (List.replicate nProcs myData).set myProcNo myData

/-- Modelled from the spec: `Pstream::gatherList` belongs to the OpenFOAM
library.  Section 4.2 describes the gather as indexed by worker id: after the
call the list of the master (rank 0) holds at index `i` the entry `i` of the
list of worker `i`.  `lists[r]` is the list of worker `r`. -/
def gatherList {T : Type} (lists : List (List T)) : List (List T) :=
  match lists with
  | [] => []
  | master :: others =>
    (List.range lists.length).foldl
      (fun acc i =>
        match (lists.getD i [])[i]? with
        | some v => acc.set i v
        | none => acc)
      master :: others

/-- Modelled from the spec: `Pstream::scatterList` belongs to the OpenFOAM
library.  Section 4.2 asks for the same list on every worker after the call:
the list of the master is sent to every worker. -/
def scatterList {T : Type} (lists : List (List T)) : List (List T) :=
  match lists with
  | [] => []
  | master :: others => master :: others.map (fun _ => master)

/-- A run of `allGather` on all workers: worker `r` calls it with `datas[r]`,
and entry `r` of the result is the list that the call returns on worker
`r`. -/
def allGatherAll {T : Type} (datas : List T) : List (List T) :=
  scatterList
    (gatherList
      (List.zipWith (fun r myData => allGatherLocal datas.length r myData)
        (List.range datas.length) datas))

/-- Embeds `LoadBalancerBase::allGather` on the process whose rank is
`before.length`: `before` and `after` are the data of the workers of lower
and of higher rank. -/
def allGather {T : Type} (before : List T) (myData : T) (after : List T) : List T :=
  (allGatherAll (before ++ myData :: after)).getD before.length []

/-! ## The reference mapper -/

/-- Modelled from the spec: the header `mixtureFractionRefMapper.H` is not
among the sources.  Section 4.6 gives the mapper fixed weights per species,
two calibration bounds, two tolerances, and a reference with a flag that says
whether one has been found; the names are those used in
`mixtureFractionRefMapper.C`, with `alpha` and `beta_of` for what
`mixture_fraction_.get_alpha()` and `mixture_fraction_.get_beta()` return. -/
structure mixtureFractionRefMapper where
  /-- The weights per species. -/
  alpha : List scalar
  /-- The two calibration bounds. -/
  beta_of : List scalar
  /-- The tolerance on the mixing coordinate. -/
  tolerance_ : scalar
  /-- The tolerance on the temperature. -/
  temperature_tolerance_ : scalar
  /-- Whether a reference has been found. -/
  refCellFound_ : Bool
  /-- The reference. -/
  globalReference : ChemistryProblem
  deriving DecidableEq, Repr

/-- The loop `forAll(problem.c, iField) beta += alpha[iField] * problem.c[iField]`
of `check_if_refcell`.  Reading `alpha` outside its range is undefined
behaviour in C++; the embedding reads 0. -/
def accumulateBeta (alpha c : List scalar) : scalar :=
  (List.range c.length).foldl
    (fun (beta : scalar) (iField : Nat) => beta + alpha.getD iField 0 * c.getD iField 0) 0

/-- The comparison `Z < tolerance_` of `check_if_refcell` for the quotient
`Z = num / den` of two `double`s.  A division by zero does not stop the
program: it gives an infinity with the sign of the numerator, and no number at
all for `0 / 0`; of these only minus infinity is below a tolerance. -/
def quotientBelow (num den tolerance : scalar) : Bool :=
  if den = 0 then decide (num < 0) else decide (num / den < tolerance)

/-- Embeds `mixtureFractionRefMapper::check_if_refcell`, a member function
that is not `const`: the result comes with the mapper after the call.  `Z` is
only used in the comparison `Z < tolerance_`, which is `quotientBelow`. -/
def check_if_refcell (self : mixtureFractionRefMapper) (problem : ChemistryProblem) :
    Bool × mixtureFractionRefMapper :=
  let beta_of := self.beta_of
  let alpha := self.alpha
  let beta : scalar := accumulateBeta alpha problem.c
  let Z_below_tolerance : Bool :=
    quotientBelow (beta - beta_of.getD 0 0) (beta_of.getD 1 0 - beta_of.getD 0 0)
      self.tolerance_
  if self.refCellFound_ && Z_below_tolerance
      && decide (|problem.Ti - self.globalReference.Ti| < self.temperature_tolerance_) then
    (true, self)
  else if !self.refCellFound_ && Z_below_tolerance then
    (true, self)
  else
    (false, self)

/-- Embeds `mixtureFractionRefMapper::shouldMap`. -/
def shouldMap (self : mixtureFractionRefMapper) (problem : ChemistryProblem) :
    Bool × mixtureFractionRefMapper :=
  check_if_refcell self problem

/-- Embeds `mixtureFractionRefMapper::getGlobalRef` on the process whose rank
is `before.length`; `before` and `after` are the candidates of the other
workers.  The result is the returned reference with the mapper after the
call; `none` stands for dereferencing the end iterator of an empty list. -/
def getGlobalRef (self : mixtureFractionRefMapper) (before : List ChemistryProblem)
    (problem : ChemistryProblem) (after : List ChemistryProblem) :
    Option (ChemistryProblem × mixtureFractionRefMapper) :=
  let refMapList := allGather before problem after
  let filter := fun (lhs rhs : ChemistryProblem) => decide (lhs.Ti < rhs.Ti)
  match max_element filter refMapList with
  | none => none
  | some it =>
    some (it.2,
      mixtureFractionRefMapper.mk self.alpha self.beta_of self.tolerance_
        self.temperature_tolerance_ true it.2)

/-- A call on the mapper. -/
inductive MapperCall where
  /-- The call `shouldMap(problem)`. -/
  | shouldMap (problem : ChemistryProblem)
  /-- The call `getGlobalRef(problem)`, with the candidates of the other workers. -/
  | getGlobalRef (before : List ChemistryProblem) (problem : ChemistryProblem)
      (after : List ChemistryProblem)

/-- The mapper after one call. -/
def applyCall (self : mixtureFractionRefMapper) : MapperCall → Option mixtureFractionRefMapper
  | MapperCall.shouldMap problem => some (shouldMap self problem).2
  | MapperCall.getGlobalRef before problem after =>
    (getGlobalRef self before problem after).map (fun r => r.2)

/-- The mapper after a sequence of calls. -/
def applyCalls (self : mixtureFractionRefMapper) : List MapperCall → Option mixtureFractionRefMapper
  | [] => some self
  | call :: calls =>
    match applyCall self call with
    | none => none
    | some next => applyCalls next calls

/-- The mixing coordinate in the words of the claims:
`Z = (sum_i alpha[i] * c[i] - beta_of[0]) / (beta_of[1] - beta_of[0])`. -/
def mixingCoordinate (self : mixtureFractionRefMapper) (problem : ChemistryProblem) : scalar :=
  (((List.range problem.c.length).map
      (fun i => self.alpha.getD i 0 * problem.c.getD i 0)).sum - self.beta_of.getD 0 0)
    / (self.beta_of.getD 1 0 - self.beta_of.getD 0 0)

/-! ## Solutions and the chemistry model -/

/-- Embeds the struct `ChemistrySolution` of `ChemistrySolution.H`. -/
structure ChemistrySolution where
  /-- The concentration increments, `(c_{i+1} - c_i) / deltaT`. -/
  c_increment : List scalar
  /-- The recommended chemistry sub-step size. -/
  deltaTChem : scalar
  /-- The measured solve cost. -/
  cpuTime : scalar
  /-- The index of the cell of origin. -/
  cellid : label
  /-- The density. -/
  rhoi : scalar
  deriving DecidableEq, Repr

/-- Embeds the constructor `ChemistrySolution(label nspecie)`.  The constructor
leaves `cpuTime` without a value; the embedding gives it 0. -/
def ChemistrySolution.ofSpecies (nspecie : label) : ChemistrySolution :=
  ChemistrySolution.mk (List.replicate nspecie.toNat 0) 0 0 0 0

/-- Embeds `ChemistrySolution::operator==`, whose body is `return false`
("TODO: implement!"). -/
def ChemistrySolution.operator_eq (_self _rhs : ChemistrySolution) : Bool :=
  false

/-- Embeds `ChemistrySolution::operator!=`: the negation of `operator==`. -/
def ChemistrySolution.operator_ne (self rhs : ChemistrySolution) : Bool :=
  !(ChemistrySolution.operator_eq self rhs)

/-- A read `field[i]` with an index of type `label`.  Outside the field the
read is undefined behaviour in C++; the embedding reads 0. -/
def readAt (field : List scalar) (i : label) : scalar :=
  if i < 0 then 0 else field.getD i.toNat 0

/-- A write `field[i] = v` with an index of type `label`.  Outside the field
the write is undefined behaviour in C++; the embedding skips it. -/
def writeAt (field : List scalar) (i : label) (v : scalar) : List scalar :=
  if i < 0 then field else field.set i.toNat v

/-- What the pure virtual `solve(p, T, c, li, deltaT, subDeltaT)` leaves in
its reference arguments. -/
structure OdeResult where
  /-- The pressure after the call. -/
  p : scalar
  /-- The temperature after the call. -/
  T : scalar
  /-- The concentrations after the call. -/
  c : List scalar
  /-- The time step that was integrated. -/
  deltaT : scalar
  /-- The sub-step size recommended for the next call. -/
  subDeltaT : scalar

/-- The collaborators of the chemistry model that are outside the sources:
the injected ODE solver, the clock, the constants `small` and `great` of the
OpenFOAM library, and the conversion that hands the mass fractions of a cell
to `shouldMap` (declared in headers that are not among the sources). -/
structure Collaborators where
  /-- The pure virtual `solve(p, T, c, li, deltaT, subDeltaT)`. -/
  solve : scalar → scalar → List scalar → label → scalar → scalar → OdeResult
  /-- The value of `clockTime::timeIncrement()` after solving a problem. -/
  timeIncrement : ChemistryProblem → scalar
  /-- The constant `small`. -/
  small : scalar
  /-- The constant `great`. -/
  great : scalar
  /-- The argument of `shouldMap` made from the mass fractions of a cell. -/
  asMapperInput : List scalar → ChemistryProblem

/-- The members of `LoadBalancedChemistryModel` and of its base class
`StandardChemistryModel` that the functions of `LoadBalancedChemistryModel.C`
read or write.  Fields per cell are indexed by the cell, `Y_` and `RR_` first
by the species. -/
structure LoadBalancedChemistryModel where
  /-- The number of species. -/
  nSpecie_ : Nat
  /-- The mass fractions, `Y_[i][celli]`. -/
  Y_ : List (List scalar)
  /-- The molar masses, `specieThermos_[i].W()`. -/
  W : List scalar
  /-- The reaction rates, `RR_[i][celli]`. -/
  RR_ : List (List scalar)
  /-- The concentrations of the cell at hand. -/
  c_ : List scalar
  /-- The chemistry sub-step size of each cell. -/
  deltaTChem_ : List scalar
  /-- The largest chemistry sub-step size allowed. -/
  deltaTChemMax_ : scalar
  /-- The temperature below which a cell does not react, `Treact()`. -/
  Treact : scalar
  /-- The temperature field, `thermo().T()`. -/
  T : List scalar
  /-- The pressure field, `thermo().p()`. -/
  p : List scalar
  /-- The density field, `thermo().rho()`. -/
  rho : List scalar
  /-- The last measured solve cost of each cell. -/
  cpuTimes_ : List scalar
  /-- The reference mapper. -/
  mapper_ : mixtureFractionRefMapper
  /-- The value of `mapper_.active()`. -/
  mapperActive : Bool

/-- Embeds `LoadBalancedChemistryModel::computeConcentration`. -/
def computeConcentration (self : LoadBalancedChemistryModel) (rho : scalar) (i : Nat)
    (celli : label) : scalar :=
  rho * readAt (self.Y_.getD i []) celli / self.W.getD i 0

/-- Embeds `LoadBalancedChemistryModel::computeReactionRate`. -/
def computeReactionRate (self : LoadBalancedChemistryModel) (j : Nat)
    (solution : ChemistrySolution) : scalar :=
  solution.c_increment.getD j 0 * self.W.getD j 0

/-- Embeds `LoadBalancedChemistryModel::getMassFraction`. -/
def getMassFraction (self : LoadBalancedChemistryModel) (problem : ChemistryProblem) :
    List scalar :=
  (List.range self.nSpecie_).foldl
    (fun (tmp : List scalar) (i : Nat) => tmp.set i (readAt (self.Y_.getD i []) problem.cellid))
    (List.replicate self.nSpecie_ 0)

/-- The loop `for (j < nSpecie) RR_[j][i] = value(j)` over the species. -/
def writeColumn (RR : List (List scalar)) (nSpecie : Nat) (i : label) (value : Nat → scalar) :
    List (List scalar) :=
  (List.range nSpecie).foldl
    (fun (rr : List (List scalar)) (j : Nat) => rr.set j (writeAt (rr.getD j []) i (value j)))
    RR

/-- Embeds `LoadBalancedChemistryModel::updateReactionRate`. -/
def updateReactionRate (self : LoadBalancedChemistryModel) (solution : ChemistrySolution)
    (i : label) : LoadBalancedChemistryModel :=
  { self with
    RR_ := writeColumn self.RR_ self.nSpecie_ i (fun j => computeReactionRate self j solution)
    deltaTChem_ := writeAt self.deltaTChem_ i (min solution.deltaTChem self.deltaTChemMax_) }

/-- The loop `while (timeLeft > small)` of `solveSingle`.  How often the loop
runs is up to the injected solver, so the embedding counts the rounds down
from `fuel` and has no result when they are used up. -/
def solveLoop (env : Collaborators) : Nat → scalar → ChemistryProblem → Option ChemistryProblem
  | 0, timeLeft, problem => if timeLeft > env.small then none else some problem
  | fuel + 1, timeLeft, problem =>
    if timeLeft > env.small then
      let dt := timeLeft
      let r := env.solve problem.pi problem.Ti problem.c 0 dt problem.deltaTChem
      solveLoop env fuel (timeLeft - r.deltaT)
        { problem with pi := r.p, Ti := r.T, c := r.c, deltaTChem := r.subDeltaT }
    else some problem

/-- Embeds `LoadBalancedChemistryModel::solveSingle`: the problem and the
solution after the call. -/
def solveSingle (env : Collaborators) (self : LoadBalancedChemistryModel) (fuel : Nat)
    (problem : ChemistryProblem) (solution : ChemistrySolution) :
    Option (ChemistryProblem × ChemistrySolution) :=
  let timeLeft := problem.deltaT
  let c0 := problem.c
  match solveLoop env fuel timeLeft problem with
  | none => none
  | some solved =>
    some (solved,
      { solution with
        c_increment := List.zipWith (fun (c1 c2 : scalar) => (c1 - c2) / solved.deltaT) solved.c c0
        deltaTChem := min solved.deltaTChem self.deltaTChemMax_
        cpuTime := env.timeIncrement problem
        cellid := solved.cellid
        rhoi := solved.rhoi })

/-- One round of the loops of `updateReactionRates`: the rates, the sub-step
size and the cost of one solution are stored at its `cellid`, and the running
minimum is updated. -/
def storeSolution (acc : LoadBalancedChemistryModel × scalar) (solution : ChemistrySolution) :
    LoadBalancedChemistryModel × scalar :=
  let self := acc.1
  let deltaTMin := acc.2
  ({ self with
      RR_ := writeColumn self.RR_ self.nSpecie_ solution.cellid
        (fun j => computeReactionRate self j solution)
      deltaTChem_ := writeAt self.deltaTChem_ solution.cellid
        (min solution.deltaTChem self.deltaTChemMax_)
      cpuTimes_ := writeAt self.cpuTimes_ solution.cellid solution.cpuTime },
    min solution.deltaTChem deltaTMin)

/-- Embeds `LoadBalancedChemistryModel::updateReactionRates`: the object after
the call and the returned minimum. -/
def updateReactionRates (env : Collaborators) (self : LoadBalancedChemistryModel)
    (solutions : List (List ChemistrySolution)) : LoadBalancedChemistryModel × scalar :=
  solutions.foldl (fun acc array => array.foldl storeSolution acc) (self, env.great)

/-- The inner loop of the second loop nest of `solveBuffer`: `solveSingle` on
every problem of a sub-buffer with its slot of the solutions. -/
def solveRow (env : Collaborators) (self : LoadBalancedChemistryModel) (fuel : Nat) :
    List ChemistryProblem → List ChemistrySolution → Option (List ChemistrySolution)
  | problem :: problems, solution :: solutions =>
    match solveSingle env self fuel problem solution with
    | none => none
    | some (_, solved) =>
      match solveRow env self fuel problems solutions with
      | none => none
      | some rest => some (solved :: rest)
  | _, solutions => some solutions

/-- The outer loop of the second loop nest of `solveBuffer`. -/
def solveRows (env : Collaborators) (self : LoadBalancedChemistryModel) (fuel : Nat) :
    List (List ChemistryProblem) → List (List ChemistrySolution) →
      Option (List (List ChemistrySolution))
  | problems :: more, sublist :: solutions =>
    match solveRow env self fuel problems sublist with
    | none => none
    | some row =>
      match solveRows env self fuel more solutions with
      | none => none
      | some rest => some (row :: rest)
  | _, solutions => some solutions

/-- Embeds `LoadBalancedChemistryModel::solveBuffer`: the solutions buffer is
allocated with the sizes of the problems and filled by `solveSingle`. -/
def solveBuffer (env : Collaborators) (self : LoadBalancedChemistryModel) (fuel : Nat)
    (problems : List (List ChemistryProblem)) : Option (List (List ChemistrySolution)) :=
  let solutions := problems.map
    (fun sub => List.replicate sub.length (ChemistrySolution.ofSpecies self.nSpecie_))
  solveRows env self fuel problems solutions

/-! ## Collecting the problems of a process -/

/-- The local variables of `getProblems` together with the object.
`solveCalls` is a trace kept for counting: the problems that were handed to
`solveSingle`, in the order of the calls. -/
structure ProblemPass where
  /-- The object. -/
  self : LoadBalancedChemistryModel
  /-- The local flag `refCellFound`. -/
  refCellFound : Bool
  /-- The local list `chem_problems`, which `getProblems` returns. -/
  chem_problems : List ChemistryProblem
  /-- The local `ref_solution`. -/
  ref_solution : ChemistrySolution
  /-- The trace of the calls of `solveSingle`. -/
  solveCalls : List ChemistryProblem

/-- The loop `for (i < nSpecie_) c_[i] = computeConcentration(rho[celli], i, celli)`
of `getProblems`. -/
def concentrationLoop (self : LoadBalancedChemistryModel) (celli : Nat) :
    LoadBalancedChemistryModel :=
  { self with
    c_ := (List.range self.nSpecie_).foldl
      (fun (c : List scalar) (i : Nat) =>
        c.set i (computeConcentration self (self.rho.getD celli 0) i (celli : label)))
      self.c_ }

/-- The problem that `getProblems` creates for a cell; `deltaT` is the flow
time step of the cell. -/
def createProblem (self : LoadBalancedChemistryModel) (deltaT : scalar) (celli : Nat) :
    ChemistryProblem :=
  { c := self.c_
    Ti := self.T.getD celli 0
    pi := self.p.getD celli 0
    rhoi := self.rho.getD celli 0
    deltaTChem := self.deltaTChem_.getD celli 0
    deltaT := deltaT
    cpuTime := self.cpuTimes_.getD celli 0
    cellid := (celli : label) }

/-- The condition `mapper_.active() && mapper_.shouldMap(getMassFraction(problem))`
of `getProblems`, with the mapper after it. -/
def askMapper (env : Collaborators) (self : LoadBalancedChemistryModel)
    (problem : ChemistryProblem) : Bool × mixtureFractionRefMapper :=
  if self.mapperActive then
    shouldMap self.mapper_ (env.asMapperInput (getMassFraction self problem))
  else
    (false, self.mapper_)

/-- The body of the loop `forAll(p, celli)` of `getProblems`. -/
def visitCell (env : Collaborators) (fuel : Nat) (deltaT : Nat → scalar) (pass : ProblemPass)
    (celli : Nat) : Option ProblemPass :=
  let self := concentrationLoop pass.self celli
  let Ti := self.T.getD celli 0
  if Ti > self.Treact then
    let problem := createProblem self (deltaT celli) celli
    let asked := askMapper env self problem
    let self := { self with mapper_ := asked.2 }
    if asked.1 then
      if !pass.refCellFound then
        match solveSingle env self fuel problem pass.ref_solution with
        | none => none
        | some (_, ref_solution) =>
          let self := updateReactionRate self ref_solution ref_solution.cellid
          some
            { self :=
                { self with
                  cpuTimes_ := writeAt self.cpuTimes_ ref_solution.cellid ref_solution.cpuTime }
              refCellFound := true
              chem_problems := pass.chem_problems
              ref_solution := ref_solution
              solveCalls := pass.solveCalls ++ [problem] }
      else
        let self := updateReactionRate self pass.ref_solution (celli : label)
        some
          { pass with
            self :=
              { self with
                cpuTimes_ := writeAt self.cpuTimes_ (celli : label) pass.ref_solution.cpuTime } }
    else
      some { pass with self := self, chem_problems := pass.chem_problems ++ [problem] }
  else
    some
      { pass with
        self :=
          { self with RR_ := writeColumn self.RR_ self.nSpecie_ (celli : label) (fun _ => 0) } }

/-- The loop `forAll(p, celli)` of `getProblems` over the cells `cells`. -/
def visitCells (env : Collaborators) (fuel : Nat) (deltaT : Nat → scalar) :
    List Nat → ProblemPass → Option ProblemPass
  | [], pass => some pass
  | celli :: cells, pass =>
    match visitCell env fuel deltaT pass celli with
    | none => none
    | some next => visitCells env fuel deltaT cells next

/-- Embeds `LoadBalancedChemistryModel::getProblems`: the returned list is
`chem_problems` of the result, which also holds the object after the call.
`deltaT` gives the flow time step of each cell. -/
def getProblems (env : Collaborators) (self : LoadBalancedChemistryModel) (fuel : Nat)
    (deltaT : Nat → scalar) : Option ProblemPass :=
  visitCells env fuel deltaT (List.range self.p.length)
    { self := self
      refCellFound := false
      chem_problems := []
      ref_solution := ChemistrySolution.ofSpecies self.nSpecie_
      solveCalls := [] }

/-! ### The words of the claims about `getProblems` -/

/-- The cell is above the reaction threshold: `T[celli] > Treact`. -/
def reacts (self : LoadBalancedChemistryModel) (celli : Nat) : Bool :=
  decide (self.T.getD celli 0 > self.Treact)

/-- The mapper is active and `shouldMap` is true for the mass fractions of the
cell. -/
def mapperAccepts (env : Collaborators) (self : LoadBalancedChemistryModel) (celli : Nat) :
    Bool :=
  self.mapperActive &&
    (shouldMap self.mapper_
      (env.asMapperInput (getMassFraction self (createProblem self 0 celli)))).1

/-- The cell is mapped: it is above the threshold and the mapper accepts it. -/
def mapped (env : Collaborators) (self : LoadBalancedChemistryModel) (celli : Nat) : Bool :=
  reacts self celli && mapperAccepts env self celli

/-- The entry `RR[j][m]`, if it exists. -/
def entry (RR : List (List scalar)) (j m : Nat) : Option scalar :=
  (RR.getD j [])[m]?

/-- The injected solver makes progress: of a step of size `dt > small` it
integrates at least `min(delta, dt)`, for a positive `delta`. -/
def odeProgress (env : Collaborators) (delta : scalar) : Prop :=
  0 < delta ∧ 0 ≤ env.small ∧
    ∀ (p T : scalar) (c : List scalar) (li : label) (dt subDeltaT : scalar),
      env.small < dt → min delta dt ≤ (env.solve p T c li dt subDeltaT).deltaT

/-! ## A small configuration for the instances -/

/-- Collaborators for the instances: a solver that integrates the whole step
and leaves the state as it is, a clock that always measures 1, and the
constants `small = 1e-15` and `great = 1e15`. -/
def exampleCollaborators : Collaborators :=
  { solve := fun p T c _ dt subDeltaT => OdeResult.mk p T c dt subDeltaT
    timeIncrement := fun _ => 1
    small := 1 / 1000000000000000
    great := 1000000000000000
    asMapperInput := fun y => ChemistryProblem.mk y 0 0 0 0 0 0 0 }

/-- A model for the instances: two species and five cells, of which cell 2 is
below the reaction threshold and the mapper accepts the cells 0 and 3. -/
def exampleModel : LoadBalancedChemistryModel :=
  { nSpecie_ := 2
    Y_ := [[0, 1, 0, 0, 1], [1, 0, 1, 1, 0]]
    W := [2, 4]
    RR_ := [[9, 9, 9, 9, 9], [9, 9, 9, 9, 9]]
    c_ := [0, 0]
    deltaTChem_ := [1, 1, 1, 1, 1]
    deltaTChemMax_ := 5
    Treact := 300
    T := [400, 500, 200, 600, 700]
    p := [1, 1, 1, 1, 1]
    rho := [1, 1, 1, 1, 1]
    cpuTimes_ := [0, 0, 0, 0, 0]
    mapper_ := mixtureFractionRefMapper.mk [1, 0] [0, 1] (1 / 10) 10 false
      (ChemistryProblem.mk [] 0 0 0 0 0 0 0)
    mapperActive := true }

/-- The two models agree on everything that `getProblems` only reads: the
number of species, the mass fractions, the molar masses, the largest
sub-step size, the threshold, the thermodynamic fields and the mapper. -/
def sameSetup (a b : LoadBalancedChemistryModel) : Prop :=
  a.nSpecie_ = b.nSpecie_ ∧ a.Y_ = b.Y_ ∧ a.W = b.W ∧ a.deltaTChemMax_ = b.deltaTChemMax_ ∧
    a.Treact = b.Treact ∧ a.T = b.T ∧ a.p = b.p ∧ a.rho = b.rho ∧ a.mapper_ = b.mapper_ ∧
    a.mapperActive = b.mapperActive

/-- Wherever the fields have an entry for the cell, the entry is the one that
`updateReactionRate(ref, celli)` and `cpuTimes_[celli] = ref.cpuTime` write.
This says nothing about a field that is too short for the cell; `storedFrom`
does. -/
def agreesWith (self : LoadBalancedChemistryModel) (ref : ChemistrySolution) (celli : Nat) :
    Prop :=
  (∀ j v, j < self.nSpecie_ → entry self.RR_ j celli = some v →
    v = ref.c_increment.getD j 0 * self.W.getD j 0) ∧
  (∀ v, self.deltaTChem_[celli]? = some v → v = min ref.deltaTChem self.deltaTChemMax_) ∧
  (∀ v, self.cpuTimes_[celli]? = some v → v = ref.cpuTime)

/-- The cell is kept for the balancer: it is above the threshold and the
mapper does not accept it. -/
def kept (env : Collaborators) (self : LoadBalancedChemistryModel) (celli : Nat) : Bool :=
  reacts self celli && !mapperAccepts env self celli

/-- The fields that `getProblems` and `updateReactionRates` write have an
entry for the cell: `RR_[j][celli]` for every species `j`, `deltaTChem_[celli]`
and `cpuTimes_[celli]`. -/
def hasCell (self : LoadBalancedChemistryModel) (celli : Nat) : Prop :=
  (∀ j, j < self.nSpecie_ → celli < (self.RR_.getD j []).length) ∧
    celli < self.deltaTChem_.length ∧ celli < self.cpuTimes_.length

/-- The written fields of the two models have the same sizes. -/
def sameShape (a b : LoadBalancedChemistryModel) : Prop :=
  (∀ j, (a.RR_.getD j []).length = (b.RR_.getD j []).length) ∧
    a.deltaTChem_.length = b.deltaTChem_.length ∧ a.cpuTimes_.length = b.cpuTimes_.length

/-- The cell holds what `updateReactionRate(ref, celli)` and
`cpuTimes_[celli] = ref.cpuTime` store: the reaction rate of every species is
`ref.c_increment[j] * W[j]`, the sub-step size is
`min(ref.deltaTChem, deltaTChemMax_)` and the cost is `ref.cpuTime`. -/
def storedFrom (self : LoadBalancedChemistryModel) (ref : ChemistrySolution) (celli : Nat) :
    Prop :=
  (∀ j, j < self.nSpecie_ →
    entry self.RR_ j celli = some (ref.c_increment.getD j 0 * self.W.getD j 0)) ∧
  self.deltaTChem_[celli]? = some (min ref.deltaTChem self.deltaTChemMax_) ∧
  self.cpuTimes_[celli]? = some ref.cpuTime

/-! ## The mean in `double` arithmetic -/

/-- The integer nearest to `x`; of two integers equally near, the even one. -/
def roundHalfEven (x : ℚ) : ℤ :=
  if x - (⌊x⌋ : ℚ) < 1 / 2 then ⌊x⌋
  else if 1 / 2 < x - (⌊x⌋ : ℚ) then ⌊x⌋ + 1
  else if ⌊x⌋ % 2 = 0 then ⌊x⌋ else ⌊x⌋ + 1

/-- The `double` that an arithmetic operation returns when its exact result
is `q`: the nearest number with a significand of 53 bits (an integer multiple
of `2^e`, where `e` is 52 below the binary exponent of `q` and at least
-1074), ties to the even significand.  It holds for results below the
overflow threshold of `double`. -/
def roundDouble (q : ℚ) : ℚ :=
  if q = 0 then 0
  else
    let e : ℤ := max (Int.log 2 |q| - 52) (-1074)
    (roundHalfEven (q / (2 : ℚ) ^ e) : ℚ) * (2 : ℚ) ^ e

/-- Embeds `LoadBalancerBase::getMean` in `double` arithmetic: every addition of the
accumulation and the final division return the nearest `double`.  The loads
are taken to hold `double`s. -/
def getMeanDouble (loads : List ChemistryLoad) : scalar :=
  let op := fun (sum : scalar) (load : ChemistryLoad) => roundDouble (sum + load.value)
  roundDouble (loads.foldl op 0 / (loads.length : scalar))

/-- The `double` nearest to 0.1, `0x1.999999999999ap-4`. -/
def doubleTenth : scalar :=
  7205759403792794 / 72057594037927936

/-! ## Lemmas on the library primitives -/

theorem accumulate_eq (xs : List label) : ∀ init : label, accumulate xs init = init + xs.sum := by
  induction xs with
  | nil => intro init; simp [accumulate]
  | cons x xs ih =>
    intro init
    have h := ih (init + x)
    simp only [accumulate, List.foldl_cons, List.sum_cons] at h ⊢
    rw [h]; ring

theorem checkSizes_iff {T : Type} (bigArray : List T) (subsizes : List label) :
    checkSizes bigArray subsizes = true ↔ subsizes.sum = (bigArray.length : label) := by
  unfold checkSizes
  rw [accumulate_eq]
  by_cases h : subsizes.sum = (bigArray.length : label)
  · simp [h]
  · simp [h]

theorem copyFold_eq {T : Type} (src : List T) (f : Nat) :
    ∀ (n : Nat) (dst : List T), n ≤ dst.length → f + n ≤ src.length →
      (List.range n).foldl
        (fun d k =>
          match src[f + k]? with
          | some x => d.set k x
          | none => d) dst
        = (src.drop f).take n ++ dst.drop n := by
  intro n
  induction n with
  | zero => intro dst _ _; simp
  | succ n ih =>
    intro dst hd hs
    rw [List.range_succ, List.foldl_append, ih dst (by omega) (by omega)]
    have hlt : f + n < src.length := by omega
    simp only [List.foldl_cons, List.foldl_nil, List.getElem?_eq_getElem hlt]
    have hlen : ((src.drop f).take n).length = n := by
      simp [List.length_take, List.length_drop]; omega
    have hdn : n < dst.length := by omega
    rw [List.set_append_right _ _ (by omega), hlen, Nat.sub_self,
      List.drop_eq_getElem_cons hdn, List.set_cons_zero]
    rw [List.take_succ, List.append_assoc]
    congr 1
    simp [List.getElem?_drop, List.getElem?_eq_getElem hlt]

/-- Inside the array, `std::copy` into a destination of exactly the right
size produces the slice of the source. -/
theorem stdCopy_eq {T : Type} (src : List T) (start : Nat) (s : label) (dst : List T)
    (hdst : dst.length = s.toNat) (hin : start + s.toNat ≤ src.length) :
    stdCopy src (start : label) ((start : label) + s) dst = (src.drop start).take s.toNat := by
  unfold stdCopy
  have h1 : ((start : label) + s - (start : label)).toNat = s.toNat := by
    congr 1; ring
  have h2 : (start : label).toNat = start := Int.toNat_natCast start
  rw [h1, h2, copyFold_eq src start s.toNat dst (by omega) hin, ← hdst]
  simp

theorem allocate_ok {T : Type} (e : T) (ss : List label) (hnn : ∀ s ∈ ss, 0 ≤ s) :
    allocate e ss = Except.ok (ss.map (fun s => List.replicate s.toNat e)) := by
  induction ss with
  | nil => rfl
  | cons s ss ih =>
    have hs : ¬ s < 0 := not_lt.mpr (hnn s (List.mem_cons_self s ss))
    have ih2 := ih (fun t ht => hnn t (List.mem_cons_of_mem s ht))
    simp [allocate, filledList, hs, ih2]

theorem allocate_neg {T : Type} (e : T) (ss : List label) (hneg : ∃ s ∈ ss, s < 0) :
    allocate e ss = Except.error "bad size" := by
  induction ss with
  | nil => simp at hneg
  | cons s ss ih =>
    by_cases hs : s < 0
    · simp [allocate, filledList, hs]
    · have hrest : ∃ t ∈ ss, t < 0 := by
        obtain ⟨t, ht, htn⟩ := hneg
        rcases List.mem_cons.mp ht with h | h
        · exact absurd (h ▸ htn) hs
        · exact ⟨t, h, htn⟩
      simp [allocate, filledList, hs, ih hrest]

theorem sum_nonneg_of_forall (ss : List label) (hnn : ∀ s ∈ ss, 0 ≤ s) : 0 ≤ ss.sum := by
  induction ss with
  | nil => simp
  | cons s ss ih =>
    have h1 := hnn s (List.mem_cons_self s ss)
    have h2 := ih (fun t ht => hnn t (List.mem_cons_of_mem s ht))
    simp only [List.sum_cons]; exact add_nonneg h1 h2

theorem copyLoop_eq {T : Type} (bigArray : List T) (e : T) :
    ∀ (ss : List label) (start : Nat), (∀ s ∈ ss, 0 ≤ s) →
      (start : label) + ss.sum ≤ bigArray.length →
      copyLoop bigArray ss (ss.map (fun s => List.replicate s.toNat e)) (start : label)
        = slicesFrom bigArray start ss := by
  intro ss
  induction ss with
  | nil => intro start _ _; rfl
  | cons s ss ih =>
    intro start hnn hsum
    have hs : 0 ≤ s := hnn s (List.mem_cons_self s ss)
    have hnn2 : ∀ t ∈ ss, 0 ≤ t := fun t ht => hnn t (List.mem_cons_of_mem s ht)
    have hrest := sum_nonneg_of_forall ss hnn2
    simp only [List.sum_cons] at hsum
    have hcast : ((start + s.toNat : Nat) : label) = (start : label) + s := by
      push_cast; rw [Int.toNat_of_nonneg hs]
    simp only [List.map_cons, copyLoop, slicesFrom]
    have hin : start + s.toNat ≤ bigArray.length := by
      have h : ((start + s.toNat : Nat) : label) ≤ (bigArray.length : label) := by
        rw [hcast]; linarith
      exact_mod_cast h
    rw [stdCopy_eq bigArray start s _ (by simp) hin, ← hcast,
      ih (start + s.toNat) hnn2 (by rw [hcast]; linarith)]

theorem partition_of_checkSizes_false {T : Type} [Inhabited T] (bigArray : List T)
    (subsizes : List label) (h : checkSizes bigArray subsizes = false) :
    partition bigArray subsizes
      = Except.error "Total send count not matching the problem count!" := by
  simp [partition, runtime_assert, h]

theorem partition_of_negative {T : Type} [Inhabited T] (bigArray : List T)
    (subsizes : List label) (hsum : subsizes.sum = (bigArray.length : label))
    (hneg : ∃ s ∈ subsizes, s < 0) :
    partition bigArray subsizes = Except.error "bad size" := by
  have hc := (checkSizes_iff bigArray subsizes).mpr hsum
  simp [partition, runtime_assert, hc, allocate_neg _ subsizes hneg]

/-- On non-negative sizes that add up to the length, the two loops of
`partition` compute the slices of the specification. -/
theorem partition_eq_slicesFrom {T : Type} [Inhabited T] (bigArray : List T)
    (subsizes : List label) (hnn : ∀ s ∈ subsizes, 0 ≤ s)
    (hsum : subsizes.sum = (bigArray.length : label)) :
    partition bigArray subsizes = Except.ok (slicesFrom bigArray 0 subsizes) := by
  have hc := (checkSizes_iff bigArray subsizes).mpr hsum
  have hloop := copyLoop_eq bigArray
    (if bigArray.length > 0 then bigArray.headD default else default) subsizes 0 hnn
    (by simp [hsum])
  simp only [Nat.cast_zero] at hloop
  simp only [partition, runtime_assert, hc, if_true, allocate_ok _ subsizes hnn, hloop]

theorem merge_slicesFrom {T : Type} (flat : List T) :
    ∀ (ss : List label) (start : Nat), (∀ s ∈ ss, 0 ≤ s) →
      merge (slicesFrom flat start ss) = (flat.drop start).take ss.sum.toNat := by
  intro ss
  induction ss with
  | nil => intro start _; simp [merge, slicesFrom]
  | cons s ss ih =>
    intro start hnn
    have hs : 0 ≤ s := hnn s (List.mem_cons_self s ss)
    have hnn2 : ∀ t ∈ ss, 0 ≤ t := fun t ht => hnn t (List.mem_cons_of_mem s ht)
    have hrest := sum_nonneg_of_forall ss hnn2
    have hsplit : (s + ss.sum).toNat = s.toNat + ss.sum.toNat := Int.toNat_add hs hrest
    simp only [slicesFrom, merge, List.sum_cons, ih (start + s.toNat) hnn2, hsplit]
    rw [List.take_add, List.drop_drop]

theorem slicesFrom_length {T : Type} (flat : List T) :
    ∀ (ss : List label) (start : Nat), (slicesFrom flat start ss).length = ss.length := by
  intro ss
  induction ss with
  | nil => intro start; rfl
  | cons s ss ih => intro start; simp [slicesFrom, ih]

theorem offset_succ_cons (s : label) (ss : List label) (i : Nat) :
    offset (s :: ss) (i + 1) = s + offset ss i := by
  simp [offset]

theorem offset_nonneg (ss : List label) (hnn : ∀ s ∈ ss, 0 ≤ s) (i : Nat) :
    0 ≤ offset ss i :=
  sum_nonneg_of_forall _ (fun s hs => hnn s (List.mem_of_mem_take hs))

theorem slicesFrom_getElem? {T : Type} (flat : List T) :
    ∀ (ss : List label) (start i : Nat), (∀ s ∈ ss, 0 ≤ s) → i < ss.length →
      (slicesFrom flat start ss)[i]?
        = some ((flat.drop (start + (offset ss i).toNat)).take (ss.getD i 0).toNat) := by
  intro ss
  induction ss with
  | nil => intro start i _ hi; simp at hi
  | cons s ss ih =>
    intro start i hnn hi
    have hs : 0 ≤ s := hnn s (List.mem_cons_self s ss)
    have hnn2 : ∀ t ∈ ss, 0 ≤ t := fun t ht => hnn t (List.mem_cons_of_mem s ht)
    cases i with
    | zero => simp [slicesFrom, offset]
    | succ i =>
      have hi2 : i < ss.length := by simpa using hi
      have hoff : (offset (s :: ss) (i + 1)).toNat = s.toNat + (offset ss i).toNat := by
        rw [offset_succ_cons, Int.toNat_add hs (offset_nonneg ss hnn2 i)]
      simp only [slicesFrom, List.getElem?_cons_succ, ih (start + s.toNat) i hnn2 hi2, hoff,
        List.getD_cons_succ, Nat.add_assoc]

theorem offset_mono (ss : List label) (hnn : ∀ s ∈ ss, 0 ≤ s) :
    ∀ (i j : Nat), i < j → j ≤ ss.length → offset ss i + ss.getD i 0 ≤ offset ss j := by
  induction ss with
  | nil => intro i j hij hj; simp at hj; omega
  | cons s ss ih =>
    intro i j hij hj
    have hs : 0 ≤ s := hnn s (List.mem_cons_self s ss)
    have hnn2 : ∀ t ∈ ss, 0 ≤ t := fun t ht => hnn t (List.mem_cons_of_mem s ht)
    cases j with
    | zero => omega
    | succ j =>
      rw [offset_succ_cons]
      cases i with
      | zero =>
        have := offset_nonneg ss hnn2 j
        have h0 : offset (s :: ss) 0 = 0 := by simp [offset]
        rw [h0, List.getD_cons_zero]
        linarith
      | succ i =>
        rw [offset_succ_cons, List.getD_cons_succ]
        have := ih hnn2 i j (by omega) (by simpa using hj)
        linarith

theorem offset_length (ss : List label) : offset ss ss.length = ss.sum := by
  simp [offset]

/-! ## Lemmas on the exchange protocol -/

/-- A result of `partition` means that the sizes are non-negative and add up
to the length, and the result is the list of slices. -/
theorem partition_ok {T : Type} [Inhabited T] (flat : List T) (sizes : List label)
    (parts : List (List T)) (h : partition flat sizes = Except.ok parts) :
    (∀ s ∈ sizes, 0 ≤ s) ∧ sizes.sum = (flat.length : label) ∧
      parts = slicesFrom flat 0 sizes := by
  by_cases hc : checkSizes flat sizes = true
  · have hsum := (checkSizes_iff flat sizes).mp hc
    by_cases hneg : ∃ s ∈ sizes, s < 0
    · rw [partition_of_negative flat sizes hsum hneg] at h
      cases h
    · have hnn : ∀ s ∈ sizes, 0 ≤ s := by
        intro s hs
        by_contra hlt
        exact hneg ⟨s, hs, not_le.mp hlt⟩
      rw [partition_eq_slicesFrom flat sizes hnn hsum] at h
      exact ⟨hnn, hsum, (Except.ok.inj h).symm⟩
  · have hf : checkSizes flat sizes = false := by simpa using hc
    rw [partition_of_checkSizes_false flat sizes hf] at h
    cases h

theorem slicesFrom_lengths {T : Type} (flat : List T) :
    ∀ (ss : List label) (start : Nat), (∀ s ∈ ss, 0 ≤ s) →
      (start : label) + ss.sum ≤ (flat.length : label) →
      (slicesFrom flat start ss).map (fun sub => (sub.length : label)) = ss := by
  intro ss
  induction ss with
  | nil => intro start _ _; rfl
  | cons s ss ih =>
    intro start hnn hsum
    have hs : 0 ≤ s := hnn s (List.mem_cons_self s ss)
    have hnn2 : ∀ t ∈ ss, 0 ≤ t := fun t ht => hnn t (List.mem_cons_of_mem s ht)
    have hrest := sum_nonneg_of_forall ss hnn2
    simp only [List.sum_cons] at hsum
    have hcast : ((start + s.toNat : Nat) : label) = (start : label) + s := by
      push_cast; rw [Int.toNat_of_nonneg hs]
    have hin : start + s.toNat ≤ flat.length := by
      have h : ((start + s.toNat : Nat) : label) ≤ (flat.length : label) := by
        rw [hcast]; linarith
      exact_mod_cast h
    simp only [slicesFrom, List.map_cons]
    rw [ih (start + s.toNat) hnn2 (by rw [hcast]; linarith), List.length_take,
      List.length_drop, Nat.min_eq_left (by omega), Int.toNat_of_nonneg hs]

theorem unitCount_slicesFrom {T : Type} (flat : List T) (ss : List label)
    (hnn : ∀ s ∈ ss, 0 ≤ s) (hsum : ss.sum = (flat.length : label)) :
    unitCount (slicesFrom flat 0 ss) = flat.length := by
  have h := congrArg List.length (merge_slicesFrom flat ss 0 hnn)
  rw [hsum] at h
  simp only [List.drop_zero, Int.toNat_natCast, List.take_length] at h
  rw [← h]
  generalize slicesFrom flat 0 ss = parts
  induction parts with
  | nil => rfl
  | cons p ps ih =>
    simp only [unitCount, List.map_cons, List.sum_cons, merge, List.length_append] at ih ⊢
    rw [ih]

/-- The send loop sends `send_buffer[i], send_buffer[i+1], ...` to the
destinations, in order. -/
theorem sendLoop_ok {ET : Type} (send_buffer : List (List ET)) :
    ∀ (ds : List label) (i : Nat) (sent : List (Message ET)),
      sendLoop send_buffer ds i = Except.ok sent →
      sent.map Prod.fst = ds ∧ sent.map Prod.snd = (send_buffer.drop i).take ds.length ∧
        i + ds.length ≤ send_buffer.length + (if ds = [] then i else 0) := by
  intro ds
  induction ds with
  | nil =>
    intro i sent h
    simp only [sendLoop] at h
    cases h
    simp
  | cons d ds ih =>
    intro i sent h
    simp only [sendLoop] at h
    cases hb : send_buffer[i]? with
    | none => rw [hb] at h; cases h
    | some sub =>
      rw [hb] at h
      cases hr : sendLoop send_buffer ds (i + 1) with
      | error e => rw [hr] at h; cases h
      | ok rest =>
        rw [hr] at h
        cases h
        obtain ⟨h1, h2, h3⟩ := ih (i + 1) rest hr
        have hi : i < send_buffer.length := by
          by_contra hn
          rw [List.getElem?_eq_none (by omega)] at hb
          cases hb
        have hsub : send_buffer[i] = sub := by
          rw [List.getElem?_eq_getElem hi] at hb
          exact Option.some.inj hb
        refine ⟨by simp [h1], ?_, ?_⟩
        · simp only [List.map_cons, List.length_cons, h2]
          rw [List.drop_eq_getElem_cons hi, List.take_succ_cons, hsub]
        · simp only [List.length_cons, reduceCtorEq, if_false]
          by_cases hds : ds = []
          · subst hds; simp; omega
          · simp only [hds, if_false] at h3; omega

/-- When the send buffer has an entry for every destination the send loop
succeeds. -/
theorem sendLoop_succeeds {ET : Type} (send_buffer : List (List ET)) :
    ∀ (ds : List label) (i : Nat), i + ds.length ≤ send_buffer.length →
      ∃ sent, sendLoop send_buffer ds i = Except.ok sent := by
  intro ds
  induction ds with
  | nil => intro i _; exact ⟨[], rfl⟩
  | cons d ds ih =>
    intro i hi
    simp only [List.length_cons] at hi
    obtain ⟨rest, hr⟩ := ih (i + 1) (by omega)
    have hlt : i < send_buffer.length := by omega
    exact ⟨(d, send_buffer[i]) :: rest, by
      simp [sendLoop, List.getElem?_eq_getElem hlt, hr]⟩

theorem takeFrom_some {ET : Type} (source : label) :
    ∀ (mailbox : List (Message ET)) (sub : List ET) (rest : List (Message ET)),
      takeFrom source mailbox = some (sub, rest) →
      (source, sub) ∈ mailbox ∧ (∀ m ∈ rest, m ∈ mailbox) ∧
        rest.length + 1 = mailbox.length ∧
        unitCount (rest.map Prod.snd) + sub.length = unitCount (mailbox.map Prod.snd) := by
  intro mailbox
  induction mailbox with
  | nil => intro sub rest h; simp [takeFrom] at h
  | cons m ms ih =>
    intro sub rest h
    simp only [takeFrom] at h
    by_cases hm : m.1 = source
    · simp only [hm, if_true, Option.some.injEq, Prod.mk.injEq] at h
      obtain ⟨h1, h2⟩ := h
      subst h1 h2
      refine ⟨?_, ?_, rfl, ?_⟩
      · rw [← hm]; exact List.mem_cons_self _ _
      · intro x hx; exact List.mem_cons_of_mem _ hx
      · simp only [unitCount, List.map_cons, List.sum_cons]; omega
    · simp only [hm, if_false] at h
      cases ht : takeFrom source ms with
      | none => rw [ht] at h; cases h
      | some p =>
        obtain ⟨sub2, rest2⟩ := p
        rw [ht] at h
        simp only [Option.some.injEq, Prod.mk.injEq] at h
        obtain ⟨h1, h2⟩ := h
        subst h1 h2
        obtain ⟨i1, i2, i3, i4⟩ := ih sub2 rest2 ht
        refine ⟨List.mem_cons_of_mem _ i1, ?_, ?_, ?_⟩
        · intro x hx
          rcases List.mem_cons.mp hx with hx | hx
          · rw [hx]; exact List.mem_cons_self _ _
          · exact List.mem_cons_of_mem _ (i2 x hx)
        · simp only [List.length_cons]; omega
        · simp only [unitCount, List.map_cons, List.sum_cons] at i4 ⊢; omega

/-- The receive loop returns one sub-buffer per source, each one a message of
that source in the mailbox. -/
theorem recvLoop_ok {ET : Type} :
    ∀ (ss : List label) (mailbox : List (Message ET)) (bufs : List (List ET)),
      recvLoop mailbox ss = Except.ok bufs →
      List.Forall₂ (fun s sub => (s, sub) ∈ mailbox) ss bufs := by
  intro ss
  induction ss with
  | nil =>
    intro mailbox bufs h
    simp only [recvLoop] at h
    cases h
    exact List.Forall₂.nil
  | cons s ss ih =>
    intro mailbox bufs h
    simp only [recvLoop] at h
    cases ht : takeFrom s mailbox with
    | none => rw [ht] at h; cases h
    | some p =>
      obtain ⟨sub, mailbox2⟩ := p
      rw [ht] at h
      dsimp only at h
      cases hr : recvLoop mailbox2 ss with
      | error e => rw [hr] at h; cases h
      | ok rest =>
        rw [hr] at h
        cases h
        obtain ⟨i1, i2, -, -⟩ := takeFrom_some s mailbox sub mailbox2 ht
        refine List.Forall₂.cons i1 ?_
        exact (ih mailbox2 rest hr).imp (fun _ _ hmem => i2 _ hmem)

/-- The send loop from index 0 returns exactly when the send buffer has an
entry for every destination. -/
theorem sendLoop_returns_iff {ET : Type} (send_buffer : List (List ET)) (ds : List label) :
    (∃ sent, sendLoop send_buffer ds 0 = Except.ok sent) ↔ ds.length ≤ send_buffer.length := by
  constructor
  · rintro ⟨sent, h⟩
    obtain ⟨-, -, h3⟩ := sendLoop_ok send_buffer ds 0 sent h
    by_cases hds : ds = []
    · simp [hds]
    · simp only [hds, if_false] at h3; omega
  · intro h
    exact sendLoop_succeeds send_buffer ds 0 (by omega)

/-- A receive from `source` finds nothing exactly when the mailbox holds no
message of that source. -/
theorem takeFrom_none_iff {ET : Type} (source : label) :
    ∀ mailbox : List (Message ET),
      takeFrom source mailbox = none ↔ (mailbox.map Prod.fst).count source = 0 := by
  intro mailbox
  induction mailbox with
  | nil => simp [takeFrom]
  | cons m ms ih =>
    simp only [takeFrom, List.map_cons]
    by_cases hm : m.1 = source
    · simp [hm]
    · rw [if_neg hm, List.count_cons_of_ne (fun h => hm h.symm), ← ih]
      cases ht : takeFrom source ms with
      | none => simp
      | some p => simp

/-- A receive from `source` takes one message of that source out of the
mailbox and leaves the messages of the other sources. -/
theorem takeFrom_count {ET : Type} (source : label) :
    ∀ (mailbox : List (Message ET)) (sub : List ET) (rest : List (Message ET)),
      takeFrom source mailbox = some (sub, rest) →
      ∀ d : label, (rest.map Prod.fst).count d + (if d = source then 1 else 0)
        = (mailbox.map Prod.fst).count d := by
  intro mailbox
  induction mailbox with
  | nil => intro sub rest h; simp [takeFrom] at h
  | cons m ms ih =>
    intro sub rest h d
    simp only [takeFrom] at h
    by_cases hm : m.1 = source
    · simp only [hm, if_true, Option.some.injEq, Prod.mk.injEq] at h
      obtain ⟨-, h2⟩ := h
      subst h2
      simp only [List.map_cons, hm]
      by_cases hd : d = source
      · subst hd; simp
      · rw [List.count_cons_of_ne hd]; simp [hd]
    · simp only [hm, if_false] at h
      cases ht : takeFrom source ms with
      | none => rw [ht] at h; cases h
      | some p =>
        obtain ⟨sub2, rest2⟩ := p
        rw [ht] at h
        simp only [Option.some.injEq, Prod.mk.injEq] at h
        obtain ⟨-, h2⟩ := h
        subst h2
        have := ih sub2 rest2 ht d
        simp only [List.map_cons, List.count_cons]
        omega

/-- The receive loop returns exactly when the mailbox holds, for every rank,
at least as many messages of that rank as the rank is listed among the
sources. -/
theorem recvLoop_returns_iff {ET : Type} :
    ∀ (ss : List label) (mailbox : List (Message ET)),
      (∃ bufs, recvLoop mailbox ss = Except.ok bufs)
        ↔ ∀ d : label, ss.count d ≤ (mailbox.map Prod.fst).count d := by
  intro ss
  induction ss with
  | nil => intro mailbox; simp [recvLoop]
  | cons s ss ih =>
    intro mailbox
    cases ht : takeFrom s mailbox with
    | none =>
      have h0 := (takeFrom_none_iff s mailbox).mp ht
      constructor
      · rintro ⟨bufs, h⟩
        simp only [recvLoop, ht] at h
        cases h
      · intro h
        have := h s
        simp only [List.count_cons_self] at this
        omega
    | some p =>
      obtain ⟨sub, mailbox2⟩ := p
      have hcount := takeFrom_count s mailbox sub mailbox2 ht
      constructor
      · rintro ⟨bufs, h⟩ d
        simp only [recvLoop, ht] at h
        cases hr : recvLoop mailbox2 ss with
        | error e => rw [hr] at h; cases h
        | ok rest =>
          have := (ih mailbox2).mp ⟨rest, hr⟩ d
          have hc := hcount d
          by_cases hd : d = s
          · subst hd
            simp only [List.count_cons_self, if_true] at hc ⊢
            omega
          · rw [List.count_cons_of_ne hd]
            simp only [hd, if_false] at hc
            omega
      · intro h
        have hrest : ∀ d : label, ss.count d ≤ (mailbox2.map Prod.fst).count d := by
          intro d
          have h1 := h d
          have hc := hcount d
          by_cases hd : d = s
          · subst hd
            simp only [List.count_cons_self, if_true] at h1 hc
            omega
          · rw [List.count_cons_of_ne hd] at h1
            simp only [hd, if_false] at hc
            omega
        obtain ⟨rest, hr⟩ := (ih mailbox2).mpr hrest
        exact ⟨sub :: rest, by simp [recvLoop, ht, hr]⟩

/-- The receive loop returns one buffer per source. -/
theorem recvLoop_length {ET : Type} (ss : List label) (mailbox : List (Message ET))
    (bufs : List (List ET)) (h : recvLoop mailbox ss = Except.ok bufs) :
    bufs.length = ss.length :=
  (recvLoop_ok ss mailbox bufs h).length_eq.symm

/-! ## Lemmas on the exchange between all workers -/

theorem unitCount_append {T : Type} (a b : List (List T)) :
    unitCount (a ++ b) = unitCount a + unitCount b := by
  simp [unitCount]

theorem unitCount_cons {T : Type} (a : List T) (b : List (List T)) :
    unitCount (a :: b) = a.length + unitCount b := by
  simp [unitCount]

/-- The receive loop returns every unit of the mailbox when the mailbox holds
no more messages than there are sources. -/
theorem recvLoop_units {ET : Type} :
    ∀ (ss : List label) (mailbox : List (Message ET)) (bufs : List (List ET)),
      recvLoop mailbox ss = Except.ok bufs →
      ss.length ≤ mailbox.length ∧
        (mailbox.length ≤ ss.length → unitCount bufs = unitCount (mailbox.map Prod.snd)) := by
  intro ss
  induction ss with
  | nil =>
    intro mailbox bufs h
    simp only [recvLoop] at h
    cases h
    refine ⟨Nat.zero_le _, ?_⟩
    intro hle
    have : mailbox = [] := List.length_eq_zero.mp (Nat.le_zero.mp hle)
    subst this
    rfl
  | cons s ss ih =>
    intro mailbox bufs h
    simp only [recvLoop] at h
    cases ht : takeFrom s mailbox with
    | none => rw [ht] at h; cases h
    | some p =>
      obtain ⟨sub, mailbox2⟩ := p
      rw [ht] at h
      dsimp only at h
      cases hr : recvLoop mailbox2 ss with
      | error e => rw [hr] at h; cases h
      | ok rest =>
        rw [hr] at h
        cases h
        obtain ⟨-, -, i3, i4⟩ := takeFrom_some s mailbox sub mailbox2 ht
        obtain ⟨j1, j2⟩ := ih mailbox2 rest hr
        simp only [List.length_cons]
        refine ⟨by omega, ?_⟩
        intro hle
        rw [unitCount_cons, j2 (by omega)]
        omega

/-- With one send-buffer entry per destination, a worker sends one message to
each of its destinations and the messages hold all of its units. -/
theorem sentBy_ok {T : Type} [Inhabited T] (w : Worker T) (sent : List (Message T))
    (hshape : w.state.destinations.length = 1
      ∨ w.state.nProblems.length = w.state.destinations.length)
    (h : sentBy w = Except.ok sent) :
    sent.map Prod.fst = w.state.destinations ∧
      unitCount (sent.map Prod.snd) = w.values.length := by
  unfold sentBy at h
  cases hb : getSendBuffer w.state w.values with
  | error e => rw [hb] at h; cases h
  | ok buf =>
    rw [hb] at h
    dsimp only at h
    obtain ⟨h1, h2, -⟩ := sendLoop_ok buf w.state.destinations 0 sent h
    refine ⟨h1, ?_⟩
    rw [h2, List.drop_zero]
    unfold getSendBuffer at hb
    by_cases hd : w.state.destinations.length = 1
    · simp only [hd, if_true] at hb
      rw [← Except.ok.inj hb, hd]
      simp [unitCount]
    · simp only [hd, if_false] at hb
      obtain ⟨hnn, hsum, hparts⟩ := partition_ok w.values w.state.nProblems buf hb
      have hn : w.state.nProblems.length = w.state.destinations.length := by
        rcases hshape with h0 | h0
        · exact absurd h0 hd
        · exact h0
      have hlen : buf.length = w.state.destinations.length := by
        rw [hparts, slicesFrom_length, hn]
      rw [← hlen, List.take_length, hparts]
      exact unitCount_slicesFrom w.values w.state.nProblems hnn hsum

theorem sentByAll_ok {T : Type} [Inhabited T] :
    ∀ (ws : List (Worker T)) (allSent : List (List (Message T))),
      (∀ w ∈ ws, w.state.destinations.length = 1
        ∨ w.state.nProblems.length = w.state.destinations.length) →
      sentByAll ws = Except.ok allSent →
      allSent.map (fun sent => sent.map Prod.fst) = ws.map (fun w => w.state.destinations) ∧
        (allSent.map (fun sent => unitCount (sent.map Prod.snd))).sum = unitsBefore ws := by
  intro ws
  induction ws with
  | nil =>
    intro allSent _ h
    simp only [sentByAll] at h
    cases h
    exact ⟨rfl, rfl⟩
  | cons w ws ih =>
    intro allSent hshape h
    simp only [sentByAll] at h
    cases hs : sentBy w with
    | error e => rw [hs] at h; cases h
    | ok sent =>
      rw [hs] at h
      dsimp only at h
      cases hr : sentByAll ws with
      | error e => rw [hr] at h; cases h
      | ok rest =>
        rw [hr] at h
        cases h
        obtain ⟨a1, a2⟩ := sentBy_ok w sent (hshape w (List.mem_cons_self w ws)) hs
        obtain ⟨b1, b2⟩ := ih rest (fun v hv => hshape v (List.mem_cons_of_mem w hv)) hr
        refine ⟨by simp [a1, b1], ?_⟩
        simp only [List.map_cons, List.sum_cons, unitsBefore] at b2 ⊢
        rw [a2, b2]

theorem count_fst_eq {T : Type} (r : label) :
    ∀ (sent : List (Message T)),
      (sent.map Prod.fst).count r = (sent.filter (fun m => decide (m.1 = r))).length := by
  intro sent
  induction sent with
  | nil => rfl
  | cons m ms ih =>
    by_cases hm : m.1 = r
    · simp [List.filter_cons, hm, ih]
    · rw [List.map_cons, List.count_cons_of_ne (Ne.symm hm), ih]
      simp [List.filter_cons, hm]

theorem deliveredTo_length {T : Type} (r : label) :
    ∀ (allSent : List (List (Message T))) (s : Nat),
      (deliveredTo r s allSent).length
        = (allSent.map (fun sent => (sent.map Prod.fst).count r)).sum := by
  intro allSent
  induction allSent with
  | nil => intro s; rfl
  | cons sent rest ih =>
    intro s
    simp only [deliveredTo, List.length_append, List.length_map, ih (s + 1), List.map_cons,
      List.sum_cons, count_fst_eq]

theorem deliveredTo_units {T : Type} (r : label) :
    ∀ (allSent : List (List (Message T))) (s : Nat),
      unitCount ((deliveredTo r s allSent).map Prod.snd)
        = (allSent.map (unitsAddressedTo r)).sum := by
  intro allSent
  induction allSent with
  | nil => intro s; rfl
  | cons sent rest ih =>
    intro s
    simp only [deliveredTo, List.map_append, unitCount_append, ih (s + 1), List.map_cons,
      List.sum_cons, unitsAddressedTo, List.map_map]
    rfl

theorem sum_indicator_range' (d : label) (c : Nat) :
    ∀ (n s : Nat), (s : label) ≤ d → d < ((s + n : Nat) : label) →
      ((List.range' s n).map (fun (r : Nat) => if d = (r : label) then c else 0)).sum = c := by
  intro n
  induction n with
  | zero =>
    intro s h1 h2
    simp only [Nat.add_zero] at h2
    exact absurd h2 (not_lt.mpr h1)
  | succ n ih =>
    intro s h1 h2
    simp only [List.range'_succ, List.map_cons, List.sum_cons]
    by_cases hd : d = (s : label)
    · have hzero : ∀ r ∈ List.range' (s + 1) n, (if d = (r : label) then c else 0) = 0 := by
        intro r hr
        have hlt : s + 1 ≤ r := (List.mem_range'_1.mp hr).1
        have hne : d ≠ (r : label) := by
          rw [hd]
          intro heq
          have : s = r := by exact_mod_cast heq
          omega
        simp [hne]
      rw [if_pos hd, List.map_congr_left hzero]
      simp
    · have h3 : ((s + 1 : Nat) : label) ≤ d := by
        have hlt : (s : label) < d := lt_of_le_of_ne h1 (Ne.symm hd)
        push_cast
        exact Int.add_one_le_iff.mpr hlt
      have h4 : d < ((s + 1 + n : Nat) : label) := by
        have : s + 1 + n = s + (n + 1) := by omega
        rw [this]; exact h2
      rw [if_neg hd, ih (s + 1) h3 h4]
      simp

/-- Every unit sent to an existing rank is addressed to exactly one rank. -/
theorem unitsAddressedTo_sum {T : Type} (n : Nat) :
    ∀ (sent : List (Message T)), (∀ m ∈ sent, 0 ≤ m.1 ∧ m.1 < (n : label)) →
      ((List.range' 0 n).map (fun (r : Nat) => unitsAddressedTo (r : label) sent)).sum
        = unitCount (sent.map Prod.snd) := by
  intro sent
  induction sent with
  | nil =>
    intro _
    simp [unitsAddressedTo, unitCount]
  | cons m ms ih =>
    intro hv
    obtain ⟨h0, h1⟩ := hv m (List.mem_cons_self m ms)
    have hstep : ∀ r : Nat, unitsAddressedTo (r : label) (m :: ms)
        = (if m.1 = (r : label) then m.2.length else 0) + unitsAddressedTo (r : label) ms := by
      intro r
      by_cases hm : m.1 = (r : label)
      · simp [unitsAddressedTo, List.filter_cons, hm, unitCount_cons]
      · simp [unitsAddressedTo, List.filter_cons, hm]
    simp only [hstep, List.sum_map_add, List.map_cons, unitCount_cons]
    rw [ih (fun x hx => hv x (List.mem_cons_of_mem m hx)),
      sum_indicator_range' m.1 m.2.length n 0 (by simpa using h0) (by simpa using h1)]

theorem deliveredUnits_total {T : Type} (n : Nat) :
    ∀ (allSent : List (List (Message T))),
      (∀ sent ∈ allSent, ∀ m ∈ sent, 0 ≤ m.1 ∧ m.1 < (n : label)) →
      ((List.range' 0 n).map
          (fun (r : Nat) => unitCount ((deliveredTo (r : label) 0 allSent).map Prod.snd))).sum
        = (allSent.map (fun sent => unitCount (sent.map Prod.snd))).sum := by
  intro allSent hv
  simp only [deliveredTo_units]
  induction allSent with
  | nil => simp
  | cons sent rest ih =>
    simp only [List.map_cons, List.sum_cons, List.sum_map_add]
    rw [ih (fun s hs => hv s (List.mem_cons_of_mem sent hs)),
      unitsAddressedTo_sum n sent (hv sent (List.mem_cons_self sent rest))]

theorem balanceFrom_units {T : Type} [Inhabited T] (allSent : List (List (Message T))) :
    ∀ (ws : List (Worker T)) (r0 : Nat) (results : List (List (List T))),
      balanceFrom allSent r0 ws = Except.ok results →
      (∀ (k : Nat) (w : Worker T), ws[k]? = some w →
        (deliveredTo ((r0 + k : Nat) : label) 0 allSent).length ≤ w.state.sources.length) →
      unitsAfter results
        = ((List.range' r0 ws.length).map
            (fun (r : Nat) => unitCount ((deliveredTo (r : label) 0 allSent).map Prod.snd))).sum := by
  intro ws
  induction ws with
  | nil =>
    intro r0 results h _
    simp only [balanceFrom] at h
    cases h
    rfl
  | cons w ws ih =>
    intro r0 results h hdecl
    simp only [balanceFrom] at h
    cases hb : balance true (deliveredTo (r0 : label) 0 allSent) w.state w.values with
    | error e => rw [hb] at h; cases h
    | ok ex =>
      rw [hb] at h
      dsimp only at h
      cases hr : balanceFrom allSent (r0 + 1) ws with
      | error e => rw [hr] at h; cases h
      | ok rest =>
        rw [hr] at h
        cases h
        have hrest := ih (r0 + 1) rest hr (by
          intro k v hk
          have := hdecl (k + 1) v (by simpa using hk)
          rwa [show r0 + 1 + k = r0 + (k + 1) by omega])
        have hhead : unitCount ex.received
            = unitCount ((deliveredTo (r0 : label) 0 allSent).map Prod.snd) := by
          unfold balance at hb
          cases hg : getSendBuffer w.state w.values with
          | error e => rw [hg] at hb; cases hb
          | ok buf =>
            rw [hg] at hb
            simp only [sendRecv, if_true] at hb
            cases hs : sendLoop buf w.state.destinations 0 with
            | error e => rw [hs] at hb; cases hb
            | ok sent =>
              rw [hs] at hb
              dsimp only at hb
              cases hv : recvLoop (deliveredTo (r0 : label) 0 allSent) w.state.sources with
              | error e => rw [hv] at hb; cases hb
              | ok bufs =>
                rw [hv] at hb
                cases hb
                exact (recvLoop_units _ _ bufs hv).2 (by simpa using hdecl 0 w (by simp))
        simp only [unitsAfter, List.map_cons, List.sum_cons, List.length_cons,
          List.range'_succ] at hrest ⊢
        rw [hhead, hrest]

/-! ## Lemmas on load metrics -/

theorem foldl_cpuTime (problems : List ChemistryProblem) :
    ∀ init : scalar,
      problems.foldl (fun (sum : scalar) (rhs : ChemistryProblem) => sum + rhs.cpuTime) init
        = init + (problems.map (fun p => p.cpuTime)).sum := by
  induction problems with
  | nil => intro init; simp
  | cons p ps ih =>
    intro init
    simp only [List.foldl_cons, List.map_cons, List.sum_cons, ih]
    ring

/-- The scan of `std::min_element` keeps the first smallest element: if
`smallest` is the first smallest element of the part `pre` already seen, the
result is the first smallest element of `pre ++ xs`. -/
theorem minScan_first {α : Type} (key : α → scalar) :
    ∀ (xs pre : List α) (b : Nat) (v : α),
      pre[b]? = some v → (∀ x ∈ pre, key v ≤ key x) →
      (∀ j x, j < b → pre[j]? = some x → key v < key x) →
      (pre ++ xs)[(minScan (fun l r => decide (key l < key r)) (b, v) pre.length xs).1]?
          = some (minScan (fun l r => decide (key l < key r)) (b, v) pre.length xs).2 ∧
        (∀ x ∈ pre ++ xs,
          key (minScan (fun l r => decide (key l < key r)) (b, v) pre.length xs).2 ≤ key x) ∧
        (∀ j x, j < (minScan (fun l r => decide (key l < key r)) (b, v) pre.length xs).1 →
          (pre ++ xs)[j]? = some x →
          key (minScan (fun l r => decide (key l < key r)) (b, v) pre.length xs).2 < key x) := by
  intro xs
  induction xs with
  | nil =>
    intro pre b v h1 h2 h3
    simpa [minScan] using ⟨h1, h2, h3⟩
  | cons x xs ih =>
    intro pre b v h1 h2 h3
    have hb : b < pre.length := by
      by_contra hn
      rw [List.getElem?_eq_none (by omega)] at h1
      cases h1
    have hsplit : pre ++ x :: xs = (pre ++ [x]) ++ xs := by simp
    have hlen : (pre ++ [x]).length = pre.length + 1 := by simp
    by_cases hc : key x < key v
    · have hstep : minScan (fun l r => decide (key l < key r)) (b, v) pre.length (x :: xs)
          = minScan (fun l r => decide (key l < key r)) (pre.length, x) (pre.length + 1) xs := by
        simp [minScan, hc]
      rw [hstep, hsplit, ← hlen]
      apply ih (pre ++ [x]) pre.length x
      · simp
      · intro y hy
        rcases List.mem_append.mp hy with hy | hy
        · exact le_of_lt (lt_of_lt_of_le hc (h2 y hy))
        · rw [List.mem_singleton.mp hy]
      · intro j y hj hy
        rw [List.getElem?_append_left hj] at hy
        exact lt_of_lt_of_le hc (h2 y (List.getElem?_mem hy))
    · have hstep : minScan (fun l r => decide (key l < key r)) (b, v) pre.length (x :: xs)
          = minScan (fun l r => decide (key l < key r)) (b, v) (pre.length + 1) xs := by
        simp [minScan, hc]
      rw [hstep, hsplit, ← hlen]
      apply ih (pre ++ [x]) b v
      · rw [List.getElem?_append_left hb]; exact h1
      · intro y hy
        rcases List.mem_append.mp hy with hy | hy
        · exact h2 y hy
        · rw [List.mem_singleton.mp hy]; exact not_lt.mp hc
      · intro j y hj hy
        rw [List.getElem?_append_left (by omega)] at hy
        exact h3 j y hj hy

/-- The scan of `std::max_element` keeps the first largest element. -/
theorem maxScan_first {α : Type} (key : α → scalar) :
    ∀ (xs pre : List α) (b : Nat) (v : α),
      pre[b]? = some v → (∀ x ∈ pre, key x ≤ key v) →
      (∀ j x, j < b → pre[j]? = some x → key x < key v) →
      (pre ++ xs)[(maxScan (fun l r => decide (key l < key r)) (b, v) pre.length xs).1]?
          = some (maxScan (fun l r => decide (key l < key r)) (b, v) pre.length xs).2 ∧
        (∀ x ∈ pre ++ xs,
          key x ≤ key (maxScan (fun l r => decide (key l < key r)) (b, v) pre.length xs).2) ∧
        (∀ j x, j < (maxScan (fun l r => decide (key l < key r)) (b, v) pre.length xs).1 →
          (pre ++ xs)[j]? = some x →
          key x < key (maxScan (fun l r => decide (key l < key r)) (b, v) pre.length xs).2) := by
  intro xs
  induction xs with
  | nil =>
    intro pre b v h1 h2 h3
    simpa [maxScan] using ⟨h1, h2, h3⟩
  | cons x xs ih =>
    intro pre b v h1 h2 h3
    have hb : b < pre.length := by
      by_contra hn
      rw [List.getElem?_eq_none (by omega)] at h1
      cases h1
    have hsplit : pre ++ x :: xs = (pre ++ [x]) ++ xs := by simp
    have hlen : (pre ++ [x]).length = pre.length + 1 := by simp
    by_cases hc : key v < key x
    · have hstep : maxScan (fun l r => decide (key l < key r)) (b, v) pre.length (x :: xs)
          = maxScan (fun l r => decide (key l < key r)) (pre.length, x) (pre.length + 1) xs := by
        simp [maxScan, hc]
      rw [hstep, hsplit, ← hlen]
      apply ih (pre ++ [x]) pre.length x
      · simp
      · intro y hy
        rcases List.mem_append.mp hy with hy | hy
        · exact le_of_lt (lt_of_le_of_lt (h2 y hy) hc)
        · rw [List.mem_singleton.mp hy]
      · intro j y hj hy
        rw [List.getElem?_append_left hj] at hy
        exact lt_of_le_of_lt (h2 y (List.getElem?_mem hy)) hc
    · have hstep : maxScan (fun l r => decide (key l < key r)) (b, v) pre.length (x :: xs)
          = maxScan (fun l r => decide (key l < key r)) (b, v) (pre.length + 1) xs := by
        simp [maxScan, hc]
      rw [hstep, hsplit, ← hlen]
      apply ih (pre ++ [x]) b v
      · rw [List.getElem?_append_left hb]; exact h1
      · intro y hy
        rcases List.mem_append.mp hy with hy | hy
        · exact h2 y hy
        · rw [List.mem_singleton.mp hy]; exact not_lt.mp hc
      · intro j y hj hy
        rw [List.getElem?_append_left (by omega)] at hy
        exact h3 j y hj hy

/-- On a non-empty range `std::min_element` returns the first smallest
element. -/
theorem min_element_first {α : Type} (key : α → scalar) (xs : List α) (hne : xs ≠ []) :
    ∃ i v, min_element (fun l r => decide (key l < key r)) xs = some (i, v) ∧
      xs[i]? = some v ∧ (∀ x ∈ xs, key v ≤ key x) ∧
      (∀ j x, j < i → xs[j]? = some x → key v < key x) := by
  cases xs with
  | nil => exact absurd rfl hne
  | cons x xs =>
    have h := minScan_first key xs [x] 0 x rfl
      (by intro y hy; rw [List.mem_singleton.mp hy])
      (by intro j y hj; omega)
    exact ⟨_, _, rfl, h⟩

/-- On a non-empty range `std::max_element` returns the first largest
element. -/
theorem max_element_first {α : Type} (key : α → scalar) (xs : List α) (hne : xs ≠ []) :
    ∃ i v, max_element (fun l r => decide (key l < key r)) xs = some (i, v) ∧
      xs[i]? = some v ∧ (∀ x ∈ xs, key x ≤ key v) ∧
      (∀ j x, j < i → xs[j]? = some x → key x < key v) := by
  cases xs with
  | nil => exact absurd rfl hne
  | cons x xs =>
    have h := maxScan_first key xs [x] 0 x rfl
      (by intro y hy; rw [List.mem_singleton.mp hy])
      (by intro j y hj; omega)
    exact ⟨_, _, rfl, h⟩

/-! ## Lemmas on the mean and on the rank lookup -/

theorem foldl_value (loads : List ChemistryLoad) :
    ∀ init : scalar,
      loads.foldl (fun (sum : scalar) (load : ChemistryLoad) => sum + load.value) init
        = init + (loads.map (fun l => l.value)).sum := by
  induction loads with
  | nil => intro init; simp
  | cons l ls ih =>
    intro init
    simp only [List.foldl_cons, List.map_cons, List.sum_cons, ih]
    ring

theorem getMean_eq (loads : List ChemistryLoad) :
    getMean loads = (loads.map (fun l => l.value)).sum / (loads.length : scalar) := by
  simp only [getMean, foldl_value, zero_add]

theorem sum_of_equal_values (v : scalar) (loads : List ChemistryLoad)
    (hall : ∀ x ∈ loads, x.value = v) :
    (loads.map (fun l => l.value)).sum = (loads.length : scalar) * v := by
  induction loads with
  | nil => simp
  | cons l ls ih =>
    have h1 := hall l (List.mem_cons_self l ls)
    have h2 := ih (fun x hx => hall x (List.mem_cons_of_mem l hx))
    simp only [List.map_cons, List.sum_cons, List.length_cons, h1, h2]
    push_cast
    ring

/-- The loop of `rankToLoadIdx` stops at the first load of the wanted rank. -/
theorem rankToLoadIdxFrom_ok (rank : label) :
    ∀ (loads : List ChemistryLoad) (start i : label),
      rankToLoadIdxFrom rank loads start = Except.ok i ↔
        ∃ k : Nat, i = start + (k : label) ∧
          (∃ load, loads[k]? = some load ∧ load.rank = rank) ∧
          ∀ (j : Nat) (load : ChemistryLoad), j < k → loads[j]? = some load →
            load.rank ≠ rank := by
  intro loads
  induction loads with
  | nil =>
    intro start i
    simp [rankToLoadIdxFrom]
  | cons l ls ih =>
    intro start i
    by_cases hl : l.rank = rank
    · simp only [rankToLoadIdxFrom, hl, if_true, Except.ok.injEq]
      constructor
      · intro h
        refine ⟨0, by simp [h], ⟨l, by simp, hl⟩, ?_⟩
        intro j load hj
        omega
      · rintro ⟨k, hk, -, hfirst⟩
        cases k with
        | zero => simp [hk]
        | succ k => exact absurd hl (hfirst 0 l (Nat.succ_pos k) (by simp))
    · simp only [rankToLoadIdxFrom, hl, if_false, ih (start + 1) i]
      constructor
      · rintro ⟨k, hk, ⟨load, hload, hrank⟩, hfirst⟩
        refine ⟨k + 1, ?_, ⟨load, by simpa using hload, hrank⟩, ?_⟩
        · rw [hk]; push_cast; ring
        · intro j x hj hx
          cases j with
          | zero =>
            simp only [List.getElem?_cons_zero, Option.some.injEq] at hx
            rw [← hx]; exact hl
          | succ j =>
            exact hfirst j x (by omega) (by simpa using hx)
      · rintro ⟨k, hk, ⟨load, hload, hrank⟩, hfirst⟩
        cases k with
        | zero =>
          simp only [List.getElem?_cons_zero, Option.some.injEq] at hload
          rw [← hload] at hrank
          exact absurd hrank hl
        | succ k =>
          refine ⟨k, ?_, ⟨load, by simpa using hload, hrank⟩, ?_⟩
          · rw [hk]; push_cast; ring
          · intro j x hj hx
            exact hfirst (j + 1) x (by omega) (by simpa using hx)

/-- The loop of `rankToLoadIdx` throws exactly when no load has the wanted
rank. -/
theorem rankToLoadIdxFrom_error (rank : label) :
    ∀ (loads : List ChemistryLoad) (start : label),
      rankToLoadIdxFrom rank loads start = Except.error "Could not find my rank from loads." ↔
        ∀ load ∈ loads, load.rank ≠ rank := by
  intro loads
  induction loads with
  | nil => intro start; simp [rankToLoadIdxFrom]
  | cons l ls ih =>
    intro start
    by_cases hl : l.rank = rank
    · simp [rankToLoadIdxFrom, hl]
    · simp [rankToLoadIdxFrom, hl, ih (start + 1)]

theorem rankToLoadIdxFrom_total (rank : label) :
    ∀ (loads : List ChemistryLoad) (start : label),
      (∃ i, rankToLoadIdxFrom rank loads start = Except.ok i) ↔
        ∃ load ∈ loads, load.rank = rank := by
  intro loads
  induction loads with
  | nil => intro start; simp [rankToLoadIdxFrom]
  | cons l ls ih =>
    intro start
    by_cases hl : l.rank = rank
    · simp [rankToLoadIdxFrom, hl]
    · simp [rankToLoadIdxFrom, hl, ih (start + 1)]

/-! ## Lemmas on the collective gather -/

theorem foldl_set_range {T : Type} (f : Nat → Option T) (xs : List T) :
    ∀ (m : Nat) (acc : List T), m ≤ acc.length → m ≤ xs.length →
      (∀ i, i < m → f i = xs[i]?) →
      (List.range m).foldl
        (fun acc i =>
          match f i with
          | some v => acc.set i v
          | none => acc) acc
        = xs.take m ++ acc.drop m := by
  intro m
  induction m with
  | zero => intro acc _ _ _; simp
  | succ m ih =>
    intro acc hacc hxs hf
    rw [List.range_succ, List.foldl_append,
      ih acc (by omega) (by omega) (fun i hi => hf i (by omega))]
    have hlt : m < xs.length := by omega
    have hm : m < acc.length := by omega
    simp only [List.foldl_cons, List.foldl_nil, hf m (Nat.lt_succ_self m),
      List.getElem?_eq_getElem hlt]
    have hlen : (xs.take m).length = m := by
      rw [List.length_take]; omega
    rw [List.set_append_right _ _ (by omega), hlen, Nat.sub_self,
      List.drop_eq_getElem_cons hm, List.set_cons_zero, List.take_succ, List.append_assoc,
      List.getElem?_eq_getElem hlt]
    rfl

theorem allGatherLocal_length {T : Type} (nProcs myProcNo : Nat) (myData : T) :
    (allGatherLocal nProcs myProcNo myData).length = nProcs := by
  simp [allGatherLocal]

theorem allGatherLocal_own {T : Type} (nProcs myProcNo : Nat) (myData : T)
    (h : myProcNo < nProcs) :
    (allGatherLocal nProcs myProcNo myData)[myProcNo]? = some myData := by
  unfold allGatherLocal
  rw [List.getElem?_set_self (by simpa using h)]

theorem localLists_getElem? {T : Type} (datas : List T) (i : Nat) :
    (List.zipWith (fun r myData => allGatherLocal datas.length r myData)
        (List.range datas.length) datas)[i]?
      = (datas[i]?).map (fun d => allGatherLocal datas.length i d) := by
  rw [List.getElem?_zipWith]
  by_cases hi : i < datas.length
  · simp [List.getElem?_range hi, List.getElem?_eq_getElem hi]
  · simp [List.getElem?_eq_none (Nat.le_of_not_lt hi)]

/-- After the gather and the scatter every worker holds the list of the data of
all workers, in rank order. -/
theorem allGatherAll_eq {T : Type} (datas : List T) :
    allGatherAll datas = datas.map (fun _ => datas) := by
  cases hd : datas with
  | nil => rfl
  | cons d ds =>
    rw [← hd]
    have hn : 0 < datas.length := by rw [hd]; simp
    obtain ⟨master, others, hlists⟩ :
        ∃ master others,
          List.zipWith (fun r myData => allGatherLocal datas.length r myData)
            (List.range datas.length) datas = master :: others := by
      rw [hd]
      simp [List.range_succ_eq_map]
    have hlen : (master :: others).length = datas.length := by
      rw [← hlists]; simp
    have hmaster : master.length = datas.length := by
      have h0 := localLists_getElem? datas 0
      rw [hlists, List.getElem?_cons_zero, List.getElem?_eq_getElem hn] at h0
      simp only [Option.map_some', Option.some.injEq] at h0
      rw [h0, allGatherLocal_length]
    have hentry : ∀ i, i < datas.length →
        ((master :: others).getD i [])[i]? = datas[i]? := by
      intro i hi
      have h := localLists_getElem? datas i
      rw [hlists, List.getElem?_eq_getElem hi] at h
      rw [List.getD_eq_getElem?_getD, h]
      simp only [Option.map_some', Option.getD_some]
      rw [allGatherLocal_own datas.length i _ hi, List.getElem?_eq_getElem hi]
    have hfold := foldl_set_range (fun i => ((master :: others).getD i [])[i]?) datas
      datas.length master (by omega) (le_refl _) hentry
    rw [List.take_length, ← hmaster, List.drop_length, List.append_nil, hmaster] at hfold
    have hgather : gatherList (master :: others) = datas :: others := by
      simp only [gatherList, hlen]
      exact congrArg (fun l => l :: others) hfold
    have hothers : others.length + 1 = datas.length := by simpa using hlen
    unfold allGatherAll
    rw [hlists, hgather]
    simp only [scatterList]
    have hrest : others.map (fun _ => datas) = ds.map (fun _ => datas) := by
      apply List.ext_getElem
      · rw [hd] at hothers
        simp only [List.length_map, List.length_cons] at hothers ⊢
        omega
      · intro i h1 h2
        simp
    rw [hrest]
    conv_rhs => rw [hd]
    simp only [List.map_cons]
    rw [hd]

/-- On every process `allGather` returns the data of all workers in rank
order. -/
theorem allGather_eq {T : Type} (before : List T) (myData : T) (after : List T) :
    allGather before myData after = before ++ myData :: after := by
  unfold allGather
  rw [allGatherAll_eq, List.getD_eq_getElem?_getD, List.getElem?_map,
    List.getElem?_append_right (le_refl _)]
  simp

/-! ## Lemmas on the reference mapper -/

theorem foldl_add_eq_sum (g : Nat → scalar) (l : List Nat) :
    ∀ init : scalar,
      l.foldl (fun (beta : scalar) (i : Nat) => beta + g i) init = init + (l.map g).sum := by
  induction l with
  | nil => intro init; simp
  | cons x xs ih =>
    intro init
    simp only [List.foldl_cons, List.map_cons, List.sum_cons, ih]
    ring

/-- The quotient computed by `check_if_refcell` is the mixing coordinate. -/
theorem accumulateBeta_coordinate (self : mixtureFractionRefMapper)
    (problem : ChemistryProblem) :
    (accumulateBeta self.alpha problem.c - self.beta_of.getD 0 0)
        / (self.beta_of.getD 1 0 - self.beta_of.getD 0 0)
      = mixingCoordinate self problem := by
  simp only [accumulateBeta, mixingCoordinate, foldl_add_eq_sum, zero_add]

theorem check_if_refcell_unchanged (self : mixtureFractionRefMapper)
    (problem : ChemistryProblem) : (check_if_refcell self problem).2 = self := by
  unfold check_if_refcell
  simp only []
  split_ifs <;> rfl

/-- When the calibration bounds differ, the comparison of `check_if_refcell`
is the comparison of the mixing coordinate with the tolerance. -/
theorem quotientBelow_coordinate (self : mixtureFractionRefMapper)
    (problem : ChemistryProblem)
    (hbounds : self.beta_of.getD 1 0 ≠ self.beta_of.getD 0 0) :
    quotientBelow (accumulateBeta self.alpha problem.c - self.beta_of.getD 0 0)
        (self.beta_of.getD 1 0 - self.beta_of.getD 0 0) self.tolerance_
      = decide (mixingCoordinate self problem < self.tolerance_) := by
  unfold quotientBelow
  rw [if_neg (sub_ne_zero.mpr hbounds), accumulateBeta_coordinate]

/-- When the calibration bounds are equal, the quotient is not a finite
number and the comparison holds exactly when the numerator is negative. -/
theorem quotientBelow_equal_bounds (num tolerance : scalar) :
    quotientBelow num 0 tolerance = decide (num < 0) := by
  simp [quotientBelow]

theorem check_if_refcell_true_iff (self : mixtureFractionRefMapper)
    (problem : ChemistryProblem)
    (hbounds : self.beta_of.getD 1 0 ≠ self.beta_of.getD 0 0) :
    (check_if_refcell self problem).1 = true ↔
      mixingCoordinate self problem < self.tolerance_ ∧
        (self.refCellFound_ = true →
          |problem.Ti - self.globalReference.Ti| < self.temperature_tolerance_) := by
  unfold check_if_refcell
  simp only [quotientBelow_coordinate self problem hbounds]
  cases hf : self.refCellFound_ with
  | false =>
    by_cases hz : mixingCoordinate self problem < self.tolerance_
    · simp [hz]
    · simp [hz]
  | true =>
    by_cases hz : mixingCoordinate self problem < self.tolerance_
    · by_cases ht : |problem.Ti - self.globalReference.Ti| < self.temperature_tolerance_
      · simp [hz, ht]
      · simp [hz, ht]
    · simp [hz]

/-- The call `getGlobalRef` always returns: it stores one of the gathered
candidates as the reference and sets the flag. -/
theorem getGlobalRef_establishes (self : mixtureFractionRefMapper)
    (before : List ChemistryProblem) (problem : ChemistryProblem)
    (after : List ChemistryProblem) :
    ∃ ref next, getGlobalRef self before problem after = some (ref, next) ∧
      next.refCellFound_ = true ∧ next.globalReference = ref ∧
      ref ∈ before ++ problem :: after := by
  obtain ⟨i, v, hmax, hv, -, -⟩ :=
    max_element_first (fun p : ChemistryProblem => p.Ti) (before ++ problem :: after) (by simp)
  refine ⟨v, mixtureFractionRefMapper.mk self.alpha self.beta_of self.tolerance_
    self.temperature_tolerance_ true v, ?_, rfl, rfl, List.getElem?_mem hv⟩
  simp only [getGlobalRef, allGather_eq, hmax]

theorem applyCall_keeps_reference (self : mixtureFractionRefMapper) (call : MapperCall)
    (h : self.refCellFound_ = true) :
    ∃ next, applyCall self call = some next ∧ next.refCellFound_ = true := by
  cases call with
  | shouldMap problem =>
    refine ⟨self, ?_, h⟩
    simp only [applyCall, shouldMap, check_if_refcell_unchanged]
  | getGlobalRef before problem after =>
    obtain ⟨ref, next, hg, hfound, -, -⟩ := getGlobalRef_establishes self before problem after
    exact ⟨next, by simp only [applyCall, hg, Option.map_some'], hfound⟩

/-! ## Lemmas on fields and on the solver loop -/

theorem writeAt_length (field : List scalar) (i : label) (v : scalar) :
    (writeAt field i v).length = field.length := by
  unfold writeAt
  split_ifs <;> simp

theorem writeAt_getElem?_ne (field : List scalar) (i : label) (v : scalar) (m : Nat)
    (h : (m : label) ≠ i) : (writeAt field i v)[m]? = field[m]? := by
  unfold writeAt
  split_ifs with hneg
  · rfl
  · have hne : i.toNat ≠ m := by
      intro heq
      apply h
      rw [← heq, Int.toNat_of_nonneg (not_lt.mp hneg)]
    rw [List.getElem?_set_ne hne]

theorem writeAt_getElem?_self (field : List scalar) (m : Nat) (v w : scalar)
    (h : (writeAt field (m : label) v)[m]? = some w) : w = v := by
  unfold writeAt at h
  have hnn : ¬ ((m : label) < 0) := not_lt.mpr (Int.natCast_nonneg m)
  simp only [hnn, if_false, Int.toNat_natCast] at h
  by_cases hm : m < field.length
  · rw [List.getElem?_set_self hm] at h
    exact (Option.some.inj h).symm
  · rw [List.getElem?_eq_none (by simpa using hm)] at h
    cases h

theorem writeAt_comm (field : List scalar) (i k : label) (v w : scalar) (h : i ≠ k) :
    writeAt (writeAt field i v) k w = writeAt (writeAt field k w) i v := by
  unfold writeAt
  by_cases hi : i < 0
  · simp [hi]
  · by_cases hk : k < 0
    · simp [hk]
    · simp only [hi, hk, if_false]
      apply List.set_comm
      intro heq
      apply h
      rw [← Int.toNat_of_nonneg (not_lt.mp hi), ← Int.toNat_of_nonneg (not_lt.mp hk), heq]

theorem writeColumn_length (RR : List (List scalar)) (i : label) (value : Nat → scalar) :
    ∀ n : Nat, (writeColumn RR n i value).length = RR.length := by
  intro n
  induction n with
  | zero => simp [writeColumn]
  | succ n ih =>
    unfold writeColumn at ih ⊢
    rw [List.range_succ, List.foldl_append]
    simp only [List.foldl_cons, List.foldl_nil, List.length_set, ih]

/-- After the loop over the species, row `j` has the new entry when
`j < nSpecie`, and is as before otherwise. -/
theorem writeColumn_getElem? (RR : List (List scalar)) (i : label) (value : Nat → scalar) :
    ∀ (n j : Nat), (writeColumn RR n i value)[j]?
      = (RR[j]?).map (fun row => if j < n then writeAt row i (value j) else row) := by
  intro n
  induction n with
  | zero =>
    intro j
    simp [writeColumn]
  | succ n ih =>
    intro j
    have hstep : writeColumn RR (n + 1) i value
        = (writeColumn RR n i value).set n
            (writeAt ((writeColumn RR n i value).getD n []) i (value n)) := by
      unfold writeColumn
      rw [List.range_succ, List.foldl_append]
      rfl
    rw [hstep]
    by_cases hj : n = j
    · subst hj
      by_cases hn : n < RR.length
      · rw [List.getElem?_set_self (by rw [writeColumn_length]; exact hn),
          List.getD_eq_getElem?_getD, ih n, List.getElem?_eq_getElem hn]
        simp
      · rw [List.getElem?_eq_none (by simp [writeColumn_length]; omega),
          List.getElem?_eq_none (by omega)]
        rfl
    · rw [List.getElem?_set_ne hj, ih j]
      have hiff : (j < n + 1) ↔ (j < n) := by omega
      simp only [hiff]

theorem entry_writeColumn_ne (RR : List (List scalar)) (n : Nat) (i : label)
    (value : Nat → scalar) (j m : Nat) (h : (m : label) ≠ i) :
    entry (writeColumn RR n i value) j m = entry RR j m := by
  unfold entry
  rw [List.getD_eq_getElem?_getD, List.getD_eq_getElem?_getD, writeColumn_getElem?]
  cases hrow : RR[j]? with
  | none => rfl
  | some row =>
    simp only [Option.map_some', Option.getD_some]
    split_ifs
    · exact writeAt_getElem?_ne row i _ m h
    · rfl

theorem entry_writeColumn_self (RR : List (List scalar)) (n : Nat) (value : Nat → scalar)
    (j m : Nat) (v : scalar) (hj : j < n)
    (h : entry (writeColumn RR n (m : label) value) j m = some v) : v = value j := by
  unfold entry at h
  rw [List.getD_eq_getElem?_getD, writeColumn_getElem?] at h
  cases hrow : RR[j]? with
  | none => rw [hrow] at h; simp at h
  | some row =>
    rw [hrow] at h
    simp only [Option.map_some', Option.getD_some, hj, if_true] at h
    exact writeAt_getElem?_self row m _ v h

theorem writeColumn_comm (RR : List (List scalar)) (n : Nat) (i k : label)
    (value1 value2 : Nat → scalar) (h : i ≠ k) :
    writeColumn (writeColumn RR n i value1) n k value2
      = writeColumn (writeColumn RR n k value2) n i value1 := by
  apply List.ext_getElem?
  intro j
  rw [writeColumn_getElem?, writeColumn_getElem?, writeColumn_getElem?, writeColumn_getElem?]
  cases RR[j]? with
  | none => rfl
  | some row =>
    simp only [Option.map_some']
    split_ifs
    · rw [writeAt_comm row i k _ _ h]
    · rfl

/-- The solver loop changes neither the cell index nor the density, the flow
time step or the cost of the problem. -/
theorem solveLoop_keeps (env : Collaborators) :
    ∀ (fuel : Nat) (timeLeft : scalar) (problem solved : ChemistryProblem),
      solveLoop env fuel timeLeft problem = some solved →
      solved.cellid = problem.cellid ∧ solved.rhoi = problem.rhoi ∧
        solved.deltaT = problem.deltaT ∧ solved.cpuTime = problem.cpuTime := by
  intro fuel
  induction fuel with
  | zero =>
    intro timeLeft problem solved h
    unfold solveLoop at h
    split_ifs at h
    cases h
    exact ⟨rfl, rfl, rfl, rfl⟩
  | succ fuel ih =>
    intro timeLeft problem solved h
    unfold solveLoop at h
    split_ifs at h
    · obtain ⟨h1, h2, h3, h4⟩ := ih _ _ solved h
      exact ⟨h1, h2, h3, h4⟩
    · cases h
      exact ⟨rfl, rfl, rfl, rfl⟩

/-- With a solver that makes progress the loop ends within `fuel` rounds as
soon as `timeLeft ≤ small + fuel * delta`. -/
theorem solveLoop_returns (env : Collaborators) (delta : scalar) (hprog : odeProgress env delta) :
    ∀ (fuel : Nat) (timeLeft : scalar) (problem : ChemistryProblem),
      timeLeft ≤ env.small + (fuel : scalar) * delta →
      ∃ solved, solveLoop env fuel timeLeft problem = some solved := by
  obtain ⟨hdelta, hsmall, hstep⟩ := hprog
  intro fuel
  induction fuel with
  | zero =>
    intro timeLeft problem h
    have hle : ¬ timeLeft > env.small := by
      simp only [Nat.cast_zero, zero_mul, add_zero] at h
      exact not_lt.mpr h
    exact ⟨problem, by simp [solveLoop, hle]⟩
  | succ fuel ih =>
    intro timeLeft problem h
    by_cases hgt : timeLeft > env.small
    · have hd := hstep problem.pi problem.Ti problem.c 0 timeLeft problem.deltaTChem hgt
      have hnext : timeLeft
          - (env.solve problem.pi problem.Ti problem.c 0 timeLeft problem.deltaTChem).deltaT
          ≤ env.small + (fuel : scalar) * delta := by
        have hfuel : (0 : scalar) ≤ (fuel : scalar) * delta :=
          mul_nonneg (Nat.cast_nonneg fuel) (le_of_lt hdelta)
        push_cast at h
        rcases le_total delta timeLeft with hcase | hcase
        · rw [min_eq_left hcase] at hd
          linarith
        · rw [min_eq_right hcase] at hd
          linarith
      obtain ⟨solved, hs⟩ := ih _
        { problem with
          pi := (env.solve problem.pi problem.Ti problem.c 0 timeLeft problem.deltaTChem).p
          Ti := (env.solve problem.pi problem.Ti problem.c 0 timeLeft problem.deltaTChem).T
          c := (env.solve problem.pi problem.Ti problem.c 0 timeLeft problem.deltaTChem).c
          deltaTChem :=
            (env.solve problem.pi problem.Ti problem.c 0 timeLeft problem.deltaTChem).subDeltaT }
        hnext
      exact ⟨solved, by simp only [solveLoop, hgt, if_true, hs]⟩
    · exact ⟨problem, by simp [solveLoop, hgt]⟩

theorem solveSingle_spec (env : Collaborators) (self : LoadBalancedChemistryModel) (fuel : Nat)
    (problem after : ChemistryProblem) (slot solution : ChemistrySolution)
    (h : solveSingle env self fuel problem slot = some (after, solution)) :
    solution.cellid = problem.cellid ∧ solution.rhoi = problem.rhoi ∧
      solution.deltaTChem ≤ self.deltaTChemMax_ ∧
      solution.cpuTime = env.timeIncrement problem := by
  unfold solveSingle at h
  simp only [] at h
  cases hl : solveLoop env fuel problem.deltaT problem with
  | none => rw [hl] at h; cases h
  | some solved =>
    rw [hl] at h
    simp only [Option.some.injEq, Prod.mk.injEq] at h
    obtain ⟨-, hsol⟩ := h
    obtain ⟨h1, h2, -, -⟩ := solveLoop_keeps env fuel _ problem solved hl
    rw [← hsol]
    exact ⟨h1, h2, min_le_right _ _, rfl⟩

theorem solveSingle_returns (env : Collaborators) (self : LoadBalancedChemistryModel)
    (delta : scalar) (hprog : odeProgress env delta) (fuel : Nat) (problem : ChemistryProblem)
    (slot : ChemistrySolution) (hfuel : problem.deltaT ≤ env.small + (fuel : scalar) * delta) :
    ∃ after solution, solveSingle env self fuel problem slot = some (after, solution) := by
  obtain ⟨solved, hs⟩ := solveLoop_returns env delta hprog fuel problem.deltaT problem hfuel
  simp only [solveSingle, hs]
  exact ⟨_, _, rfl⟩

theorem solveSingle_congr (env : Collaborators) (a b : LoadBalancedChemistryModel) (fuel : Nat)
    (problem : ChemistryProblem) (slot : ChemistrySolution)
    (h : a.deltaTChemMax_ = b.deltaTChemMax_) :
    solveSingle env a fuel problem slot = solveSingle env b fuel problem slot := by
  simp only [solveSingle, h]

/-- Enough fuel for finitely many time steps exists. -/
theorem exists_fuel (small delta : scalar) (hdelta : 0 < delta) (steps : List scalar) :
    ∃ fuel : Nat, ∀ t ∈ steps, t ≤ small + (fuel : scalar) * delta := by
  induction steps with
  | nil => exact ⟨0, by simp⟩
  | cons t ts ih =>
    obtain ⟨f1, h1⟩ := ih
    obtain ⟨f2, h2⟩ := exists_nat_ge ((t - small) / delta)
    refine ⟨max f1 f2, ?_⟩
    intro x hx
    have hmono : ∀ f : Nat, f ≤ max f1 f2 →
        small + (f : scalar) * delta ≤ small + ((max f1 f2 : Nat) : scalar) * delta := by
      intro f hf
      have : (f : scalar) ≤ ((max f1 f2 : Nat) : scalar) := by exact_mod_cast hf
      have := mul_le_mul_of_nonneg_right this (le_of_lt hdelta)
      linarith
    rcases List.mem_cons.mp hx with hx | hx
    · rw [hx]
      have h3 : t - small ≤ (f2 : scalar) * delta := by
        rw [div_le_iff₀ hdelta] at h2
        exact h2
      have := hmono f2 (le_max_right _ _)
      linarith
    · exact le_trans (h1 x hx) (hmono f1 (le_max_left _ _))

/-! ## Lemmas on the copied ranges and on the mean -/

theorem mul_le_sum_values (a : scalar) (loads : List ChemistryLoad)
    (h : ∀ x ∈ loads, a ≤ x.value) :
    (loads.length : scalar) * a ≤ (loads.map (fun l => l.value)).sum := by
  induction loads with
  | nil => simp
  | cons l ls ih =>
    have h1 := h l (List.mem_cons_self l ls)
    have h2 := ih (fun x hx => h x (List.mem_cons_of_mem l hx))
    simp only [List.map_cons, List.sum_cons, List.length_cons]
    push_cast
    linarith

theorem sum_values_le_mul (a : scalar) (loads : List ChemistryLoad)
    (h : ∀ x ∈ loads, x.value ≤ a) :
    (loads.map (fun l => l.value)).sum ≤ (loads.length : scalar) * a := by
  induction loads with
  | nil => simp
  | cons l ls ih =>
    have h1 := h l (List.mem_cons_self l ls)
    have h2 := ih (fun x hx => h x (List.mem_cons_of_mem l hx))
    simp only [List.map_cons, List.sum_cons, List.length_cons]
    push_cast
    linarith

/-! ## Lemmas on `solveBuffer` and `updateReactionRates` -/

theorem solveRow_spec (env : Collaborators) (self : LoadBalancedChemistryModel) (fuel : Nat) :
    ∀ (problems : List ChemistryProblem) (slots row : List ChemistrySolution),
      slots.length = problems.length →
      solveRow env self fuel problems slots = some row →
      List.Forall₂
        (fun (p : ChemistryProblem) (s : ChemistrySolution) =>
          s.cellid = p.cellid ∧ s.rhoi = p.rhoi ∧ s.deltaTChem ≤ self.deltaTChemMax_)
        problems row := by
  intro problems
  induction problems with
  | nil =>
    intro slots row hlen h
    have : slots = [] := List.length_eq_zero.mp hlen
    subst this
    simp only [solveRow, Option.some.injEq] at h
    subst h
    exact List.Forall₂.nil
  | cons p ps ih =>
    intro slots row hlen h
    cases slots with
    | nil => simp at hlen
    | cons slot slots =>
      simp only [List.length_cons, Nat.add_right_cancel_iff] at hlen
      simp only [solveRow] at h
      cases hs : solveSingle env self fuel p slot with
      | none => rw [hs] at h; cases h
      | some r =>
        obtain ⟨after, solved⟩ := r
        rw [hs] at h
        dsimp only at h
        cases hr : solveRow env self fuel ps slots with
        | none => rw [hr] at h; cases h
        | some rest =>
          rw [hr] at h
          cases h
          obtain ⟨h1, h2, h3, -⟩ := solveSingle_spec env self fuel p after slot solved hs
          exact List.Forall₂.cons ⟨h1, h2, h3⟩ (ih slots rest hlen hr)

theorem solveRow_returns (env : Collaborators) (self : LoadBalancedChemistryModel)
    (delta : scalar) (hprog : odeProgress env delta) (fuel : Nat) :
    ∀ (problems : List ChemistryProblem) (slots : List ChemistrySolution),
      (∀ p ∈ problems, p.deltaT ≤ env.small + (fuel : scalar) * delta) →
      ∃ row, solveRow env self fuel problems slots = some row := by
  intro problems
  induction problems with
  | nil => intro slots _; exact ⟨slots, by simp [solveRow]⟩
  | cons p ps ih =>
    intro slots hfuel
    cases slots with
    | nil => exact ⟨[], by simp [solveRow]⟩
    | cons slot slots =>
      obtain ⟨after, solved, hs⟩ := solveSingle_returns env self delta hprog fuel p slot
        (hfuel p (List.mem_cons_self p ps))
      obtain ⟨rest, hr⟩ := ih slots (fun q hq => hfuel q (List.mem_cons_of_mem p hq))
      exact ⟨solved :: rest, by simp only [solveRow, hs, hr]⟩

theorem solveRows_spec (env : Collaborators) (self : LoadBalancedChemistryModel) (fuel : Nat) :
    ∀ (problems : List (List ChemistryProblem)) (solutions : List (List ChemistrySolution)),
      solveRows env self fuel problems
          (problems.map
            (fun sub => List.replicate sub.length (ChemistrySolution.ofSpecies self.nSpecie_)))
        = some solutions →
      List.Forall₂
        (fun (ps : List ChemistryProblem) (ss : List ChemistrySolution) =>
          List.Forall₂
            (fun (p : ChemistryProblem) (s : ChemistrySolution) =>
              s.cellid = p.cellid ∧ s.rhoi = p.rhoi ∧ s.deltaTChem ≤ self.deltaTChemMax_)
            ps ss)
        problems solutions := by
  intro problems
  induction problems with
  | nil =>
    intro solutions h
    simp only [List.map_nil, solveRows, Option.some.injEq] at h
    subst h
    exact List.Forall₂.nil
  | cons ps more ih =>
    intro solutions h
    simp only [List.map_cons, solveRows] at h
    cases hrow : solveRow env self fuel ps
        (List.replicate ps.length (ChemistrySolution.ofSpecies self.nSpecie_)) with
    | none => rw [hrow] at h; cases h
    | some row =>
      rw [hrow] at h
      dsimp only at h
      cases hrest : solveRows env self fuel more
          (more.map
            (fun sub => List.replicate sub.length (ChemistrySolution.ofSpecies self.nSpecie_)))
        with
      | none => rw [hrest] at h; cases h
      | some rest =>
        rw [hrest] at h
        cases h
        exact List.Forall₂.cons (solveRow_spec env self fuel ps _ row (by simp) hrow)
          (ih rest hrest)

theorem solveRows_returns (env : Collaborators) (self : LoadBalancedChemistryModel)
    (delta : scalar) (hprog : odeProgress env delta) (fuel : Nat) :
    ∀ (problems : List (List ChemistryProblem)) (slots : List (List ChemistrySolution)),
      (∀ p ∈ problems.flatten, p.deltaT ≤ env.small + (fuel : scalar) * delta) →
      ∃ solutions, solveRows env self fuel problems slots = some solutions := by
  intro problems
  induction problems with
  | nil => intro slots _; exact ⟨slots, by simp [solveRows]⟩
  | cons ps more ih =>
    intro slots hfuel
    cases slots with
    | nil => exact ⟨[], by simp [solveRows]⟩
    | cons slot slots =>
      obtain ⟨row, hrow⟩ := solveRow_returns env self delta hprog fuel ps slot
        (fun p hp => hfuel p (by simp [hp]))
      obtain ⟨rest, hrest⟩ := ih slots
        (fun p hp => hfuel p (by
          simp only [List.flatten_cons, List.mem_append]
          exact Or.inr hp))
      exact ⟨row :: rest, by simp only [solveRows, hrow, hrest]⟩

theorem updateReactionRates_flatten (env : Collaborators) (self : LoadBalancedChemistryModel)
    (solutions : List (List ChemistrySolution)) :
    updateReactionRates env self solutions
      = solutions.flatten.foldl storeSolution (self, env.great) := by
  unfold updateReactionRates
  rw [List.foldl_flatten]

/-- The running minimum after the loops: it is at most the start value and at
most every sub-step size, and it is one of them. -/
theorem foldl_storeSolution_min :
    ∀ (flat : List ChemistrySolution) (acc : LoadBalancedChemistryModel × scalar),
      (flat.foldl storeSolution acc).2 ≤ acc.2 ∧
      (∀ s ∈ flat, (flat.foldl storeSolution acc).2 ≤ s.deltaTChem) ∧
      ((flat.foldl storeSolution acc).2 = acc.2 ∨
        ∃ s ∈ flat, (flat.foldl storeSolution acc).2 = s.deltaTChem) := by
  intro flat
  induction flat with
  | nil => intro acc; simp
  | cons s ss ih =>
    intro acc
    obtain ⟨h1, h2, h3⟩ := ih (storeSolution acc s)
    have hacc : (storeSolution acc s).2 = min s.deltaTChem acc.2 := rfl
    simp only [List.foldl_cons]
    refine ⟨?_, ?_, ?_⟩
    · exact le_trans h1 (by rw [hacc]; exact min_le_right _ _)
    · intro x hx
      rcases List.mem_cons.mp hx with hx | hx
      · rw [hx]
        exact le_trans h1 (by rw [hacc]; exact min_le_left _ _)
      · exact h2 x hx
    · rcases h3 with h3 | ⟨x, hx, h3⟩
      · rw [h3, hacc]
        rcases le_total s.deltaTChem acc.2 with hle | hle
        · right
          exact ⟨s, List.mem_cons_self s ss, by rw [min_eq_left hle]⟩
        · left
          rw [min_eq_right hle]
      · right
        exact ⟨x, List.mem_cons_of_mem s hx, h3⟩

/-- The loops of `updateReactionRates` change neither the number of species
nor the molar masses nor the largest sub-step size. -/
theorem foldl_storeSolution_setup :
    ∀ (flat : List ChemistrySolution) (acc : LoadBalancedChemistryModel × scalar),
      (flat.foldl storeSolution acc).1.nSpecie_ = acc.1.nSpecie_ ∧
      (flat.foldl storeSolution acc).1.W = acc.1.W ∧
      (flat.foldl storeSolution acc).1.deltaTChemMax_ = acc.1.deltaTChemMax_ := by
  intro flat
  induction flat with
  | nil => intro acc; exact ⟨rfl, rfl, rfl⟩
  | cons s ss ih =>
    intro acc
    obtain ⟨h1, h2, h3⟩ := ih (storeSolution acc s)
    exact ⟨h1, h2, h3⟩

/-- A solution leaves the entries of the other cells as they are. -/
theorem storeSolution_frame (acc : LoadBalancedChemistryModel × scalar)
    (s : ChemistrySolution) (m : Nat) (h : (m : label) ≠ s.cellid) :
    (∀ j, entry (storeSolution acc s).1.RR_ j m = entry acc.1.RR_ j m) ∧
    (storeSolution acc s).1.deltaTChem_[m]? = acc.1.deltaTChem_[m]? ∧
    (storeSolution acc s).1.cpuTimes_[m]? = acc.1.cpuTimes_[m]? :=
  ⟨fun j => entry_writeColumn_ne _ _ _ _ j m h, writeAt_getElem?_ne _ _ _ m h,
    writeAt_getElem?_ne _ _ _ m h⟩

/-- What a solution stores at its own cell. -/
theorem storeSolution_own (acc : LoadBalancedChemistryModel × scalar)
    (s : ChemistrySolution) (m : Nat) (h : s.cellid = (m : label)) :
    (∀ j v, j < acc.1.nSpecie_ → entry (storeSolution acc s).1.RR_ j m = some v →
      v = s.c_increment.getD j 0 * acc.1.W.getD j 0) ∧
    (∀ v, (storeSolution acc s).1.deltaTChem_[m]? = some v →
      v = min s.deltaTChem acc.1.deltaTChemMax_) ∧
    (∀ v, (storeSolution acc s).1.cpuTimes_[m]? = some v → v = s.cpuTime) := by
  refine ⟨?_, ?_, ?_⟩
  · intro j v hj hv
    simp only [storeSolution, h] at hv
    exact entry_writeColumn_self _ _ _ j m v hj hv
  · intro v hv
    simp only [storeSolution, h] at hv
    exact writeAt_getElem?_self _ m _ v hv
  · intro v hv
    simp only [storeSolution, h] at hv
    exact writeAt_getElem?_self _ m _ v hv

theorem foldl_storeSolution_frame (m : Nat) :
    ∀ (flat : List ChemistrySolution) (acc : LoadBalancedChemistryModel × scalar),
      (∀ t ∈ flat, t.cellid ≠ (m : label)) →
      (∀ j, entry (flat.foldl storeSolution acc).1.RR_ j m = entry acc.1.RR_ j m) ∧
      (flat.foldl storeSolution acc).1.deltaTChem_[m]? = acc.1.deltaTChem_[m]? ∧
      (flat.foldl storeSolution acc).1.cpuTimes_[m]? = acc.1.cpuTimes_[m]? := by
  intro flat
  induction flat with
  | nil => intro acc _; exact ⟨fun _ => rfl, rfl, rfl⟩
  | cons s ss ih =>
    intro acc hne
    obtain ⟨h1, h2, h3⟩ := ih (storeSolution acc s)
      (fun t ht => hne t (List.mem_cons_of_mem s ht))
    obtain ⟨f1, f2, f3⟩ := storeSolution_frame acc s m
      (fun heq => hne s (List.mem_cons_self s ss) heq.symm)
    simp only [List.foldl_cons]
    exact ⟨fun j => (h1 j).trans (f1 j), h2.trans f2, h3.trans f3⟩

/-- Two solutions of different cells can be stored in either order. -/
theorem storeSolution_comm (acc : LoadBalancedChemistryModel × scalar)
    (x y : ChemistrySolution) (h : x.cellid ≠ y.cellid) :
    storeSolution (storeSolution acc x) y = storeSolution (storeSolution acc y) x := by
  simp only [storeSolution, computeReactionRate]
  rw [writeColumn_comm acc.1.RR_ acc.1.nSpecie_ x.cellid y.cellid _ _ h,
    writeAt_comm acc.1.deltaTChem_ x.cellid y.cellid _ _ h,
    writeAt_comm acc.1.cpuTimes_ x.cellid y.cellid _ _ h, min_left_comm]

theorem exampleCollaborators_progress : odeProgress exampleCollaborators 1 := by
  refine ⟨by norm_num, by norm_num [exampleCollaborators], ?_⟩
  intro p T c li dt subDeltaT _
  exact min_le_right _ _

/-- In the example model the cells 1 and 4 are above the threshold and not
accepted by the mapper. -/
theorem exampleModel_kept_cells :
    ((List.range exampleModel.p.length).filter
      (fun c => reacts exampleModel c && !mapperAccepts exampleCollaborators exampleModel c)).map
        (fun (c : Nat) => (c : label)) = [1, 4] := by
  simp [reacts, mapperAccepts, shouldMap, check_if_refcell, quotientBelow, accumulateBeta,
    getMassFraction, createProblem, readAt, exampleModel, exampleCollaborators, List.range,
    List.range.loop, List.filter]
  norm_num

/-- In the example model the cell 0 is mapped. -/
theorem exampleModel_mapped_zero : mapped exampleCollaborators exampleModel 0 = true := by
  simp [mapped, reacts, mapperAccepts, shouldMap, check_if_refcell, quotientBelow, accumulateBeta,
    getMassFraction, createProblem, readAt, exampleModel, exampleCollaborators, List.range,
    List.range.loop]
  norm_num

/-- In the example model the cell 3 is mapped. -/
theorem exampleModel_mapped_three : mapped exampleCollaborators exampleModel 3 = true := by
  simp [mapped, reacts, mapperAccepts, shouldMap, check_if_refcell, quotientBelow,
    accumulateBeta, getMassFraction, createProblem, readAt, exampleModel, exampleCollaborators,
    List.range, List.range.loop]
  norm_num

/-- In the example model the cell 2 is below the reaction threshold. -/
theorem exampleModel_cold_two : reacts exampleModel 2 = false := by
  simp [reacts, exampleModel]
  norm_num

/-- The fields of the example model have the cell 3. -/
theorem exampleModel_hasCell_three : hasCell exampleModel 3 := by
  refine ⟨?_, by decide, by decide⟩
  intro j hj
  have hj2 : j < 2 := hj
  interval_cases j <;> decide

/-- The fields of the example model have the cell 0. -/
theorem exampleModel_hasCell_zero : hasCell exampleModel 0 := by
  refine ⟨?_, by decide, by decide⟩
  intro j hj
  have hj2 : j < 2 := hj
  interval_cases j <;> decide

/-! ## Lemmas on `getProblems` -/

theorem sameSetup_refl (a : LoadBalancedChemistryModel) : sameSetup a a :=
  ⟨rfl, rfl, rfl, rfl, rfl, rfl, rfl, rfl, rfl, rfl⟩

theorem sameSetup_trans {a b c : LoadBalancedChemistryModel} (h1 : sameSetup a b)
    (h2 : sameSetup b c) : sameSetup a c := by
  obtain ⟨a1, a2, a3, a4, a5, a6, a7, a8, a9, a10⟩ := h1
  obtain ⟨b1, b2, b3, b4, b5, b6, b7, b8, b9, b10⟩ := h2
  exact ⟨a1.trans b1, a2.trans b2, a3.trans b3, a4.trans b4, a5.trans b5, a6.trans b6,
    a7.trans b7, a8.trans b8, a9.trans b9, a10.trans b10⟩

theorem reacts_congr {a b : LoadBalancedChemistryModel} (h : sameSetup a b) (celli : Nat) :
    reacts a celli = reacts b celli := by
  obtain ⟨-, -, -, -, h5, h6, -⟩ := h
  simp only [reacts, h5, h6]

theorem mapperAccepts_congr (env : Collaborators) {a b : LoadBalancedChemistryModel}
    (h : sameSetup a b) (celli : Nat) :
    mapperAccepts env a celli = mapperAccepts env b celli := by
  obtain ⟨h1, h2, -, -, -, -, -, -, h9, h10⟩ := h
  simp only [mapperAccepts, getMassFraction, createProblem, h1, h2, h9, h10]

theorem askMapper_fst (env : Collaborators) (self : LoadBalancedChemistryModel)
    (deltaT : scalar) (celli : Nat) :
    (askMapper env (concentrationLoop self celli)
        (createProblem (concentrationLoop self celli) deltaT celli)).1
      = mapperAccepts env self celli := by
  simp only [askMapper, mapperAccepts, getMassFraction, createProblem, concentrationLoop]
  cases self.mapperActive <;> simp

theorem askMapper_snd (env : Collaborators) (self : LoadBalancedChemistryModel)
    (problem : ChemistryProblem) : (askMapper env self problem).2 = self.mapper_ := by
  unfold askMapper
  split_ifs
  · exact check_if_refcell_unchanged _ _
  · rfl

theorem visitCell_cold (env : Collaborators) (fuel : Nat) (deltaT : Nat → scalar)
    (pass : ProblemPass) (celli : Nat) (hcold : reacts pass.self celli = false) :
    visitCell env fuel deltaT pass celli
      = some
        { pass with
          self :=
            { concentrationLoop pass.self celli with
              RR_ := writeColumn pass.self.RR_ pass.self.nSpecie_ (celli : label) (fun _ => 0) } }
    := by
  have h : ¬ (concentrationLoop pass.self celli).T.getD celli 0
      > (concentrationLoop pass.self celli).Treact := by
    simpa [reacts, concentrationLoop] using hcold
  simp only [visitCell, h, if_false]
  rfl

theorem visitCell_kept (env : Collaborators) (fuel : Nat) (deltaT : Nat → scalar)
    (pass : ProblemPass) (celli : Nat) (hreact : reacts pass.self celli = true)
    (hacc : mapperAccepts env pass.self celli = false) :
    visitCell env fuel deltaT pass celli
      = some
        { pass with
          self := concentrationLoop pass.self celli
          chem_problems := pass.chem_problems
            ++ [createProblem (concentrationLoop pass.self celli) (deltaT celli) celli] } := by
  have hT : (concentrationLoop pass.self celli).T.getD celli 0
      > (concentrationLoop pass.self celli).Treact := by
    simpa [reacts, concentrationLoop] using hreact
  have h1 := askMapper_fst env pass.self (deltaT celli) celli
  have h2 := askMapper_snd env (concentrationLoop pass.self celli)
    (createProblem (concentrationLoop pass.self celli) (deltaT celli) celli)
  simp only [visitCell, hT, if_true, h1, hacc, h2]
  rfl

theorem visitCell_later (env : Collaborators) (fuel : Nat) (deltaT : Nat → scalar)
    (pass : ProblemPass) (celli : Nat) (hreact : reacts pass.self celli = true)
    (hacc : mapperAccepts env pass.self celli = true) (hfound : pass.refCellFound = true) :
    visitCell env fuel deltaT pass celli
      = some
        { pass with
          self :=
            { updateReactionRate (concentrationLoop pass.self celli) pass.ref_solution
                (celli : label) with
              cpuTimes_ := writeAt pass.self.cpuTimes_ (celli : label)
                pass.ref_solution.cpuTime } } := by
  have hT : (concentrationLoop pass.self celli).T.getD celli 0
      > (concentrationLoop pass.self celli).Treact := by
    simpa [reacts, concentrationLoop] using hreact
  have h1 := askMapper_fst env pass.self (deltaT celli) celli
  have h2 := askMapper_snd env (concentrationLoop pass.self celli)
    (createProblem (concentrationLoop pass.self celli) (deltaT celli) celli)
  simp only [visitCell, hT, if_true, h1, hacc, h2, hfound]
  rfl

theorem visitCell_first (env : Collaborators) (fuel : Nat) (deltaT : Nat → scalar)
    (pass : ProblemPass) (celli : Nat) (hreact : reacts pass.self celli = true)
    (hacc : mapperAccepts env pass.self celli = true) (hfound : pass.refCellFound = false) :
    visitCell env fuel deltaT pass celli
      = match solveSingle env pass.self fuel
          (createProblem (concentrationLoop pass.self celli) (deltaT celli) celli)
          pass.ref_solution with
        | none => none
        | some (_, ref_solution) =>
          some
            { self :=
                { updateReactionRate (concentrationLoop pass.self celli) ref_solution
                    ref_solution.cellid with
                  cpuTimes_ := writeAt pass.self.cpuTimes_ ref_solution.cellid
                    ref_solution.cpuTime }
              refCellFound := true
              chem_problems := pass.chem_problems
              ref_solution := ref_solution
              solveCalls := pass.solveCalls
                ++ [createProblem (concentrationLoop pass.self celli) (deltaT celli) celli] }
    := by
  have hT : (concentrationLoop pass.self celli).T.getD celli 0
      > (concentrationLoop pass.self celli).Treact := by
    simpa [reacts, concentrationLoop] using hreact
  have h1 := askMapper_fst env pass.self (deltaT celli) celli
  have h2 := askMapper_snd env (concentrationLoop pass.self celli)
    (createProblem (concentrationLoop pass.self celli) (deltaT celli) celli)
  have h3 : solveSingle env
      { concentrationLoop pass.self celli with
        mapper_ := (concentrationLoop pass.self celli).mapper_ } fuel
      (createProblem (concentrationLoop pass.self celli) (deltaT celli) celli) pass.ref_solution
      = solveSingle env pass.self fuel
        (createProblem (concentrationLoop pass.self celli) (deltaT celli) celli)
        pass.ref_solution := solveSingle_congr env _ _ fuel _ _ rfl
  simp only [visitCell, hT, if_true, h1, hacc, h2, hfound, Bool.not_false, h3]
  rfl

/-- What one round of the loop of `getProblems` does, in each of its three
cases. -/
theorem visitCell_effect (env : Collaborators) (fuel : Nat) (deltaT : Nat → scalar)
    (pass : ProblemPass) (celli : Nat) (next : ProblemPass)
    (h : visitCell env fuel deltaT pass celli = some next) :
    sameSetup next.self pass.self ∧
    (∀ m : Nat, m ≠ celli →
      (∀ j, entry next.self.RR_ j m = entry pass.self.RR_ j m) ∧
      next.self.deltaTChem_[m]? = pass.self.deltaTChem_[m]? ∧
      next.self.cpuTimes_[m]? = pass.self.cpuTimes_[m]?) ∧
    (reacts pass.self celli = false →
      next.chem_problems = pass.chem_problems ∧ next.refCellFound = pass.refCellFound ∧
      next.ref_solution = pass.ref_solution ∧ next.solveCalls = pass.solveCalls ∧
      ∀ j v, j < pass.self.nSpecie_ → entry next.self.RR_ j celli = some v → v = 0) ∧
    (kept env pass.self celli = true →
      (∃ P : ChemistryProblem, P.cellid = (celli : label) ∧
        next.chem_problems = pass.chem_problems ++ [P]) ∧
      next.refCellFound = pass.refCellFound ∧ next.ref_solution = pass.ref_solution ∧
      next.solveCalls = pass.solveCalls) ∧
    (mapped env pass.self celli = true →
      next.chem_problems = pass.chem_problems ∧ next.refCellFound = true ∧
      agreesWith next.self next.ref_solution celli ∧
      (pass.refCellFound = true →
        next.ref_solution = pass.ref_solution ∧ next.solveCalls = pass.solveCalls) ∧
      (pass.refCellFound = false →
        ∃ (P after : ChemistryProblem), P.cellid = (celli : label) ∧
          next.solveCalls = pass.solveCalls ++ [P] ∧
          solveSingle env pass.self fuel P pass.ref_solution
            = some (after, next.ref_solution))) := by
  have hne : ∀ m : Nat, m ≠ celli → (m : label) ≠ (celli : label) := by
    intro m hm heq
    exact hm (by exact_mod_cast heq)
  cases hreact : reacts pass.self celli with
  | false =>
    rw [visitCell_cold env fuel deltaT pass celli hreact] at h
    cases h
    refine ⟨⟨rfl, rfl, rfl, rfl, rfl, rfl, rfl, rfl, rfl, rfl⟩, ?_, ?_, ?_, ?_⟩
    · intro m hm
      exact ⟨fun j => entry_writeColumn_ne _ _ _ _ j m (hne m hm), rfl, rfl⟩
    · intro _
      refine ⟨rfl, rfl, rfl, rfl, ?_⟩
      intro j v hj hv
      exact entry_writeColumn_self _ _ _ j celli v hj hv
    · intro hk
      simp [kept, hreact] at hk
    · intro hk
      simp [mapped, hreact] at hk
  | true =>
    cases hacc : mapperAccepts env pass.self celli with
    | false =>
      rw [visitCell_kept env fuel deltaT pass celli hreact hacc] at h
      cases h
      refine ⟨⟨rfl, rfl, rfl, rfl, rfl, rfl, rfl, rfl, rfl, rfl⟩, ?_, ?_, ?_, ?_⟩
      · intro m _
        exact ⟨fun _ => rfl, rfl, rfl⟩
      · intro hc; cases hc
      · intro _
        exact ⟨⟨_, rfl, rfl⟩, rfl, rfl, rfl⟩
      · intro hk
        simp [mapped, hreact, hacc] at hk
    | true =>
      cases hfound : pass.refCellFound with
      | true =>
        rw [visitCell_later env fuel deltaT pass celli hreact hacc hfound] at h
        cases h
        refine ⟨⟨rfl, rfl, rfl, rfl, rfl, rfl, rfl, rfl, rfl, rfl⟩, ?_, ?_, ?_, ?_⟩
        · intro m hm
          exact ⟨fun j => entry_writeColumn_ne _ _ _ _ j m (hne m hm),
            writeAt_getElem?_ne _ _ _ m (hne m hm), writeAt_getElem?_ne _ _ _ m (hne m hm)⟩
        · intro hc; cases hc
        · intro hk
          simp [kept, hreact, hacc] at hk
        · intro _
          refine ⟨rfl, hfound, ⟨?_, ?_, ?_⟩, fun _ => ⟨rfl, rfl⟩, ?_⟩
          · intro j v hj hv
            exact entry_writeColumn_self _ _ _ j celli v hj hv
          · intro v hv
            exact writeAt_getElem?_self _ celli _ v hv
          · intro v hv
            exact writeAt_getElem?_self _ celli _ v hv
          · intro hc
            cases hc
      | false =>
        rw [visitCell_first env fuel deltaT pass celli hreact hacc hfound] at h
        cases hs : solveSingle env pass.self fuel
            (createProblem (concentrationLoop pass.self celli) (deltaT celli) celli)
            pass.ref_solution with
        | none => rw [hs] at h; cases h
        | some r =>
          obtain ⟨after, ref⟩ := r
          rw [hs] at h
          cases h
          obtain ⟨hcell, -, -, -⟩ := solveSingle_spec env pass.self fuel _ after _ ref hs
          have hcell2 : ref.cellid = (celli : label) := hcell
          refine ⟨⟨rfl, rfl, rfl, rfl, rfl, rfl, rfl, rfl, rfl, rfl⟩, ?_, ?_, ?_, ?_⟩
          · intro m hm
            have hm2 : (m : label) ≠ ref.cellid := by rw [hcell2]; exact hne m hm
            exact ⟨fun j => entry_writeColumn_ne _ _ _ _ j m hm2,
              writeAt_getElem?_ne _ _ _ m hm2, writeAt_getElem?_ne _ _ _ m hm2⟩
          · intro hc; cases hc
          · intro hk
            simp [kept, hreact, hacc] at hk
          · intro _
            refine ⟨rfl, rfl, ⟨?_, ?_, ?_⟩, ?_, ?_⟩
            · intro j v hj hv
              simp only [updateReactionRate, hcell2] at hv
              exact entry_writeColumn_self _ _ _ j celli v hj hv
            · intro v hv
              simp only [updateReactionRate, hcell2] at hv
              exact writeAt_getElem?_self _ celli _ v hv
            · intro v hv
              simp only [hcell2] at hv
              exact writeAt_getElem?_self _ celli _ v hv
            · intro hc; cases hc
            · intro _
              exact ⟨_, after, rfl, rfl, hs⟩

theorem kept_congr (env : Collaborators) {a b : LoadBalancedChemistryModel}
    (h : sameSetup a b) (celli : Nat) : kept env a celli = kept env b celli := by
  simp only [kept, reacts_congr h, mapperAccepts_congr env h]

theorem mapped_congr (env : Collaborators) {a b : LoadBalancedChemistryModel}
    (h : sameSetup a b) (celli : Nat) : mapped env a celli = mapped env b celli := by
  simp only [mapped, reacts_congr h, mapperAccepts_congr env h]

/-- A cell is cold, kept or mapped. -/
theorem cell_cases (env : Collaborators) (self : LoadBalancedChemistryModel) (celli : Nat) :
    (reacts self celli = false ∧ kept env self celli = false ∧ mapped env self celli = false) ∨
    (reacts self celli = true ∧ kept env self celli = true ∧ mapped env self celli = false) ∨
    (reacts self celli = true ∧ kept env self celli = false ∧ mapped env self celli = true) := by
  unfold kept mapped
  cases reacts self celli <;> cases mapperAccepts env self celli <;> simp

theorem visitCell_returns (env : Collaborators) (delta : scalar) (hprog : odeProgress env delta)
    (fuel : Nat) (deltaT : Nat → scalar) (pass : ProblemPass) (celli : Nat)
    (hfuel : deltaT celli ≤ env.small + (fuel : scalar) * delta) :
    ∃ next, visitCell env fuel deltaT pass celli = some next := by
  cases hreact : reacts pass.self celli with
  | false => exact ⟨_, visitCell_cold env fuel deltaT pass celli hreact⟩
  | true =>
    cases hacc : mapperAccepts env pass.self celli with
    | false => exact ⟨_, visitCell_kept env fuel deltaT pass celli hreact hacc⟩
    | true =>
      cases hfound : pass.refCellFound with
      | true => exact ⟨_, visitCell_later env fuel deltaT pass celli hreact hacc hfound⟩
      | false =>
        obtain ⟨after, ref, hs⟩ := solveSingle_returns env pass.self delta hprog fuel
          (createProblem (concentrationLoop pass.self celli) (deltaT celli) celli)
          pass.ref_solution hfuel
        rw [visitCell_first env fuel deltaT pass celli hreact hacc hfound, hs]
        exact ⟨_, rfl⟩

theorem visitCells_returns (env : Collaborators) (delta : scalar) (hprog : odeProgress env delta)
    (fuel : Nat) (deltaT : Nat → scalar) :
    ∀ (cells : List Nat) (pass : ProblemPass),
      (∀ c ∈ cells, deltaT c ≤ env.small + (fuel : scalar) * delta) →
      ∃ final, visitCells env fuel deltaT cells pass = some final := by
  intro cells
  induction cells with
  | nil => intro pass _; exact ⟨pass, rfl⟩
  | cons c cs ih =>
    intro pass hfuel
    obtain ⟨next, hn⟩ := visitCell_returns env delta hprog fuel deltaT pass c
      (hfuel c (List.mem_cons_self c cs))
    obtain ⟨final, hf⟩ := ih next (fun x hx => hfuel x (List.mem_cons_of_mem c hx))
    exact ⟨final, by simp only [visitCells, hn, hf]⟩

theorem visitCells_cons (env : Collaborators) (fuel : Nat) (deltaT : Nat → scalar)
    (c : Nat) (cs : List Nat) (pass final : ProblemPass)
    (h : visitCells env fuel deltaT (c :: cs) pass = some final) :
    ∃ next, visitCell env fuel deltaT pass c = some next ∧
      visitCells env fuel deltaT cs next = some final := by
  simp only [visitCells] at h
  cases hn : visitCell env fuel deltaT pass c with
  | none => rw [hn] at h; cases h
  | some next =>
    rw [hn] at h
    exact ⟨next, rfl, h⟩

theorem visitCells_append (env : Collaborators) (fuel : Nat) (deltaT : Nat → scalar) :
    ∀ (pre post : List Nat) (pass final : ProblemPass),
      visitCells env fuel deltaT (pre ++ post) pass = some final →
      ∃ mid, visitCells env fuel deltaT pre pass = some mid ∧
        visitCells env fuel deltaT post mid = some final := by
  intro pre
  induction pre with
  | nil => intro post pass final h; exact ⟨pass, rfl, h⟩
  | cons c cs ih =>
    intro post pass final h
    obtain ⟨next, hn, hrest⟩ := visitCells_cons env fuel deltaT c (cs ++ post) pass final h
    obtain ⟨mid, hm, hpost⟩ := ih post next final hrest
    exact ⟨mid, by simp only [visitCells, hn, hm], hpost⟩

theorem visitCells_setup (env : Collaborators) (fuel : Nat) (deltaT : Nat → scalar) :
    ∀ (cells : List Nat) (pass final : ProblemPass),
      visitCells env fuel deltaT cells pass = some final → sameSetup final.self pass.self := by
  intro cells
  induction cells with
  | nil =>
    intro pass final h
    simp only [visitCells, Option.some.injEq] at h
    rw [← h]
    exact sameSetup_refl _
  | cons c cs ih =>
    intro pass final h
    obtain ⟨next, hn, hrest⟩ := visitCells_cons env fuel deltaT c cs pass final h
    exact sameSetup_trans (ih next final hrest)
      (visitCell_effect env fuel deltaT pass c next hn).1

/-- The cells that are kept enter the list, in the order of the cells, each
with its own index as `cellid`. -/
theorem visitCells_problems (env : Collaborators) (fuel : Nat) (deltaT : Nat → scalar) :
    ∀ (cells : List Nat) (pass final : ProblemPass),
      visitCells env fuel deltaT cells pass = some final →
      final.chem_problems.map (fun P => P.cellid)
        = pass.chem_problems.map (fun P => P.cellid)
          ++ (cells.filter (fun c => kept env pass.self c)).map (fun (c : Nat) => (c : label)) := by
  intro cells
  induction cells with
  | nil =>
    intro pass final h
    simp only [visitCells, Option.some.injEq] at h
    rw [← h]
    simp
  | cons c cs ih =>
    intro pass final h
    obtain ⟨next, hn, hrest⟩ := visitCells_cons env fuel deltaT c cs pass final h
    obtain ⟨hsetup, -, hcold, hkept, hmapped⟩ := visitCell_effect env fuel deltaT pass c next hn
    have hfilter : cs.filter (fun x => kept env next.self x)
        = cs.filter (fun x => kept env pass.self x) := by
      apply List.filter_congr
      intro x _
      exact kept_congr env hsetup x
    rw [ih next final hrest, hfilter]
    rcases cell_cases env pass.self c with ⟨h1, h2, -⟩ | ⟨-, h2, -⟩ | ⟨-, h2, h3⟩
    · rw [(hcold h1).1, List.filter_cons_of_neg (by simp [h2])]
    · obtain ⟨⟨P, hP, hlist⟩, -⟩ := hkept h2
      rw [hlist, List.filter_cons_of_pos (by simp [h2])]
      simp [hP]
    · rw [(hmapped h3).1, List.filter_cons_of_neg (by simp [h2])]

theorem visitCells_frame (env : Collaborators) (fuel : Nat) (deltaT : Nat → scalar) :
    ∀ (cells : List Nat) (pass final : ProblemPass),
      visitCells env fuel deltaT cells pass = some final →
      ∀ m : Nat, m ∉ cells →
        (∀ j, entry final.self.RR_ j m = entry pass.self.RR_ j m) ∧
        final.self.deltaTChem_[m]? = pass.self.deltaTChem_[m]? ∧
        final.self.cpuTimes_[m]? = pass.self.cpuTimes_[m]? := by
  intro cells
  induction cells with
  | nil =>
    intro pass final h m _
    simp only [visitCells, Option.some.injEq] at h
    rw [← h]
    exact ⟨fun _ => rfl, rfl, rfl⟩
  | cons c cs ih =>
    intro pass final h m hm
    obtain ⟨next, hn, hrest⟩ := visitCells_cons env fuel deltaT c cs pass final h
    have hmc : m ≠ c := fun heq => hm (by rw [heq]; exact List.mem_cons_self c cs)
    have hmcs : m ∉ cs := fun hin => hm (List.mem_cons_of_mem c hin)
    obtain ⟨f1, f2, f3⟩ := (visitCell_effect env fuel deltaT pass c next hn).2.1 m hmc
    obtain ⟨g1, g2, g3⟩ := ih next final hrest m hmcs
    exact ⟨fun j => (g1 j).trans (f1 j), g2.trans f2, g3.trans f3⟩

/-- A cell below the threshold ends the pass with all its reaction rates 0. -/
theorem visitCells_cold (env : Collaborators) (fuel : Nat) (deltaT : Nat → scalar) :
    ∀ (cells : List Nat) (pass final : ProblemPass),
      visitCells env fuel deltaT cells pass = some final → cells.Nodup →
      ∀ k ∈ cells, reacts pass.self k = false →
        ∀ j v, j < pass.self.nSpecie_ → entry final.self.RR_ j k = some v → v = 0 := by
  intro cells
  induction cells with
  | nil => intro pass final _ _ k hk; simp at hk
  | cons c cs ih =>
    intro pass final h hnodup k hk hcold j v hj hv
    obtain ⟨next, hn, hrest⟩ := visitCells_cons env fuel deltaT c cs pass final h
    obtain ⟨hsetup, -, hcoldstep, -, -⟩ := visitCell_effect env fuel deltaT pass c next hn
    obtain ⟨hc, hcs⟩ := List.nodup_cons.mp hnodup
    rcases List.mem_cons.mp hk with hkc | hkcs
    · subst hkc
      rw [(visitCells_frame env fuel deltaT cs next final hrest k hc).1 j] at hv
      exact (hcoldstep hcold).2.2.2.2 j v hj hv
    · exact ih next final hrest hcs k hkcs (by rw [reacts_congr hsetup]; exact hcold) j v
        (by rw [hsetup.1]; exact hj) hv

/-- Once the flag is set, the rest of the pass keeps the reference solution
and makes no call of `solveSingle`. -/
theorem visitCells_found (env : Collaborators) (fuel : Nat) (deltaT : Nat → scalar) :
    ∀ (cells : List Nat) (pass final : ProblemPass),
      visitCells env fuel deltaT cells pass = some final → pass.refCellFound = true →
      final.refCellFound = true ∧ final.ref_solution = pass.ref_solution ∧
        final.solveCalls = pass.solveCalls := by
  intro cells
  induction cells with
  | nil =>
    intro pass final h hfound
    simp only [visitCells, Option.some.injEq] at h
    rw [← h]
    exact ⟨hfound, rfl, rfl⟩
  | cons c cs ih =>
    intro pass final h hfound
    obtain ⟨next, hn, hrest⟩ := visitCells_cons env fuel deltaT c cs pass final h
    obtain ⟨-, -, hcold, hkept, hmapped⟩ := visitCell_effect env fuel deltaT pass c next hn
    have hnext : next.refCellFound = true ∧ next.ref_solution = pass.ref_solution ∧
        next.solveCalls = pass.solveCalls := by
      rcases cell_cases env pass.self c with ⟨h1, -, -⟩ | ⟨-, h2, -⟩ | ⟨-, -, h3⟩
      · obtain ⟨-, a, b, d, -⟩ := hcold h1
        exact ⟨a.trans hfound, b, d⟩
      · obtain ⟨-, a, b, d⟩ := hkept h2
        exact ⟨a.trans hfound, b, d⟩
      · obtain ⟨-, a, -, b, -⟩ := hmapped h3
        exact ⟨a, (b hfound).1, (b hfound).2⟩
    obtain ⟨a, b, d⟩ := ih next final hrest hnext.1
    exact ⟨a, b.trans hnext.2.1, d.trans hnext.2.2⟩

theorem agreesWith_transfer (a b : LoadBalancedChemistryModel) (ref : ChemistrySolution)
    (k : Nat) (hsetup : sameSetup a b)
    (hframe : (∀ j, entry a.RR_ j k = entry b.RR_ j k) ∧
      a.deltaTChem_[k]? = b.deltaTChem_[k]? ∧ a.cpuTimes_[k]? = b.cpuTimes_[k]?)
    (h : agreesWith b ref k) : agreesWith a ref k := by
  obtain ⟨s1, -, s3, s4, -⟩ := hsetup
  obtain ⟨f1, f2, f3⟩ := hframe
  obtain ⟨h1, h2, h3⟩ := h
  refine ⟨?_, ?_, ?_⟩
  · intro j v hj hv
    rw [s3]
    exact h1 j v (by rw [← s1]; exact hj) (by rw [← f1 j]; exact hv)
  · intro v hv
    rw [s4]
    exact h2 v (by rw [← f2]; exact hv)
  · intro v hv
    exact h3 v (by rw [← f3]; exact hv)

/-- A mapped cell ends the pass with the values of the reference solution. -/
theorem visitCells_mapped (env : Collaborators) (fuel : Nat) (deltaT : Nat → scalar) :
    ∀ (cells : List Nat) (pass final : ProblemPass),
      visitCells env fuel deltaT cells pass = some final → cells.Nodup →
      ∀ k ∈ cells, mapped env pass.self k = true →
        agreesWith final.self final.ref_solution k := by
  intro cells
  induction cells with
  | nil => intro pass final _ _ k hk; simp at hk
  | cons c cs ih =>
    intro pass final h hnodup k hk hmap
    obtain ⟨next, hn, hrest⟩ := visitCells_cons env fuel deltaT c cs pass final h
    obtain ⟨hsetup, -, -, -, hmapped⟩ := visitCell_effect env fuel deltaT pass c next hn
    obtain ⟨hc, hcs⟩ := List.nodup_cons.mp hnodup
    rcases List.mem_cons.mp hk with hkc | hkcs
    · subst hkc
      obtain ⟨-, hfound, hstored, -, -⟩ := hmapped hmap
      obtain ⟨-, href, -⟩ := visitCells_found env fuel deltaT cs next final hrest hfound
      rw [href]
      exact agreesWith_transfer final.self next.self next.ref_solution k
        (visitCells_setup env fuel deltaT cs next final hrest)
        (visitCells_frame env fuel deltaT cs next final hrest k hc) hstored
    · exact ih next final hrest hcs k hkcs (by rw [mapped_congr env hsetup]; exact hmap)

/-- While no cell is mapped the flag, the reference solution and the trace
stay as they are. -/
theorem visitCells_none_mapped (env : Collaborators) (fuel : Nat) (deltaT : Nat → scalar) :
    ∀ (cells : List Nat) (pass final : ProblemPass),
      visitCells env fuel deltaT cells pass = some final →
      (∀ k ∈ cells, mapped env pass.self k = false) →
      final.refCellFound = pass.refCellFound ∧ final.ref_solution = pass.ref_solution ∧
        final.solveCalls = pass.solveCalls := by
  intro cells
  induction cells with
  | nil =>
    intro pass final h _
    simp only [visitCells, Option.some.injEq] at h
    rw [← h]
    exact ⟨rfl, rfl, rfl⟩
  | cons c cs ih =>
    intro pass final h hnone
    obtain ⟨next, hn, hrest⟩ := visitCells_cons env fuel deltaT c cs pass final h
    obtain ⟨hsetup, -, hcold, hkept, -⟩ := visitCell_effect env fuel deltaT pass c next hn
    have hnext : next.refCellFound = pass.refCellFound ∧
        next.ref_solution = pass.ref_solution ∧ next.solveCalls = pass.solveCalls := by
      rcases cell_cases env pass.self c with ⟨h1, -, -⟩ | ⟨-, h2, -⟩ | ⟨-, -, h3⟩
      · obtain ⟨-, a, b, d, -⟩ := hcold h1
        exact ⟨a, b, d⟩
      · obtain ⟨-, a, b, d⟩ := hkept h2
        exact ⟨a, b, d⟩
      · rw [hnone c (List.mem_cons_self c cs)] at h3
        cases h3
    obtain ⟨a, b, d⟩ := ih next final hrest
      (fun k hk => by
        rw [mapped_congr env hsetup]
        exact hnone k (List.mem_cons_of_mem c hk))
    exact ⟨a.trans hnext.1, b.trans hnext.2.1, d.trans hnext.2.2⟩

/-- The first mapped cell is the one that is solved, and its solution is the
reference solution of the whole pass. -/
theorem visitCells_first_mapped (env : Collaborators) (fuel : Nat) (deltaT : Nat → scalar)
    (pre : List Nat) (k : Nat) (post : List Nat) (pass final : ProblemPass)
    (h : visitCells env fuel deltaT (pre ++ k :: post) pass = some final)
    (hfound : pass.refCellFound = false)
    (hpre : ∀ c ∈ pre, mapped env pass.self c = false)
    (hk : mapped env pass.self k = true) :
    ∃ (P after : ChemistryProblem), P.cellid = (k : label) ∧
      final.solveCalls = pass.solveCalls ++ [P] ∧
      solveSingle env pass.self fuel P pass.ref_solution = some (after, final.ref_solution) := by
  obtain ⟨mid, hmid, hrest⟩ := visitCells_append env fuel deltaT pre (k :: post) pass final h
  obtain ⟨m1, m2, m3⟩ := visitCells_none_mapped env fuel deltaT pre pass mid hmid hpre
  have hsetup := visitCells_setup env fuel deltaT pre pass mid hmid
  obtain ⟨next, hn, hpost⟩ := visitCells_cons env fuel deltaT k post mid final hrest
  obtain ⟨-, -, -, -, hmapped⟩ := visitCell_effect env fuel deltaT mid k next hn
  obtain ⟨-, hnf, -, -, hfirst⟩ := hmapped (by rw [mapped_congr env hsetup]; exact hk)
  obtain ⟨P, after, hP, hcalls, hsolve⟩ := hfirst (by rw [m1]; exact hfound)
  obtain ⟨-, href, hsc⟩ := visitCells_found env fuel deltaT post next final hpost hnf
  refine ⟨P, after, hP, ?_, ?_⟩
  · rw [hsc, hcalls, m3]
  · rw [href, ← m2, ← solveSingle_congr env mid.self pass.self fuel P mid.ref_solution hsetup.2.2.2.1]
    exact hsolve

theorem range_split (n k : Nat) (h : k < n) :
    List.range n = List.range k ++ k :: List.range' (k + 1) (n - k - 1) := by
  rw [List.range_eq_range', List.range_eq_range']
  have h1 : n = (n - k) + k := by omega
  conv_lhs => rw [h1]
  rw [← List.range'_append_1]
  congr 1
  have h2 : n - k = (n - k - 1) + 1 := by omega
  rw [h2, List.range'_succ]
  simp

/-- With a solver that makes progress `getProblems` returns for enough fuel. -/
theorem getProblems_returns (env : Collaborators) (self : LoadBalancedChemistryModel)
    (deltaT : Nat → scalar) (delta : scalar) (hprog : odeProgress env delta) :
    ∃ fuel pass, getProblems env self fuel deltaT = some pass := by
  obtain ⟨fuel, hfuel⟩ := exists_fuel env.small delta hprog.1
    ((List.range self.p.length).map deltaT)
  obtain ⟨final, hf⟩ := visitCells_returns env delta hprog fuel deltaT
    (List.range self.p.length)
    { self := self
      refCellFound := false
      chem_problems := []
      ref_solution := ChemistrySolution.ofSpecies self.nSpecie_
      solveCalls := [] }
    (fun c hc => hfuel (deltaT c) (List.mem_map_of_mem _ hc))
  exact ⟨fuel, final, hf⟩

/-- The list returned by `getProblems` holds the kept cells in cell order. -/
theorem getProblems_cellids (env : Collaborators) (self : LoadBalancedChemistryModel)
    (fuel : Nat) (deltaT : Nat → scalar) (pass : ProblemPass)
    (h : getProblems env self fuel deltaT = some pass) :
    pass.chem_problems.map (fun P => P.cellid)
      = ((List.range self.p.length).filter (fun c => kept env self c)).map
          (fun (c : Nat) => (c : label)) := by
  have := visitCells_problems env fuel deltaT (List.range self.p.length) _ pass h
  simpa using this

theorem getProblems_member (env : Collaborators) (self : LoadBalancedChemistryModel)
    (fuel : Nat) (deltaT : Nat → scalar) (pass : ProblemPass)
    (h : getProblems env self fuel deltaT = some pass) (P : ChemistryProblem)
    (hP : P ∈ pass.chem_problems) :
    ∃ celli : Nat, celli < self.p.length ∧ P.cellid = (celli : label) ∧
      kept env self celli = true := by
  have hmem : P.cellid ∈ pass.chem_problems.map (fun P => P.cellid) :=
    List.mem_map_of_mem _ hP
  rw [getProblems_cellids env self fuel deltaT pass h] at hmem
  obtain ⟨c, hc, hcell⟩ := List.mem_map.mp hmem
  obtain ⟨hrange, hkept⟩ := List.mem_filter.mp hc
  exact ⟨c, List.mem_range.mp hrange, hcell.symm, hkept⟩

/-! ## Lemmas on the sizes of the written fields -/

theorem writeColumn_row_length (RR : List (List scalar)) (n : Nat) (i : label)
    (value : Nat → scalar) (j : Nat) :
    ((writeColumn RR n i value).getD j []).length = (RR.getD j []).length := by
  rw [List.getD_eq_getElem?_getD, List.getD_eq_getElem?_getD, writeColumn_getElem?]
  cases RR[j]? with
  | none => rfl
  | some row =>
    simp only [Option.map_some', Option.getD_some]
    split_ifs
    · exact writeAt_length row i _
    · rfl

theorem entry_of_lt (RR : List (List scalar)) (j m : Nat) (h : m < (RR.getD j []).length) :
    entry RR j m = some ((RR.getD j [])[m]) := by
  unfold entry
  exact List.getElem?_eq_getElem h

theorem sameShape_refl (a : LoadBalancedChemistryModel) : sameShape a a :=
  ⟨fun _ => rfl, rfl, rfl⟩

theorem sameShape_trans {a b c : LoadBalancedChemistryModel} (h1 : sameShape a b)
    (h2 : sameShape b c) : sameShape a c :=
  ⟨fun j => (h1.1 j).trans (h2.1 j), h1.2.1.trans h2.2.1, h1.2.2.trans h2.2.2⟩

theorem hasCell_of_shape {a b : LoadBalancedChemistryModel} (hshape : sameShape a b)
    (hn : a.nSpecie_ = b.nSpecie_) (celli : Nat) (h : hasCell b celli) : hasCell a celli := by
  obtain ⟨h1, h2, h3⟩ := h
  refine ⟨?_, ?_, ?_⟩
  · intro j hj
    rw [hshape.1 j]
    exact h1 j (by rw [← hn]; exact hj)
  · rw [hshape.2.1]; exact h2
  · rw [hshape.2.2]; exact h3

/-- On a cell that the fields have, the entries that agree with a solution
are the stored ones. -/
theorem storedFrom_of_agreesWith (self : LoadBalancedChemistryModel) (ref : ChemistrySolution)
    (celli : Nat) (h : agreesWith self ref celli) (hcell : hasCell self celli) :
    storedFrom self ref celli := by
  obtain ⟨a1, a2, a3⟩ := h
  obtain ⟨c1, c2, c3⟩ := hcell
  refine ⟨?_, ?_, ?_⟩
  · intro j hj
    have he := entry_of_lt self.RR_ j celli (c1 j hj)
    rw [he, a1 j _ hj he]
  · have he : self.deltaTChem_[celli]? = some (self.deltaTChem_[celli]) :=
      List.getElem?_eq_getElem c2
    rw [he, a2 _ he]
  · have he : self.cpuTimes_[celli]? = some (self.cpuTimes_[celli]) :=
      List.getElem?_eq_getElem c3
    rw [he, a3 _ he]

theorem updateReactionRate_shape (self : LoadBalancedChemistryModel)
    (solution : ChemistrySolution) (i : label) :
    sameShape (updateReactionRate self solution i) self :=
  ⟨fun j => writeColumn_row_length _ _ _ _ j, writeAt_length _ _ _, rfl⟩

theorem storeSolution_shape (acc : LoadBalancedChemistryModel × scalar)
    (solution : ChemistrySolution) : sameShape (storeSolution acc solution).1 acc.1 :=
  ⟨fun j => writeColumn_row_length _ _ _ _ j, writeAt_length _ _ _, writeAt_length _ _ _⟩

theorem foldl_storeSolution_shape :
    ∀ (solutions : List ChemistrySolution) (acc : LoadBalancedChemistryModel × scalar),
      sameShape (solutions.foldl storeSolution acc).1 acc.1 := by
  intro solutions
  induction solutions with
  | nil => intro acc; exact sameShape_refl _
  | cons s ss ih =>
    intro acc
    rw [List.foldl_cons]
    exact sameShape_trans (ih _) (storeSolution_shape acc s)

/-- A round of the loop of `getProblems` leaves the sizes of the written
fields as they are. -/
theorem visitCell_shape (env : Collaborators) (fuel : Nat) (deltaT : Nat → scalar)
    (pass : ProblemPass) (celli : Nat) (next : ProblemPass)
    (h : visitCell env fuel deltaT pass celli = some next) :
    sameShape next.self pass.self := by
  cases hreact : reacts pass.self celli with
  | false =>
    rw [visitCell_cold env fuel deltaT pass celli hreact] at h
    cases h
    exact ⟨fun j => writeColumn_row_length _ _ _ _ j, rfl, rfl⟩
  | true =>
    cases hacc : mapperAccepts env pass.self celli with
    | false =>
      rw [visitCell_kept env fuel deltaT pass celli hreact hacc] at h
      cases h
      exact ⟨fun _ => rfl, rfl, rfl⟩
    | true =>
      cases hfound : pass.refCellFound with
      | true =>
        rw [visitCell_later env fuel deltaT pass celli hreact hacc hfound] at h
        cases h
        refine ⟨fun j => ?_, ?_, ?_⟩
        · exact writeColumn_row_length _ _ _ _ j
        · simp only [updateReactionRate, concentrationLoop, writeAt_length]
        · simp only [writeAt_length]
      | false =>
        rw [visitCell_first env fuel deltaT pass celli hreact hacc hfound] at h
        cases hs : solveSingle env pass.self fuel
            (createProblem (concentrationLoop pass.self celli) (deltaT celli) celli)
            pass.ref_solution with
        | none => rw [hs] at h; cases h
        | some r =>
          obtain ⟨after, ref⟩ := r
          rw [hs] at h
          cases h
          refine ⟨fun j => ?_, ?_, ?_⟩
          · exact writeColumn_row_length _ _ _ _ j
          · simp only [updateReactionRate, concentrationLoop, writeAt_length]
          · simp only [writeAt_length]

theorem visitCells_shape (env : Collaborators) (fuel : Nat) (deltaT : Nat → scalar) :
    ∀ (cells : List Nat) (pass final : ProblemPass),
      visitCells env fuel deltaT cells pass = some final → sameShape final.self pass.self := by
  intro cells
  induction cells with
  | nil =>
    intro pass final h
    simp only [visitCells, Option.some.injEq] at h
    rw [← h]
    exact sameShape_refl _
  | cons c cs ih =>
    intro pass final h
    obtain ⟨next, hn, hrest⟩ := visitCells_cons env fuel deltaT c cs pass final h
    exact sameShape_trans (ih next final hrest) (visitCell_shape env fuel deltaT pass c next hn)

/-- A round of the loops of `updateReactionRates` stores the solution at its
cell, when the fields have the cell. -/
theorem storeSolution_stores (acc : LoadBalancedChemistryModel × scalar)
    (s : ChemistrySolution) (m : Nat) (h : s.cellid = (m : label)) (hcell : hasCell acc.1 m) :
    storedFrom (storeSolution acc s).1 s m := by
  apply storedFrom_of_agreesWith
  · exact storeSolution_own acc s m h
  · exact hasCell_of_shape (storeSolution_shape acc s) rfl m hcell

/-- The later rounds leave what was stored at a cell, as long as none of them
is for the same cell. -/
theorem foldl_storeSolution_keeps (m : Nat) (s : ChemistrySolution)
    (post : List ChemistrySolution) (acc : LoadBalancedChemistryModel × scalar)
    (hne : ∀ t ∈ post, t.cellid ≠ (m : label)) (h : storedFrom acc.1 s m) :
    storedFrom (post.foldl storeSolution acc).1 s m := by
  obtain ⟨f1, f2, f3⟩ := foldl_storeSolution_frame m post acc hne
  obtain ⟨s1, s2, s3⟩ := foldl_storeSolution_setup post acc
  obtain ⟨h1, h2, h3⟩ := h
  refine ⟨?_, ?_, ?_⟩
  · intro j hj
    rw [f1 j, s2]
    exact h1 j (by rw [← s1]; exact hj)
  · rw [f2, s3]; exact h2
  · rw [f3]; exact h3

/-- What holds row by row and entry by entry holds of every entry of the
flattened buffer. -/
theorem flatten_of_rows {α β : Type} (R : α → β → Prop) :
    ∀ (rows : List (List α)) (out : List (List β)),
      List.Forall₂ (fun r o => List.Forall₂ R r o) rows out →
      ∀ b ∈ out.flatten, ∃ a, R a b := by
  intro rows out h
  induction h with
  | nil => intro b hb; simp at hb
  | cons hrow _ ih =>
    intro b hb
    rw [List.flatten_cons, List.mem_append] at hb
    rcases hb with hb | hb
    · clear ih
      induction hrow with
      | nil => simp at hb
      | cons hab _ ih2 =>
        rcases List.mem_cons.mp hb with hb | hb
        · rw [hb]; exact ⟨_, hab⟩
        · exact ih2 hb
    · exact ih b hb

/-- Every solution that `solveBuffer` returns has a sub-step size of at most
`deltaTChemMax_`. -/
theorem solveBuffer_capped (env : Collaborators) (self : LoadBalancedChemistryModel)
    (fuel : Nat) (problems : List (List ChemistryProblem))
    (out : List (List ChemistrySolution)) (h : solveBuffer env self fuel problems = some out) :
    ∀ s ∈ out.flatten, s.deltaTChem ≤ self.deltaTChemMax_ := by
  intro s hs
  obtain ⟨p, -, -, hp⟩ := flatten_of_rows _ problems out
    (solveRows_spec env self fuel problems out h) s hs
  exact hp

/-! ## Lemmas on the size check with the sum of an `int` -/

theorem wrapInt32_of_fits (x : Int) (h1 : -2147483648 ≤ x) (h2 : x ≤ 2147483647) :
    wrapInt32 x = x := by
  unfold wrapInt32
  omega

/-- While the running sums fit an `int`, the machine sum is the exact sum. -/
theorem accumulateInt32_eq :
    ∀ (xs : List label) (init : label), runningSumsFit xs init = true →
      accumulateInt32 xs init = accumulate xs init := by
  intro xs
  induction xs with
  | nil => intro init _; rfl
  | cons x xs ih =>
    intro init h
    simp only [runningSumsFit, Bool.and_eq_true, decide_eq_true_eq] at h
    obtain ⟨⟨h1, h2⟩, h3⟩ := h
    have hw : wrapInt32 (init + x) = init + x := wrapInt32_of_fits _ h1 h2
    have := ih (init + x) h3
    simp only [accumulateInt32, accumulate, List.foldl_cons, hw] at this ⊢
    exact this

theorem checkSizesInt32_eq {T : Type} (bigArray : List T) (subsizes : List label)
    (h : runningSumsFit subsizes 0 = true) :
    checkSizesInt32 bigArray subsizes = checkSizes bigArray subsizes := by
  unfold checkSizesInt32 checkSizes
  rw [accumulateInt32_eq subsizes 0 h]

theorem partitionInt32_eq {T : Type} [Inhabited T] (bigArray : List T) (subsizes : List label)
    (h : runningSumsFit subsizes 0 = true) :
    partitionInt32 bigArray subsizes = partition bigArray subsizes := by
  unfold partitionInt32 partition
  rw [checkSizesInt32_eq bigArray subsizes h]

theorem checkSizesInt32_iff {T : Type} (bigArray : List T) (subsizes : List label) :
    checkSizesInt32 bigArray subsizes = true
      ↔ accumulateInt32 subsizes 0 = (bigArray.length : label) := by
  unfold checkSizesInt32
  by_cases h : accumulateInt32 subsizes 0 = (bigArray.length : label)
  · simp [h]
  · simp [h]

/-- The only error of the allocation loop is "bad size". -/
theorem allocate_error {T : Type} (e : T) :
    ∀ (ss : List label) (m : String), allocate e ss = Except.error m → m = "bad size" := by
  intro ss
  induction ss with
  | nil => intro m h; cases h
  | cons s ss ih =>
    intro m h
    by_cases hs : s < 0
    · simp only [allocate, filledList, hs, if_true] at h
      exact (Except.error.inj h).symm
    · simp only [allocate, filledList, hs, if_false] at h
      cases ha : allocate e ss with
      | error m2 =>
        rw [ha] at h
        rw [← Except.error.inj h]
        exact ih m2 ha
      | ok rest => rw [ha] at h; cases h

/-- What `partitionInt32` does after a size check that passes. -/
theorem partitionInt32_of_check {T : Type} [Inhabited T] (bigArray : List T)
    (subsizes : List label) (h : checkSizesInt32 bigArray subsizes = true) :
    partitionInt32 bigArray subsizes
      = match allocate (if bigArray.length > 0 then bigArray.headD default else default)
          subsizes with
        | Except.error e => Except.error e
        | Except.ok ret => Except.ok (copyLoop bigArray subsizes ret 0) := by
  simp [partitionInt32, runtime_assert, h]

theorem partitionInt32_of_check_false {T : Type} [Inhabited T] (bigArray : List T)
    (subsizes : List label) (h : checkSizesInt32 bigArray subsizes = false) :
    partitionInt32 bigArray subsizes
      = Except.error "Total send count not matching the problem count!" := by
  simp [partitionInt32, runtime_assert, h]

/-- The size-check error is raised exactly when the check fails. -/
theorem partitionInt32_error_iff {T : Type} [Inhabited T] (bigArray : List T)
    (subsizes : List label) :
    partitionInt32 bigArray subsizes
        = Except.error "Total send count not matching the problem count!"
      ↔ checkSizesInt32 bigArray subsizes = false := by
  constructor
  · intro hp
    by_contra hc
    have hc2 : checkSizesInt32 bigArray subsizes = true := by simpa using hc
    rw [partitionInt32_of_check bigArray subsizes hc2] at hp
    cases ha : allocate (if bigArray.length > 0 then bigArray.headD default else default)
        subsizes with
    | error m =>
      rw [ha] at hp
      have hm := allocate_error _ subsizes m ha
      rw [hm] at hp
      exact absurd (Except.error.inj hp) (by decide)
    | ok ret => rw [ha] at hp; cases hp
  · exact partitionInt32_of_check_false bigArray subsizes

theorem roundHalfEven_of_floor (x : ℚ) (f : ℤ) (h1 : (f : ℚ) ≤ x) (h2 : x < f + 1) :
    roundHalfEven x
      = if x - (f : ℚ) < 1 / 2 then f
        else if 1 / 2 < x - (f : ℚ) then f + 1
        else if f % 2 = 0 then f else f + 1 := by
  have hf : ⌊x⌋ = f := Int.floor_eq_iff.mpr ⟨h1, h2⟩
  unfold roundHalfEven
  rw [hf]

theorem log_two_eq (q : ℚ) (k : ℤ) (hlo : (2 : ℚ) ^ k ≤ q) (hhi : q < (2 : ℚ) ^ (k + 1)) :
    Int.log 2 |q| = k := by
  have hpos : 0 < q := lt_of_lt_of_le (by positivity) hlo
  rw [abs_of_pos hpos]
  have h1 : k ≤ Int.log 2 q := by
    rw [← Int.zpow_le_iff_le_log (by norm_num) hpos]
    exact_mod_cast hlo
  have h2 : Int.log 2 q < k + 1 := by
    rw [← Int.lt_zpow_iff_log_lt (by norm_num) hpos]
    exact_mod_cast hhi
  omega

/-- For a result between `2^k` and `2^(k+1)` in the normal range, the
`double` is the nearest multiple of `2^(k-52)`. -/
theorem roundDouble_eq (q : ℚ) (k : ℤ) (hlo : (2 : ℚ) ^ k ≤ q) (hhi : q < (2 : ℚ) ^ (k + 1))
    (hk : -1022 ≤ k) :
    roundDouble q = (roundHalfEven (q / (2 : ℚ) ^ (k - 52)) : ℚ) * (2 : ℚ) ^ (k - 52) := by
  have hpos : 0 < q := lt_of_lt_of_le (by positivity) hlo
  unfold roundDouble
  rw [if_neg (ne_of_gt hpos), log_two_eq q k hlo hhi]
  have : max (k - 52) (-1074) = k - 52 := max_eq_left (by omega)
  simp only [this]

/-- The number `doubleTenth` is the `double` that the literal `0.1` denotes. -/
theorem roundDouble_tenth : roundDouble (1 / 10) = doubleTenth := by
  rw [roundDouble_eq (1 / 10) (-4) (by norm_num) (by norm_num) (by norm_num),
    roundHalfEven_of_floor _ 7205759403792793 (by norm_num) (by norm_num)]
  norm_num [doubleTenth]

/-- The first addition, `0.0 + 0.1`, is exact. -/
theorem roundDouble_sum_one : roundDouble (0 + doubleTenth) = doubleTenth := by
  rw [roundDouble_eq _ (-4) (by norm_num [doubleTenth]) (by norm_num [doubleTenth])
      (by norm_num),
    roundHalfEven_of_floor _ 7205759403792794 (by norm_num [doubleTenth])
      (by norm_num [doubleTenth])]
  norm_num [doubleTenth]

/-- The second addition, `0.1 + 0.1`, is exact. -/
theorem roundDouble_sum_two :
    roundDouble (doubleTenth + doubleTenth) = 7205759403792794 / 36028797018963968 := by
  rw [roundDouble_eq _ (-3) (by norm_num [doubleTenth]) (by norm_num [doubleTenth])
      (by norm_num),
    roundHalfEven_of_floor _ 7205759403792794 (by norm_num [doubleTenth])
      (by norm_num [doubleTenth])]
  norm_num [doubleTenth]

/-- The third addition, `0.2 + 0.1`, lies half way between two `double`s and
goes up to the even one, `0.30000000000000004`. -/
theorem roundDouble_sum_three :
    roundDouble (7205759403792794 / 36028797018963968 + doubleTenth)
      = 5404319552844596 / 18014398509481984 := by
  rw [roundDouble_eq _ (-2) (by norm_num [doubleTenth]) (by norm_num [doubleTenth])
      (by norm_num),
    roundHalfEven_of_floor _ 5404319552844595 (by norm_num [doubleTenth])
      (by norm_num [doubleTenth])]
  norm_num [doubleTenth]

/-- The division `0.30000000000000004 / 3` gives `0.10000000000000002`, the
`double` after `0.1`. -/
theorem roundDouble_quotient :
    roundDouble (5404319552844596 / 18014398509481984 / 3)
      = 7205759403792795 / 72057594037927936 := by
  rw [roundDouble_eq _ (-4) (by norm_num) (by norm_num) (by norm_num),
    roundHalfEven_of_floor _ 7205759403792794 (by norm_num) (by norm_num)]
  norm_num

/-- The mean of three loads of `0.1` in `double` arithmetic. -/
theorem getMeanDouble_three_tenths :
    getMeanDouble [ChemistryLoad.mk 0 doubleTenth, ChemistryLoad.mk 1 doubleTenth,
        ChemistryLoad.mk 2 doubleTenth]
      = 7205759403792795 / 72057594037927936 := by
  simp only [getMeanDouble, List.foldl_cons, List.foldl_nil, List.length_cons, List.length_nil,
    roundDouble_sum_one, roundDouble_sum_two, roundDouble_sum_three]
  rw [← roundDouble_quotient]
  congr 1

/-! ## Partition and merge (claims C1, C2, C3) -/

/-- C1, as stated, fails: the sizes `[3, -1]` add up to the length of the
sequence `[7, 8]`, so `checkSizes` accepts them, but `partition` aborts on the
negative size and there are no sub-lists to concatenate. -/
theorem partition_merge_negative_size :
    ([3, -1] : List label).sum = (([7, 8] : List Nat).length : label) ∧
    checkSizes ([7, 8] : List Nat) [3, -1] = true ∧
    partition ([7, 8] : List Nat) [3, -1] = Except.error "bad size" ∧
    ¬ ∃ parts, partition ([7, 8] : List Nat) [3, -1] = Except.ok parts ∧ merge parts = [7, 8] := by
  have h : partition ([7, 8] : List Nat) [3, -1] = Except.error "bad size" := rfl
  refine ⟨by decide, by decide, h, ?_⟩
  rintro ⟨parts, hp, -⟩
  rw [h] at hp
  cases hp

/-- C1, amended: for every flat sequence and every list of non-negative sizes
that add up to its length, `partition` succeeds and concatenating its
sub-lists in order gives the sequence back. -/
theorem partition_merge_roundtrip {T : Type} [Inhabited T] (seq : List T) (sizes : List label)
    (hnn : ∀ s ∈ sizes, 0 ≤ s) (hsum : sizes.sum = (seq.length : label)) :
    ∃ parts, partition seq sizes = Except.ok parts ∧ merge parts = seq := by
  refine ⟨slicesFrom seq 0 sizes, partition_eq_slicesFrom seq sizes hnn hsum, ?_⟩
  rw [merge_slicesFrom seq sizes 0 hnn, hsum]
  simp

/-- An instance of the round trip: five elements cut into sizes 2, 0 and 3. -/
theorem partition_merge_roundtrip_witness :
    (∀ s ∈ ([2, 0, 3] : List label), 0 ≤ s) ∧
    ([2, 0, 3] : List label).sum = (([10, 20, 30, 40, 50] : List Nat).length : label) ∧
    ∃ parts, partition ([10, 20, 30, 40, 50] : List Nat) [2, 0, 3] = Except.ok parts ∧
      merge parts = [10, 20, 30, 40, 50] :=
  ⟨by decide, by decide,
    partition_merge_roundtrip [10, 20, 30, 40, 50] [2, 0, 3] (by decide) (by decide)⟩

/-- C2: for non-negative sizes that add up to the length of the flat sequence,
`partition` returns one sub-list per size; the `i`-th has length `sizes[i]`
and is the contiguous slice of the input that starts at offset
`sizes[0] + ... + sizes[i-1]`; a slice ends before every later slice starts,
and every slice lies inside the input. -/
theorem partition_contiguous_slices {T : Type} [Inhabited T] (flat : List T)
    (sizes : List label) (hnn : ∀ s ∈ sizes, 0 ≤ s)
    (hsum : sizes.sum = (flat.length : label)) :
    ∃ parts, partition flat sizes = Except.ok parts ∧
      parts.length = sizes.length ∧
      (∀ i, i < sizes.length → ∃ sub, parts[i]? = some sub ∧
        (sub.length : label) = sizes.getD i 0 ∧
        sub = (flat.drop (offset sizes i).toNat).take (sizes.getD i 0).toNat) ∧
      (∀ i j, i < j → j < sizes.length →
        offset sizes i + sizes.getD i 0 ≤ offset sizes j) ∧
      (∀ i, i < sizes.length →
        0 ≤ offset sizes i ∧ offset sizes i + sizes.getD i 0 ≤ (flat.length : label)) := by
  have hin : ∀ i, i < sizes.length →
      0 ≤ offset sizes i ∧ offset sizes i + sizes.getD i 0 ≤ (flat.length : label) := by
    intro i hi
    refine ⟨offset_nonneg sizes hnn i, ?_⟩
    have h := offset_mono sizes hnn i sizes.length hi (le_refl _)
    rw [offset_length, hsum] at h
    exact h
  refine ⟨slicesFrom flat 0 sizes, partition_eq_slicesFrom flat sizes hnn hsum,
    slicesFrom_length flat sizes 0, ?_, ?_, hin⟩
  · intro i hi
    refine ⟨_, slicesFrom_getElem? flat sizes 0 i hnn hi, ?_, ?_⟩
    · obtain ⟨h0, h1⟩ := hin i hi
      have hsz : 0 ≤ sizes.getD i 0 := by
        rw [List.getD_eq_getElem _ _ hi]
        exact hnn _ (List.getElem_mem hi)
      have hle : (offset sizes i).toNat + (sizes.getD i 0).toNat ≤ flat.length := by
        have h : (((offset sizes i).toNat + (sizes.getD i 0).toNat : Nat) : label)
            ≤ (flat.length : label) := by
          push_cast
          rw [Int.toNat_of_nonneg h0, Int.toNat_of_nonneg hsz]
          exact h1
        exact_mod_cast h
      rw [List.length_take, List.length_drop, Nat.zero_add,
        Nat.min_eq_left (by omega), Int.toNat_of_nonneg hsz]
    · rw [Nat.zero_add]
  · intro i j hij hj
    exact offset_mono sizes hnn i j hij (Nat.le_of_lt hj)

/-- An instance of the slicing: five elements cut into sizes 2, 0 and 3. -/
theorem partition_contiguous_slices_witness :
    (∀ s ∈ ([2, 0, 3] : List label), 0 ≤ s) ∧
    ([2, 0, 3] : List label).sum = (([10, 20, 30, 40, 50] : List Nat).length : label) ∧
    ∃ parts, partition ([10, 20, 30, 40, 50] : List Nat) [2, 0, 3] = Except.ok parts ∧
      parts.length = ([2, 0, 3] : List label).length ∧
      (∀ i, i < ([2, 0, 3] : List label).length → ∃ sub, parts[i]? = some sub ∧
        (sub.length : label) = ([2, 0, 3] : List label).getD i 0 ∧
        sub = (([10, 20, 30, 40, 50] : List Nat).drop (offset [2, 0, 3] i).toNat).take
          (([2, 0, 3] : List label).getD i 0).toNat) ∧
      (∀ i j, i < j → j < ([2, 0, 3] : List label).length →
        offset [2, 0, 3] i + ([2, 0, 3] : List label).getD i 0 ≤ offset [2, 0, 3] j) ∧
      (∀ i, i < ([2, 0, 3] : List label).length →
        0 ≤ offset [2, 0, 3] i ∧
        offset [2, 0, 3] i + ([2, 0, 3] : List label).getD i 0
          ≤ ((([10, 20, 30, 40, 50] : List Nat).length : Nat) : label)) :=
  ⟨by decide, by decide,
    partition_contiguous_slices [10, 20, 30, 40, 50] [2, 0, 3] (by decide) (by decide)⟩

/-- C3, as stated, fails: the sizes `[2147483647, 2147483647, 2]` add up to
`2^32`, not to the length 0 of the empty array, but the sum that `checkSizes`
forms in an `int` is 0, so the check passes and `partition` does not fail with
"Total send count not matching the problem count!". -/
theorem partition_overflowing_sum_passes :
    ([2147483647, 2147483647, 2] : List label).sum ≠ ((([] : List Nat).length : Nat) : label) ∧
    accumulateInt32 [2147483647, 2147483647, 2] 0 = 0 ∧
    checkSizesInt32 ([] : List Nat) [2147483647, 2147483647, 2] = true ∧
    partitionInt32 ([] : List Nat) [2147483647, 2147483647, 2]
      ≠ Except.error "Total send count not matching the problem count!" := by
  have hc : checkSizesInt32 ([] : List Nat) [2147483647, 2147483647, 2] = true := by decide
  refine ⟨by decide, by decide, hc, ?_⟩
  intro h
  rw [(partitionInt32_error_iff _ _).mp h] at hc
  cases hc

/-- C3, amended: `checkSizes` is true exactly when the sum of the sizes, as
it is formed in an `int`, equals the length, and `partition` fails with
"Total send count not matching the problem count!" exactly when `checkSizes`
is false, so it has no result then.  While the running sums of the sizes stay
in the range of an `int`, the sum is the exact one: `checkSizes` is true
exactly when the sizes add up to the length and `partition` fails with that
message exactly when they do not. -/
theorem partition_fatal_iff_sum_mismatch {T : Type} [Inhabited T] (flat : List T)
    (sizes : List label) :
    (checkSizesInt32 flat sizes = true ↔ accumulateInt32 sizes 0 = (flat.length : label)) ∧
    (partitionInt32 flat sizes
        = Except.error "Total send count not matching the problem count!"
      ↔ checkSizesInt32 flat sizes = false) ∧
    (checkSizesInt32 flat sizes = false → ∀ parts, partitionInt32 flat sizes ≠ Except.ok parts) ∧
    (runningSumsFit sizes 0 = true →
      accumulateInt32 sizes 0 = sizes.sum ∧
      (checkSizesInt32 flat sizes = true ↔ sizes.sum = (flat.length : label)) ∧
      (partitionInt32 flat sizes
          = Except.error "Total send count not matching the problem count!"
        ↔ sizes.sum ≠ (flat.length : label)) ∧
      partitionInt32 flat sizes = partition flat sizes) := by
  refine ⟨checkSizesInt32_iff flat sizes, partitionInt32_error_iff flat sizes, ?_, ?_⟩
  · intro hf parts hp
    rw [partitionInt32_of_check_false flat sizes hf] at hp
    cases hp
  · intro hfit
    have hacc : accumulateInt32 sizes 0 = sizes.sum := by
      rw [accumulateInt32_eq sizes 0 hfit, accumulate_eq, zero_add]
    have hcheck : checkSizesInt32 flat sizes = true ↔ sizes.sum = (flat.length : label) := by
      rw [checkSizesInt32_iff, hacc]
    refine ⟨hacc, hcheck, ?_, partitionInt32_eq flat sizes hfit⟩
    rw [partitionInt32_error_iff, ne_eq, ← hcheck]
    simp

/-- An instance of the size check: for five elements the sizes `[2, 0, 3]`
pass, and the sizes `[2, 2]` fail with the message. -/
theorem partition_fatal_iff_sum_mismatch_witness :
    checkSizesInt32 ([10, 20, 30, 40, 50] : List Nat) [2, 0, 3] = true ∧
    partitionInt32 ([10, 20, 30, 40, 50] : List Nat) [2, 2]
      = Except.error "Total send count not matching the problem count!" :=
  have h1 := partition_fatal_iff_sum_mismatch ([10, 20, 30, 40, 50] : List Nat) [2, 0, 3]
  have h2 := partition_fatal_iff_sum_mismatch ([10, 20, 30, 40, 50] : List Nat) [2, 2]
  ⟨((h1.2.2.2 (by decide)).2.1).mpr (by decide), ((h2.2.2.2 (by decide)).2.2.1).mpr (by decide)⟩

/-! ## Balance and unbalance on one worker (claims C4, C5, C7) -/

/-- C4, as stated, fails: in a run without parallelism, on a balancer whose
state was never set (all three lists empty) `balance` of the two values
`[1, 2]` stops in the size check of `partition` and returns nothing. -/
theorem balance_serial_unset_state :
    balance false [] (BalancerState.mk [] [] []) ([1, 2] : List Nat)
      = Except.error "Total send count not matching the problem count!" ∧
    ¬ ∃ ex, balance false [] (BalancerState.mk [] [] []) ([1, 2] : List Nat) = Except.ok ex ∧
      ex.received = [[1, 2]] := by
  have h : balance false [] (BalancerState.mk [] [] []) ([1, 2] : List Nat)
      = Except.error "Total send count not matching the problem count!" := rfl
  refine ⟨h, ?_⟩
  rintro ⟨ex, hex, -⟩
  rw [h] at hex
  cases hex

/-- C4, amended: in a run without parallelism `balance` returns the single
sub-buffer `values`, and sends nothing, exactly when the state has one
destination or its `nProblems` is the single entry `len(values)`. -/
theorem balance_serial_iff {T : Type} [Inhabited T] (mailbox : List (Message T))
    (state_ : BalancerState) (values : List T) :
    balance false mailbox state_ values = Except.ok (Exchange.mk [] [values])
      ↔ (state_.destinations.length = 1 ∨ state_.nProblems = [(values.length : label)]) := by
  unfold balance getSendBuffer
  by_cases hd : state_.destinations.length = 1
  · simp [hd, sendRecv]
  · simp only [hd, if_false, false_or]
    constructor
    · intro h
      cases hp : partition values state_.nProblems with
      | error e => rw [hp] at h; cases h
      | ok parts =>
        rw [hp] at h
        obtain ⟨hnn, hsum, hparts⟩ := partition_ok values state_.nProblems parts hp
        simp only [sendRecv, Bool.false_eq_true, if_false, Except.ok.injEq,
          Exchange.mk.injEq, true_and] at h
        have hlen : state_.nProblems.length = 1 := by
          rw [← slicesFrom_length values state_.nProblems 0, ← hparts, h]
          rfl
        obtain ⟨s, hs⟩ := List.length_eq_one.mp hlen
        rw [hs] at hsum ⊢
        simp only [List.sum_cons, List.sum_nil, add_zero] at hsum
        rw [hsum]
    · intro h
      have hnn : ∀ s ∈ state_.nProblems, 0 ≤ s := by
        intro s hs
        rw [h] at hs
        rw [List.mem_singleton.mp hs]
        exact Int.natCast_nonneg _
      have hsum : state_.nProblems.sum = (values.length : label) := by
        rw [h]; simp
      rw [partition_eq_slicesFrom values state_.nProblems hnn hsum, h]
      simp [sendRecv, slicesFrom]

/-- C5, as stated, fails.  With three destinations and `nProblems = [2]` the
send buffer of `[1, 2]` has one sub-buffer, not three, and `send_buffer[1]`
does not exist; with one destination and `nProblems = [5]` the only sub-buffer
has size 2, not 5. -/
theorem getSendBuffer_shape_mismatch :
    getSendBuffer (BalancerState.mk [] [1, 2, 3] [2]) ([1, 2] : List Nat)
      = Except.ok [[1, 2]] ∧
    ([[1, 2]] : List (List Nat)).length ≠ ([1, 2, 3] : List label).length ∧
    ([[1, 2]] : List (List Nat))[1]? = none ∧
    getSendBuffer (BalancerState.mk [] [0] [5]) ([1, 2] : List Nat) = Except.ok [[1, 2]] ∧
    ([[1, 2]] : List (List Nat)).map (fun sub => (sub.length : label)) ≠ [5] := by
  refine ⟨rfl, by decide, rfl, rfl, by decide⟩

/-- C5, amended: when `getSendBuffer` succeeds, a state with exactly one
destination gives the single sub-buffer `values`, whatever `nProblems` holds;
any other state gives one sub-buffer per entry of `nProblems`, of those
sizes.  So the send buffer has one sub-buffer per destination exactly when
there is one destination or `nProblems` has as many entries as
`destinations`, and then `send_buffer[i]` exists for every destination index
`i`. -/
theorem getSendBuffer_shape {T : Type} [Inhabited T] (state_ : BalancerState)
    (values : List T) (send_buffer : List (List T))
    (h : getSendBuffer state_ values = Except.ok send_buffer) :
    (state_.destinations.length = 1 → send_buffer = [values]) ∧
    (state_.destinations.length ≠ 1 →
      send_buffer.length = state_.nProblems.length ∧
      send_buffer.map (fun sub => (sub.length : label)) = state_.nProblems) ∧
    (send_buffer.length = state_.destinations.length ↔
      (state_.destinations.length = 1
        ∨ state_.nProblems.length = state_.destinations.length)) ∧
    (send_buffer.length = state_.destinations.length →
      ∀ i, i < state_.destinations.length → ∃ sub, send_buffer[i]? = some sub) := by
  unfold getSendBuffer at h
  have hshape : send_buffer.length = state_.destinations.length ↔
      (state_.destinations.length = 1
        ∨ state_.nProblems.length = state_.destinations.length) := by
    by_cases hd : state_.destinations.length = 1
    · simp only [hd, if_true] at h
      rw [← Except.ok.inj h, hd]
      simp
    · simp only [hd, if_false] at h
      obtain ⟨-, -, hparts⟩ := partition_ok values state_.nProblems send_buffer h
      rw [hparts, slicesFrom_length]
      simp [hd]
  refine ⟨?_, ?_, hshape, fun hlen => ?_⟩
  · intro hd
    simp only [hd, if_true] at h
    exact (Except.ok.inj h).symm
  · intro hd
    simp only [hd, if_false] at h
    obtain ⟨hnn, hsum, hparts⟩ := partition_ok values state_.nProblems send_buffer h
    rw [hparts]
    exact ⟨slicesFrom_length values _ 0,
      slicesFrom_lengths values _ 0 hnn (by rw [hsum]; simp)⟩
  · intro i hi
    have hlt : i < send_buffer.length := by rw [hlen]; exact hi
    exact ⟨send_buffer[i], List.getElem?_eq_getElem hlt⟩

/-- An instance of the send-buffer shape: two destinations,
`nProblems = [1, 2]`, three values. -/
theorem getSendBuffer_shape_witness :
    getSendBuffer (BalancerState.mk [0] [0, 1] [1, 2]) ([7, 8, 9] : List Nat)
      = Except.ok [[7], [8, 9]] ∧
    ((BalancerState.mk [0] [0, 1] [1, 2]).destinations.length = 1 →
      ([[7], [8, 9]] : List (List Nat)) = [[7, 8, 9]]) ∧
    ((BalancerState.mk [0] [0, 1] [1, 2]).destinations.length ≠ 1 →
      ([[7], [8, 9]] : List (List Nat)).length
        = (BalancerState.mk [0] [0, 1] [1, 2]).nProblems.length ∧
      ([[7], [8, 9]] : List (List Nat)).map (fun sub => (sub.length : label))
        = (BalancerState.mk [0] [0, 1] [1, 2]).nProblems) ∧
    (([[7], [8, 9]] : List (List Nat)).length
        = (BalancerState.mk [0] [0, 1] [1, 2]).destinations.length ↔
      ((BalancerState.mk [0] [0, 1] [1, 2]).destinations.length = 1
        ∨ (BalancerState.mk [0] [0, 1] [1, 2]).nProblems.length
          = (BalancerState.mk [0] [0, 1] [1, 2]).destinations.length)) ∧
    (([[7], [8, 9]] : List (List Nat)).length
        = (BalancerState.mk [0] [0, 1] [1, 2]).destinations.length →
      ∀ i, i < (BalancerState.mk [0] [0, 1] [1, 2]).destinations.length →
        ∃ sub, ([[7], [8, 9]] : List (List Nat))[i]? = some sub) :=
  ⟨rfl, getSendBuffer_shape (BalancerState.mk [0] [0, 1] [1, 2]) [7, 8, 9] [[7], [8, 9]] rfl⟩

/-- C7: for every state and buffer `unbalance` is `sendRecv` with the roles
swapped, and in a run without parallelism it returns `values` itself and sends
nothing.  In a parallel run it returns exactly when `values` has an entry for
every source and the mailbox holds, for every rank, as many sub-buffers as the
rank is listed among `state.destinations`; then `values[i]` was sent to
`state.sources[i]` for every source index `i`, and one buffer was received
from each entry of `state.destinations`, in order. -/
theorem unbalance_swaps_roles {T : Type} (mailbox : List (Message T))
    (state_ : BalancerState) (values : List (List T)) :
    (∀ parRun, unbalance parRun mailbox state_ values
      = sendRecv parRun mailbox values state_.destinations state_.sources) ∧
    unbalance false mailbox state_ values = Except.ok (Exchange.mk [] values) ∧
    ((∃ ex, unbalance true mailbox state_ values = Except.ok ex) ↔
      (state_.sources.length ≤ values.length ∧
        ∀ d : label, state_.destinations.count d ≤ (mailbox.map Prod.fst).count d)) ∧
    (∀ ex, unbalance true mailbox state_ values = Except.ok ex →
      ex.sent.map Prod.fst = state_.sources ∧
      ex.sent.map Prod.snd = values.take state_.sources.length ∧
      (∀ i, i < state_.sources.length →
        ∃ d sub, state_.sources[i]? = some d ∧ values[i]? = some sub ∧
          ex.sent[i]? = some (d, sub)) ∧
      ex.received.length = state_.destinations.length ∧
      List.Forall₂ (fun s sub => (s, sub) ∈ mailbox) state_.destinations ex.received) := by
  refine ⟨fun _ => rfl, by simp [unbalance, sendRecv], ?_, ?_⟩
  · rw [← sendLoop_returns_iff values state_.sources,
      ← recvLoop_returns_iff state_.destinations mailbox]
    constructor
    · rintro ⟨ex, h⟩
      simp only [unbalance, sendRecv, if_true] at h
      cases hs : sendLoop values state_.sources 0 with
      | error e => rw [hs] at h; cases h
      | ok sent =>
        rw [hs] at h
        dsimp only at h
        cases hr : recvLoop mailbox state_.destinations with
        | error e => rw [hr] at h; cases h
        | ok bufs => exact ⟨⟨sent, rfl⟩, ⟨bufs, rfl⟩⟩
    · rintro ⟨⟨sent, hs⟩, ⟨bufs, hr⟩⟩
      exact ⟨Exchange.mk sent bufs, by simp [unbalance, sendRecv, hs, hr]⟩
  · intro ex h
    simp only [unbalance, sendRecv, if_true] at h
    cases hs : sendLoop values state_.sources 0 with
    | error e => rw [hs] at h; cases h
    | ok sent =>
      rw [hs] at h
      dsimp only at h
      cases hr : recvLoop mailbox state_.destinations with
      | error e => rw [hr] at h; cases h
      | ok bufs =>
        rw [hr] at h
        cases h
        obtain ⟨h1, h2, -⟩ := sendLoop_ok values state_.sources 0 sent hs
        have hlen : state_.sources.length ≤ values.length :=
          (sendLoop_returns_iff values state_.sources).mp ⟨sent, hs⟩
        have h2b : sent.map Prod.snd = values.take state_.sources.length := by
          simpa using h2
        refine ⟨h1, h2b, ?_, recvLoop_length _ mailbox bufs hr,
          recvLoop_ok _ mailbox bufs hr⟩
        intro i hi
        have hiv : i < values.length := by omega
        have his : i < sent.length := by
          have := congrArg List.length h1
          simp only [List.length_map] at this
          omega
        refine ⟨state_.sources[i], values[i], List.getElem?_eq_getElem hi,
          List.getElem?_eq_getElem hiv, ?_⟩
        rw [List.getElem?_eq_getElem his]
        congr 1
        have e1 : (sent.map Prod.fst)[i]? = state_.sources[i]? := by rw [h1]
        have e2 : (sent.map Prod.snd)[i]? = (values.take state_.sources.length)[i]? := by
          rw [h2b]
        rw [List.getElem?_map, List.getElem?_eq_getElem his, List.getElem?_eq_getElem hi] at e1
        rw [List.getElem?_map, List.getElem?_eq_getElem his, List.getElem?_take_of_lt hi,
          List.getElem?_eq_getElem hiv] at e2
        simp only [Option.map_some', Option.some.injEq] at e1 e2
        exact Prod.ext e1 e2

/-- An instance of the swapped exchange: one solved sub-buffer goes back to
rank 0 and one comes back from rank 1. -/
theorem unbalance_swaps_roles_witness :
    unbalance true [((1 : label), [5])] (BalancerState.mk [0] [1] []) ([[9]] : List (List Nat))
      = Except.ok (Exchange.mk [((0 : label), [9])] [[5]]) ∧
    ([((0 : label), [9])] : List (Message Nat)).map Prod.fst = [0] ∧
    unbalance false [((1 : label), [5])] (BalancerState.mk [0] [1] []) ([[9]] : List (List Nat))
      = Except.ok (Exchange.mk [] [[9]]) :=
  have h := unbalance_swaps_roles [((1 : label), [5])] (BalancerState.mk [0] [1] [])
    ([[9]] : List (List Nat))
  ⟨rfl, (h.2.2.2 (Exchange.mk [((0 : label), [9])] [[5]]) rfl).1, h.2.1⟩

/-! ## Conservation of units (claim C6) -/

/-- C6, as stated, fails: with two workers, when worker 0 holds two units
under a plan without destinations and worker 1 keeps its one unit, `balance`
returns on both workers, but worker 0 has sent its units to nobody: three
units before, one unit after. -/
theorem balanceAll_loses_units :
    balanceAll
        [(Worker.mk (BalancerState.mk [] [] [2]) [1, 2] : Worker Nat),
          Worker.mk (BalancerState.mk [1] [1] [1]) [3]]
      = Except.ok [[], [[3]]] ∧
    unitsBefore
        [(Worker.mk (BalancerState.mk [] [] [2]) [1, 2] : Worker Nat),
          Worker.mk (BalancerState.mk [1] [1] [1]) [3]] = 3 ∧
    unitsAfter ([[], [[3]]] : List (List (List Nat))) = 1 := by
  refine ⟨rfl, rfl, rfl⟩

/-- C6, amended: when every worker has one send-buffer entry per destination
(one destination, or as many entries of `nProblems` as destinations), sends
only to existing workers, and declares at least as many sources as
sub-buffers are addressed to it, then whenever `balance` returns on every
worker the number of units held by all workers after it equals the number
before it. -/
theorem balanceAll_conserves {T : Type} [Inhabited T] (workers : List (Worker T))
    (results : List (List (List T)))
    (hshape : ∀ w ∈ workers, w.state.destinations.length = 1
      ∨ w.state.nProblems.length = w.state.destinations.length)
    (hvalid : ∀ w ∈ workers, ∀ d ∈ w.state.destinations,
      0 ≤ d ∧ d < (workers.length : label))
    (hdeclared : ∀ r, r < workers.length → addressedTo workers r ≤ sourcesDeclared workers r)
    (hrun : balanceAll workers = Except.ok results) :
    unitsAfter results = unitsBefore workers := by
  unfold balanceAll at hrun
  cases hs : sentByAll workers with
  | error e => rw [hs] at hrun; cases hrun
  | ok allSent =>
    rw [hs] at hrun
    dsimp only at hrun
    obtain ⟨hdest, hunits⟩ := sentByAll_ok workers allSent hshape hs
    have hcount : ∀ r : Nat,
        (allSent.map (fun sent => (sent.map Prod.fst).count (r : label))).sum
          = addressedTo workers r := by
      intro r
      have h := congrArg (List.map (fun ds : List label => ds.count (r : label))) hdest
      simp only [List.map_map] at h
      unfold addressedTo
      exact congrArg List.sum h
    have hdecl : ∀ (k : Nat) (w : Worker T), workers[k]? = some w →
        (deliveredTo ((0 + k : Nat) : label) 0 allSent).length ≤ w.state.sources.length := by
      intro k w hk
      have hlt : k < workers.length := by
        by_contra hn
        rw [List.getElem?_eq_none (by omega)] at hk
        cases hk
      have hsrc : sourcesDeclared workers k = w.state.sources.length := by
        unfold sourcesDeclared
        rw [List.getD_eq_getElem?_getD, List.getElem?_map, hk]
        rfl
      rw [Nat.zero_add, deliveredTo_length, hcount, ← hsrc]
      exact hdeclared k hlt
    have hval : ∀ sent ∈ allSent, ∀ m ∈ sent, 0 ≤ m.1 ∧ m.1 < (workers.length : label) := by
      intro sent hsent m hm
      have h1 : sent.map Prod.fst ∈ allSent.map (fun sent => sent.map Prod.fst) :=
        List.mem_map_of_mem _ hsent
      rw [hdest] at h1
      obtain ⟨w, hw, hwd⟩ := List.mem_map.mp h1
      have h2 : m.1 ∈ w.state.destinations := by
        rw [hwd]; exact List.mem_map_of_mem _ hm
      exact hvalid w hw m.1 h2
    rw [balanceFrom_units allSent workers 0 results hrun hdecl,
      deliveredUnits_total workers.length allSent hval, hunits]

/-- An instance of conservation: worker 0 keeps one of its three units and
sends two to worker 1, which keeps its own two. -/
theorem balanceAll_conserves_witness :
    balanceAll
        [(Worker.mk (BalancerState.mk [0] [0, 1] [1, 2]) [1, 2, 3] : Worker Nat),
          Worker.mk (BalancerState.mk [1, 0] [1] [2]) [7, 8]]
      = Except.ok [[[1]], [[7, 8], [2, 3]]] ∧
    unitsAfter ([[[1]], [[7, 8], [2, 3]]] : List (List (List Nat)))
      = unitsBefore
        [(Worker.mk (BalancerState.mk [0] [0, 1] [1, 2]) [1, 2, 3] : Worker Nat),
          Worker.mk (BalancerState.mk [1, 0] [1] [2]) [7, 8]] :=
  ⟨rfl,
    balanceAll_conserves
      [(Worker.mk (BalancerState.mk [0] [0, 1] [1, 2]) [1, 2, 3] : Worker Nat),
        Worker.mk (BalancerState.mk [1, 0] [1] [2]) [7, 8]]
      [[[1]], [[7, 8], [2, 3]]] (by decide) (by decide) (by decide) rfl⟩

/-! ## Load metrics (claims C8, C9, C10) -/

/-- C8: the load returned by `computeLoad` has as value the sum of the
`cpuTime` fields of the units and as rank the id of the calling worker; for
the empty list the value is 0. -/
theorem computeLoad_sum (myProcNo : label) (problems : List ChemistryProblem) :
    (computeLoad myProcNo problems).value = (problems.map (fun p => p.cpuTime)).sum ∧
    (computeLoad myProcNo problems).rank = myProcNo ∧
    (computeLoad myProcNo []).value = 0 := by
  refine ⟨?_, rfl, rfl⟩
  simp only [computeLoad, foldl_cpuTime, zero_add]

/-- C9, as stated, fails: `cpuTime` is a plain scalar, and for one unit whose
`cpuTime` is -1 the cost returned by `computeLoad` is -1. -/
theorem computeLoad_negative :
    (computeLoad 0 [ChemistryProblem.mk [] 0 0 0 0 0 (-1) 0]).value = -1 ∧
    ¬ (0 ≤ (computeLoad 0 [ChemistryProblem.mk [] 0 0 0 0 0 (-1) 0]).value) := by
  have h : (computeLoad 0 [ChemistryProblem.mk [] 0 0 0 0 0 (-1) 0]).value = -1 := by
    simp [computeLoad]
  rw [h]
  exact ⟨rfl, by norm_num⟩

/-- C9, amended: for every list of work units whose `cpuTime` fields are all
non-negative, the cost returned by `computeLoad` is non-negative. -/
theorem computeLoad_nonneg (myProcNo : label) (problems : List ChemistryProblem)
    (hcpu : ∀ p ∈ problems, 0 ≤ p.cpuTime) :
    0 ≤ (computeLoad myProcNo problems).value := by
  have hval : (computeLoad myProcNo problems).value
      = (problems.map (fun p => p.cpuTime)).sum := by
    simp only [computeLoad, foldl_cpuTime, zero_add]
  rw [hval]
  apply List.sum_nonneg
  intro x hx
  obtain ⟨p, hp, rfl⟩ := List.mem_map.mp hx
  exact hcpu p hp

/-- An instance of the non-negative cost: two units with costs 2 and 3. -/
theorem computeLoad_nonneg_witness :
    0 ≤ (computeLoad 1
      [ChemistryProblem.mk [] 0 0 0 0 0 2 0, ChemistryProblem.mk [] 0 0 0 0 0 3 1]).value :=
  computeLoad_nonneg 1
    [ChemistryProblem.mk [] 0 0 0 0 0 2 0, ChemistryProblem.mk [] 0 0 0 0 0 3 1]
    (by
      intro p hp
      simp only [List.mem_cons, List.mem_singleton, List.not_mem_nil, or_false] at hp
      rcases hp with h | h <;> rw [h] <;> norm_num)

/-- C10: on a non-empty load list `getMin` returns the element of lowest index
whose value is minimal, and `getMax` the element of lowest index whose value
is maximal.  For the loads `[10, 10, 10, 70]` of the workers 0 to 3, `getMax`
is the load of worker 3 and `getMin` the load of worker 0. -/
theorem getMin_getMax_first (loads : List ChemistryLoad) (hne : loads ≠ []) :
    (∃ i lo, getMin loads = some lo ∧ loads[i]? = some lo ∧
      (∀ x ∈ loads, lo.value ≤ x.value) ∧
      (∀ (j : Nat) (x : ChemistryLoad), j < i → loads[j]? = some x → lo.value < x.value)) ∧
    (∃ i hi, getMax loads = some hi ∧ loads[i]? = some hi ∧
      (∀ x ∈ loads, x.value ≤ hi.value) ∧
      (∀ (j : Nat) (x : ChemistryLoad), j < i → loads[j]? = some x → x.value < hi.value)) ∧
    getMax [ChemistryLoad.mk 0 10, ChemistryLoad.mk 1 10, ChemistryLoad.mk 2 10,
        ChemistryLoad.mk 3 70] = some (ChemistryLoad.mk 3 70) ∧
    getMin [ChemistryLoad.mk 0 10, ChemistryLoad.mk 1 10, ChemistryLoad.mk 2 10,
        ChemistryLoad.mk 3 70] = some (ChemistryLoad.mk 0 10) := by
  refine ⟨?_, ?_, by decide, by decide⟩
  · obtain ⟨i, v, h1, h2, h3, h4⟩ := min_element_first (fun l : ChemistryLoad => l.value) loads hne
    exact ⟨i, v, by simp only [getMin, h1, Option.map_some'], h2, h3, h4⟩
  · obtain ⟨i, v, h1, h2, h3, h4⟩ := max_element_first (fun l : ChemistryLoad => l.value) loads hne
    exact ⟨i, v, by simp only [getMax, h1, Option.map_some'], h2, h3, h4⟩

/-- An instance of the first-minimum and first-maximum rule: among the loads
`[70, 10, 70, 10]` of the workers 0 to 3, `getMax` is the load of worker 0 and
`getMin` the load of worker 1. -/
theorem getMin_getMax_first_witness :
    getMin [ChemistryLoad.mk 0 70, ChemistryLoad.mk 1 10, ChemistryLoad.mk 2 70,
        ChemistryLoad.mk 3 10] = some (ChemistryLoad.mk 1 10) ∧
    getMax [ChemistryLoad.mk 0 70, ChemistryLoad.mk 1 10, ChemistryLoad.mk 2 70,
        ChemistryLoad.mk 3 10] = some (ChemistryLoad.mk 0 70) ∧
    getMax [ChemistryLoad.mk 0 10, ChemistryLoad.mk 1 10, ChemistryLoad.mk 2 10,
        ChemistryLoad.mk 3 70] = some (ChemistryLoad.mk 3 70) ∧
    getMin [ChemistryLoad.mk 0 10, ChemistryLoad.mk 1 10, ChemistryLoad.mk 2 10,
        ChemistryLoad.mk 3 70] = some (ChemistryLoad.mk 0 10) :=
  ⟨by decide, by decide,
    (getMin_getMax_first
      [ChemistryLoad.mk 0 70, ChemistryLoad.mk 1 10, ChemistryLoad.mk 2 70,
        ChemistryLoad.mk 3 10] (by simp)).2.2⟩

/-! ## Mean, plan validity and rank lookup (claims C11 to C15) -/

/-- C11, as stated, fails in the arithmetic of the code: for three workers
that all report the load 0.1 (the `double` that `0.1` denotes), the mean that
`getMean` computes in `double` arithmetic is `0.10000000000000002`, which is
not the common value, and the surplus of the sender over the mean is
negative, not zero. -/
theorem getMean_equal_loads_rounding :
    roundDouble (1 / 10) = doubleTenth ∧
    (∀ x ∈ [ChemistryLoad.mk 0 doubleTenth, ChemistryLoad.mk 1 doubleTenth,
        ChemistryLoad.mk 2 doubleTenth], x.value = doubleTenth) ∧
    getMax [ChemistryLoad.mk 0 doubleTenth, ChemistryLoad.mk 1 doubleTenth,
        ChemistryLoad.mk 2 doubleTenth] = some (ChemistryLoad.mk 0 doubleTenth) ∧
    getMeanDouble [ChemistryLoad.mk 0 doubleTenth, ChemistryLoad.mk 1 doubleTenth,
        ChemistryLoad.mk 2 doubleTenth] = 7205759403792795 / 72057594037927936 ∧
    getMeanDouble [ChemistryLoad.mk 0 doubleTenth, ChemistryLoad.mk 1 doubleTenth,
        ChemistryLoad.mk 2 doubleTenth] ≠ doubleTenth ∧
    (ChemistryLoad.mk 0 doubleTenth).value
      - getMeanDouble [ChemistryLoad.mk 0 doubleTenth, ChemistryLoad.mk 1 doubleTenth,
          ChemistryLoad.mk 2 doubleTenth] < 0 := by
  refine ⟨roundDouble_tenth, ?_, ?_, getMeanDouble_three_tenths, ?_, ?_⟩
  · intro x hx
    simp only [List.mem_cons, List.mem_singleton, List.not_mem_nil, or_false] at hx
    rcases hx with h | h | h <;> rw [h]
  · simp [getMax, max_element, maxScan]
  · rw [getMeanDouble_three_tenths]
    norm_num [doubleTenth]
  · rw [getMeanDouble_three_tenths]
    norm_num [doubleTenth]

/-- C11, amended: on a non-empty load list whose values are all equal,
`getMin` and `getMax` return the same load (the first of the list), and in
exact arithmetic `getMean` is the common value, so that the surplus of the
sender over the mean and the deficit of the receiver below it are both
zero. -/
theorem equal_loads_no_skew (v : scalar) (loads : List ChemistryLoad) (hne : loads ≠ [])
    (hall : ∀ x ∈ loads, x.value = v) :
    getMin loads = getMax loads ∧
    getMin loads = loads.head? ∧
    getMean loads = v ∧
    (∃ hi lo, getMax loads = some hi ∧ getMin loads = some lo ∧ hi.rank = lo.rank ∧
      hi.value - getMean loads = 0 ∧ getMean loads - lo.value = 0) := by
  have hmean : getMean loads = v := by
    rw [getMean_eq, sum_of_equal_values v loads hall]
    have hlen : (loads.length : scalar) ≠ 0 := by
      have : loads.length ≠ 0 := fun h => hne (List.length_eq_zero.mp h)
      exact_mod_cast this
    field_simp
  obtain ⟨i, lo, hmin, hlo, -, hlofirst⟩ :=
    min_element_first (fun l : ChemistryLoad => l.value) loads hne
  obtain ⟨k, hi, hmax, hhi, -, hhifirst⟩ :=
    max_element_first (fun l : ChemistryLoad => l.value) loads hne
  obtain ⟨x0, hx0⟩ : ∃ x0, loads[0]? = some x0 := by
    cases loads with
    | nil => exact absurd rfl hne
    | cons a as => exact ⟨a, by simp⟩
  have hx0v : x0.value = v := hall x0 (List.getElem?_mem hx0)
  have hi0 : i = 0 := by
    by_contra hpos
    have h := hlofirst 0 x0 (Nat.pos_of_ne_zero hpos) hx0
    rw [hall lo (List.getElem?_mem hlo), hx0v] at h
    exact lt_irrefl v h
  have hk0 : k = 0 := by
    by_contra hpos
    have h := hhifirst 0 x0 (Nat.pos_of_ne_zero hpos) hx0
    rw [hall hi (List.getElem?_mem hhi), hx0v] at h
    exact lt_irrefl v h
  subst hi0 hk0
  have hlox : lo = x0 := Option.some.inj (hlo.symm.trans hx0)
  have hhix : hi = x0 := Option.some.inj (hhi.symm.trans hx0)
  rw [hlox] at hmin
  rw [hhix] at hmax
  have hgmin : getMin loads = some x0 := by simp only [getMin, hmin, Option.map_some']
  have hgmax : getMax loads = some x0 := by simp only [getMax, hmax, Option.map_some']
  refine ⟨by rw [hgmin, hgmax], ?_, hmean, x0, x0, hgmax, hgmin, rfl, ?_, ?_⟩
  · rw [hgmin, ← hx0, List.head?_eq_getElem?]
  · rw [hmean, hx0v]; ring
  · rw [hmean, hx0v]; ring

/-- An instance of the no-skew rule: three workers with load 10 each. -/
theorem equal_loads_no_skew_witness :
    getMin [ChemistryLoad.mk 0 10, ChemistryLoad.mk 1 10, ChemistryLoad.mk 2 10]
      = getMax [ChemistryLoad.mk 0 10, ChemistryLoad.mk 1 10, ChemistryLoad.mk 2 10] ∧
    getMean [ChemistryLoad.mk 0 10, ChemistryLoad.mk 1 10, ChemistryLoad.mk 2 10] = 10 :=
  have h := equal_loads_no_skew 10
    [ChemistryLoad.mk 0 10, ChemistryLoad.mk 1 10, ChemistryLoad.mk 2 10] (by simp)
    (by
      intro x hx
      simp only [List.mem_cons, List.mem_singleton, List.not_mem_nil, or_false] at hx
      rcases hx with h | h | h <;> rw [h])
  ⟨h.1, h.2.2.1⟩

/-- C12, as stated, fails: the mean that `getMean` computes for the loads
`[10, 10, 10, 70]` is not 20. -/
theorem getMean_scenario_not_20 :
    getMean [ChemistryLoad.mk 0 10, ChemistryLoad.mk 1 10, ChemistryLoad.mk 2 10,
      ChemistryLoad.mk 3 70] ≠ 20 := by
  rw [getMean_eq]
  norm_num

/-- C12, amended: the mean that `getMean` computes for the loads
`[10, 10, 10, 70]` is 100 / 4 = 25. -/
theorem getMean_scenario :
    getMean [ChemistryLoad.mk 0 10, ChemistryLoad.mk 1 10, ChemistryLoad.mk 2 10,
      ChemistryLoad.mk 3 70] = 25 := by
  rw [getMean_eq]
  norm_num

/-- C13, as stated, fails: on worker 0 the plan with sources `[1]` and
destinations `[1]` has a first source that is not the calling worker, and
`setState` stores it and returns normally: nothing is printed and no error is
raised. -/
theorem setState_accepts_inconsistent_plan :
    (BalancerState.mk [1] [1] [3]).sources.head? ≠ some (0 : label) ∧
    setState 0 (LoadBalancerBase.mk (BalancerState.mk [0] [0] [3]))
        (BalancerState.mk [1] [1] [3])
      = SetStateOutcome.mk (LoadBalancerBase.mk (BalancerState.mk [1] [1] [3])) none none ∧
    (setState 0 (LoadBalancerBase.mk (BalancerState.mk [0] [0] [3]))
        (BalancerState.mk [1] [1] [3])).thrown
      ≠ some "Invalid balance state in ChemistryLoadBalancing." := by
  refine ⟨by decide, rfl, by decide⟩

/-- C13, amended: `setState` raises "Invalid balance state in
ChemistryLoadBalancing." only for a plan that `validState` rejects, and
`validState` rejects no plan; so for every plan, well-formed or not, on every
worker, `setState` stores the plan and returns normally, printing nothing and
raising nothing. -/
theorem setState_never_fatal (myProcNo : label) (self : LoadBalancerBase)
    (state : BalancerState) :
    validState (LoadBalancerBase.mk state) = true ∧
    setState myProcNo self state
      = SetStateOutcome.mk (LoadBalancerBase.mk state) none none ∧
    (setState myProcNo self state).thrown
      ≠ some "Invalid balance state in ChemistryLoadBalancing." := by
  refine ⟨rfl, rfl, ?_⟩
  intro h
  cases h

/-- C14: `validState` is true for every state, so for every plan `setState`
returns without printing or throwing, and afterwards `getState` gives the plan
back, with its sources, destinations and problem counts. -/
theorem setState_stores_every_plan (myProcNo : label) (self : LoadBalancerBase)
    (state : BalancerState) :
    validState self = true ∧
    (setState myProcNo self state).thrown = none ∧
    (setState myProcNo self state).printed = none ∧
    getState (setState myProcNo self state).self = state ∧
    (getState (setState myProcNo self state).self).sources = state.sources ∧
    (getState (setState myProcNo self state).self).destinations = state.destinations ∧
    (getState (setState myProcNo self state).self).nProblems = state.nProblems := by
  refine ⟨rfl, rfl, rfl, rfl, rfl, rfl, rfl⟩

/-- C15: `rankToLoadIdx` returns the smallest index whose load has the wanted
rank; it returns an index exactly when some load has that rank, and it throws
"Could not find my rank from loads." exactly when no load has it. -/
theorem rankToLoadIdx_first_match (loads : List ChemistryLoad) (rank : label) :
    (∀ i : label, rankToLoadIdx loads rank = Except.ok i ↔
      ∃ k : Nat, i = (k : label) ∧
        (∃ load, loads[k]? = some load ∧ load.rank = rank) ∧
        ∀ (j : Nat) (load : ChemistryLoad), j < k → loads[j]? = some load →
          load.rank ≠ rank) ∧
    ((∃ i, rankToLoadIdx loads rank = Except.ok i) ↔ ∃ load ∈ loads, load.rank = rank) ∧
    (rankToLoadIdx loads rank = Except.error "Could not find my rank from loads." ↔
      ∀ load ∈ loads, load.rank ≠ rank) := by
  refine ⟨?_, rankToLoadIdxFrom_total rank loads 0, rankToLoadIdxFrom_error rank loads 0⟩
  intro i
  unfold rankToLoadIdx
  rw [rankToLoadIdxFrom_ok rank loads 0 i]
  simp only [zero_add]

/-! ## Collective gather and reference mapper (claims C16 to C20) -/

/-- C16: on every worker `allGather` returns a list with one entry per worker
in which entry `i` is the datum of worker `i`: on the worker of rank
`before.length` the result is the data of all workers in rank order, its
length is the number of workers, and the entry at the own rank is the own
datum; with a single worker the result is `[myData]`.  Run on all workers,
every worker gets the same list. -/
theorem allGather_one_entry_per_worker {T : Type} (before : List T) (myData : T)
    (after : List T) (datas : List T) (r : Nat) :
    allGather before myData after = before ++ myData :: after ∧
    (allGather before myData after).length = (before ++ myData :: after).length ∧
    (allGather before myData after)[before.length]? = some myData ∧
    allGather [] myData [] = [myData] ∧
    (allGatherAll datas)[r]? = (if r < datas.length then some datas else none) := by
  refine ⟨allGather_eq before myData after, by rw [allGather_eq], ?_, ?_, ?_⟩
  · rw [allGather_eq, List.getElem?_append_right (le_refl _)]
    simp
  · rw [allGather_eq]; rfl
  · rw [allGatherAll_eq, List.getElem?_map]
    by_cases hr : r < datas.length
    · simp [hr, List.getElem?_eq_getElem hr]
    · simp [hr, List.getElem?_eq_none (Nat.le_of_not_lt hr)]

/-- C17: for a mapper whose two calibration bounds differ, `shouldMap` returns
true exactly when the mixing coordinate `Z` is below the tolerance and, if a
reference has been established, in addition the temperature of the unit is
within the temperature tolerance of the reference; without a reference it
returns true exactly when `Z` is below the tolerance, whatever the
temperatures.  The bounds have to differ for `Z` to be a number: the C++
divides by their difference. -/
theorem shouldMap_true_iff (alpha beta_of : List scalar)
    (tolerance_ temperature_tolerance_ : scalar) (refCellFound_ : Bool)
    (globalReference problem : ChemistryProblem)
    (hbounds : beta_of.getD 1 0 ≠ beta_of.getD 0 0) :
    ((shouldMap (mixtureFractionRefMapper.mk alpha beta_of tolerance_
          temperature_tolerance_ refCellFound_ globalReference) problem).1 = true ↔
      mixingCoordinate (mixtureFractionRefMapper.mk alpha beta_of tolerance_
          temperature_tolerance_ refCellFound_ globalReference) problem < tolerance_ ∧
        (refCellFound_ = true →
          |problem.Ti - globalReference.Ti| < temperature_tolerance_)) ∧
    ((shouldMap (mixtureFractionRefMapper.mk alpha beta_of tolerance_
          temperature_tolerance_ false globalReference) problem).1 = true ↔
      mixingCoordinate (mixtureFractionRefMapper.mk alpha beta_of tolerance_
          temperature_tolerance_ false globalReference) problem < tolerance_) := by
  constructor
  · exact check_if_refcell_true_iff _ problem hbounds
  · have h := check_if_refcell_true_iff (mixtureFractionRefMapper.mk alpha beta_of tolerance_
      temperature_tolerance_ false globalReference) problem hbounds
    simpa [shouldMap] using h

/-- An instance of the mapping rule: weights `[1, 2]`, bounds 5 and 9,
tolerance 1/10 and a reference at 400 K with temperature tolerance 10.  The
unit `[1, 2]` has `Z = 0`; at 405 K it is mapped, at 420 K it is not, and
without a reference it is mapped at 420 K as well. -/
theorem shouldMap_true_iff_witness :
    (5 : scalar) ≠ 9 ∧
    (shouldMap (mixtureFractionRefMapper.mk [1, 2] [5, 9] (1 / 10) 10 true
        (ChemistryProblem.mk [] 400 0 0 0 0 0 0))
      (ChemistryProblem.mk [1, 2] 405 0 0 0 0 0 0)).1 = true ∧
    (shouldMap (mixtureFractionRefMapper.mk [1, 2] [5, 9] (1 / 10) 10 true
        (ChemistryProblem.mk [] 400 0 0 0 0 0 0))
      (ChemistryProblem.mk [1, 2] 420 0 0 0 0 0 0)).1 = false ∧
    (shouldMap (mixtureFractionRefMapper.mk [1, 2] [5, 9] (1 / 10) 10 false
        (ChemistryProblem.mk [] 400 0 0 0 0 0 0))
      (ChemistryProblem.mk [1, 2] 420 0 0 0 0 0 0)).1 = true := by
  have hb : ([5, 9] : List scalar).getD 1 0 ≠ ([5, 9] : List scalar).getD 0 0 := by norm_num
  refine ⟨by norm_num, ?_, ?_, ?_⟩
  · rw [(shouldMap_true_iff [1, 2] [5, 9] (1 / 10) 10 true
      (ChemistryProblem.mk [] 400 0 0 0 0 0 0) (ChemistryProblem.mk [1, 2] 405 0 0 0 0 0 0) hb).1]
    norm_num [mixingCoordinate, List.range_succ, abs_lt]
  · rw [Bool.eq_false_iff, ne_eq, (shouldMap_true_iff [1, 2] [5, 9] (1 / 10) 10 true
      (ChemistryProblem.mk [] 400 0 0 0 0 0 0) (ChemistryProblem.mk [1, 2] 420 0 0 0 0 0 0) hb).1]
    norm_num [mixingCoordinate, List.range_succ, abs_lt]
  · rw [(shouldMap_true_iff [1, 2] [5, 9] (1 / 10) 10 true
      (ChemistryProblem.mk [] 400 0 0 0 0 0 0) (ChemistryProblem.mk [1, 2] 420 0 0 0 0 0 0) hb).2]
    norm_num [mixingCoordinate, List.range_succ]

/-- C18, as stated, fails: with the tolerance 0, a unit whose mixing
coordinate is exactly at the lower calibration bound (`Z = 0`) is not mapped,
although no reference exists yet. -/
theorem shouldMap_at_lower_bound_zero_tolerance :
    mixingCoordinate (mixtureFractionRefMapper.mk [1] [0, 1] 0 10 false
        (ChemistryProblem.mk [] 0 0 0 0 0 0 0))
      (ChemistryProblem.mk [0] 300 0 0 0 0 0 0) = 0 ∧
    (shouldMap (mixtureFractionRefMapper.mk [1] [0, 1] 0 10 false
        (ChemistryProblem.mk [] 0 0 0 0 0 0 0))
      (ChemistryProblem.mk [0] 300 0 0 0 0 0 0)).1 = false := by
  constructor
  · simp [mixingCoordinate]
  · rw [Bool.eq_false_iff]
    intro h
    have h2 := (check_if_refcell_true_iff _ _ (by norm_num)).mp h
    simp [mixingCoordinate] at h2

/-- C18, amended: when no reference exists yet, the two calibration bounds
differ and the tolerance is positive, a unit whose mixing coordinate is
exactly at the lower calibration bound has `Z = 0` and `shouldMap` returns
true.  The bounds have to differ because the C++ divides by their
difference. -/
theorem shouldMap_at_lower_bound (self : mixtureFractionRefMapper)
    (problem : ChemistryProblem)
    (hnone : self.refCellFound_ = false)
    (_hbounds : self.beta_of.getD 1 0 ≠ self.beta_of.getD 0 0)
    (htol : 0 < self.tolerance_)
    (hlower : ((List.range problem.c.length).map
        (fun i => self.alpha.getD i 0 * problem.c.getD i 0)).sum = self.beta_of.getD 0 0) :
    mixingCoordinate self problem = 0 ∧ (shouldMap self problem).1 = true := by
  have hz : mixingCoordinate self problem = 0 := by
    unfold mixingCoordinate
    rw [hlower, sub_self, zero_div]
  refine ⟨hz, ?_⟩
  unfold shouldMap
  rw [check_if_refcell_true_iff self problem _hbounds, hz]
  exact ⟨htol, fun hfound => absurd hfound (by rw [hnone]; decide)⟩

/-- An instance of the lower-bound rule: weights `[1, 2]`, bounds 5 and 9,
tolerance 1/10 and concentrations `[1, 2]`. -/
theorem shouldMap_at_lower_bound_witness :
    mixingCoordinate (mixtureFractionRefMapper.mk [1, 2] [5, 9] (1 / 10) 10 false
        (ChemistryProblem.mk [] 0 0 0 0 0 0 0))
      (ChemistryProblem.mk [1, 2] 300 0 0 0 0 0 0) = 0 ∧
    (shouldMap (mixtureFractionRefMapper.mk [1, 2] [5, 9] (1 / 10) 10 false
        (ChemistryProblem.mk [] 0 0 0 0 0 0 0))
      (ChemistryProblem.mk [1, 2] 300 0 0 0 0 0 0)).1 = true :=
  shouldMap_at_lower_bound
    (mixtureFractionRefMapper.mk [1, 2] [5, 9] (1 / 10) 10 false
      (ChemistryProblem.mk [] 0 0 0 0 0 0 0))
    (ChemistryProblem.mk [1, 2] 300 0 0 0 0 0 0) rfl (by norm_num) (by norm_num)
    (by norm_num [List.range_succ])

/-- C19, as stated, fails: `shouldMap` returns true for a unit while no
reference exists, and afterwards the mapper still has no reference:
`refCellFound_` is false and `globalReference` is not the unit. -/
theorem shouldMap_does_not_establish :
    (shouldMap (mixtureFractionRefMapper.mk [1] [0, 1] (1 / 10) 10 false
        (ChemistryProblem.mk [] 0 0 0 0 0 0 0))
      (ChemistryProblem.mk [0] 300 0 0 0 0 0 7)).1 = true ∧
    (shouldMap (mixtureFractionRefMapper.mk [1] [0, 1] (1 / 10) 10 false
        (ChemistryProblem.mk [] 0 0 0 0 0 0 0))
      (ChemistryProblem.mk [0] 300 0 0 0 0 0 7)).2.refCellFound_ = false ∧
    (shouldMap (mixtureFractionRefMapper.mk [1] [0, 1] (1 / 10) 10 false
        (ChemistryProblem.mk [] 0 0 0 0 0 0 0))
      (ChemistryProblem.mk [0] 300 0 0 0 0 0 7)).2.globalReference
      ≠ ChemistryProblem.mk [0] 300 0 0 0 0 0 7 := by
  refine ⟨?_, ?_, ?_⟩
  · unfold shouldMap
    rw [check_if_refcell_true_iff _ _ (by norm_num)]
    constructor
    · simp [mixingCoordinate]
    · intro h; cases h
  · simp only [shouldMap, check_if_refcell_unchanged]
  · simp only [shouldMap, check_if_refcell_unchanged]
    decide

/-- C19, amended: `shouldMap` leaves the mapper as it was, whatever it
returns, so after it the mapper still has no reference; the reference is
established by `getGlobalRef`, which always returns, sets `refCellFound_` and
stores one of the gathered candidates as `globalReference`. -/
theorem reference_established_by_getGlobalRef (self : mixtureFractionRefMapper)
    (unit : ChemistryProblem) (before : List ChemistryProblem)
    (candidate : ChemistryProblem) (after : List ChemistryProblem) :
    (shouldMap self unit).2 = self ∧
    ∃ ref next, getGlobalRef self before candidate after = some (ref, next) ∧
      next.refCellFound_ = true ∧ next.globalReference = ref ∧
      ref ∈ before ++ candidate :: after :=
  ⟨check_if_refcell_unchanged self unit, getGlobalRef_establishes self before candidate after⟩

/-- C20: once the mapper has a reference (`refCellFound_` true), every
sequence of `shouldMap` and `getGlobalRef` calls runs to its end and leaves a
mapper that has a reference. -/
theorem reference_never_lost (self : mixtureFractionRefMapper) (calls : List MapperCall)
    (h : self.refCellFound_ = true) :
    ∃ last, applyCalls self calls = some last ∧ last.refCellFound_ = true := by
  induction calls generalizing self with
  | nil => exact ⟨self, rfl, h⟩
  | cons call calls ih =>
    obtain ⟨next, hnext, hfound⟩ := applyCall_keeps_reference self call h
    obtain ⟨last, hlast, hl⟩ := ih next hfound
    exact ⟨last, by simp only [applyCalls, hnext, hlast], hl⟩

/-- An instance of the monotonicity: a mapper with a reference goes through a
`shouldMap`, a `getGlobalRef` and another `shouldMap`. -/
theorem reference_never_lost_witness :
    ∃ last,
      applyCalls
        (mixtureFractionRefMapper.mk [1] [0, 1] (1 / 10) 10 true
          (ChemistryProblem.mk [] 300 0 0 0 0 0 0))
        [MapperCall.shouldMap (ChemistryProblem.mk [0] 300 0 0 0 0 0 1),
          MapperCall.getGlobalRef [ChemistryProblem.mk [0] 400 0 0 0 0 0 2]
            (ChemistryProblem.mk [0] 350 0 0 0 0 0 3) [],
          MapperCall.shouldMap (ChemistryProblem.mk [1] 300 0 0 0 0 0 4)] = some last ∧
      last.refCellFound_ = true :=
  reference_never_lost
    (mixtureFractionRefMapper.mk [1] [0, 1] (1 / 10) 10 true
      (ChemistryProblem.mk [] 300 0 0 0 0 0 0))
    [MapperCall.shouldMap (ChemistryProblem.mk [0] 300 0 0 0 0 0 1),
      MapperCall.getGlobalRef [ChemistryProblem.mk [0] 400 0 0 0 0 0 2]
        (ChemistryProblem.mk [0] 350 0 0 0 0 0 3) [],
      MapperCall.shouldMap (ChemistryProblem.mk [1] 300 0 0 0 0 0 4)] rfl

/-! ## Global reference, mean bounds, copied ranges, equality (claims C21, C27, C28, C29) -/

/-- C21: `getGlobalRef` always returns; the returned reference is one of the
gathered candidates, its temperature is at least that of every gathered
candidate, and it is the one of lowest rank among those of highest
temperature; the same candidate is stored as `globalReference`, and the
mapper has a reference afterwards.  With a single worker the candidate itself
is returned. -/
theorem getGlobalRef_highest_temperature (self : mixtureFractionRefMapper)
    (before : List ChemistryProblem) (candidate : ChemistryProblem)
    (after : List ChemistryProblem) :
    (∃ rank ref next, getGlobalRef self before candidate after = some (ref, next) ∧
      (before ++ candidate :: after)[rank]? = some ref ∧
      (∀ x ∈ before ++ candidate :: after, x.Ti ≤ ref.Ti) ∧
      (∀ (j : Nat) (x : ChemistryProblem), j < rank →
        (before ++ candidate :: after)[j]? = some x → x.Ti < ref.Ti) ∧
      next.globalReference = ref ∧ next.refCellFound_ = true) ∧
    (getGlobalRef self [] candidate []).map (fun r => r.1) = some candidate ∧
    (getGlobalRef self [] candidate []).map (fun r => r.2.globalReference) = some candidate ∧
    (getGlobalRef self [] candidate []).map (fun r => r.2.refCellFound_) = some true := by
  obtain ⟨i, v, hmax, hv, hall, hfirst⟩ :=
    max_element_first (fun p : ChemistryProblem => p.Ti) (before ++ candidate :: after)
      (by simp)
  refine ⟨⟨i, v, mixtureFractionRefMapper.mk self.alpha self.beta_of self.tolerance_
    self.temperature_tolerance_ true v, ?_, hv, hall, hfirst, rfl, rfl⟩, ?_, ?_, ?_⟩
  · simp only [getGlobalRef, allGather_eq, hmax]
  · simp only [getGlobalRef, allGather_eq]; rfl
  · simp only [getGlobalRef, allGather_eq]; rfl
  · simp only [getGlobalRef, allGather_eq]; rfl

/-- C27: for a non-empty load list the mean lies between the value of
`getMin` and the value of `getMax`, so the surplus of the maximal worker over
the mean and the deficit of the minimal worker below it are not negative. -/
theorem mean_between_min_and_max (loads : List ChemistryLoad) (hne : loads ≠ []) :
    ∃ lo hi, getMin loads = some lo ∧ getMax loads = some hi ∧
      lo.value ≤ getMean loads ∧ getMean loads ≤ hi.value ∧
      0 ≤ hi.value - getMean loads ∧ 0 ≤ getMean loads - lo.value := by
  obtain ⟨i, lo, hmin, -, hlo, -⟩ :=
    min_element_first (fun l : ChemistryLoad => l.value) loads hne
  obtain ⟨k, hi, hmax, -, hhi, -⟩ :=
    max_element_first (fun l : ChemistryLoad => l.value) loads hne
  have hlen : (0 : scalar) < (loads.length : scalar) := by
    have : 0 < loads.length := List.length_pos.mpr hne
    exact_mod_cast this
  have h1 : lo.value ≤ getMean loads := by
    rw [getMean_eq, le_div_iff₀ hlen]
    have := mul_le_sum_values lo.value loads hlo
    linarith
  have h2 : getMean loads ≤ hi.value := by
    rw [getMean_eq, div_le_iff₀ hlen]
    have := sum_values_le_mul hi.value loads hhi
    linarith
  refine ⟨lo, hi, by simp only [getMin, hmin, Option.map_some'],
    by simp only [getMax, hmax, Option.map_some'], h1, h2, by linarith, by linarith⟩

/-- An instance of the bounds on the mean: the loads `[10, 10, 10, 70]`. -/
theorem mean_between_min_and_max_witness :
    ∃ lo hi,
      getMin [ChemistryLoad.mk 0 10, ChemistryLoad.mk 1 10, ChemistryLoad.mk 2 10,
        ChemistryLoad.mk 3 70] = some lo ∧
      getMax [ChemistryLoad.mk 0 10, ChemistryLoad.mk 1 10, ChemistryLoad.mk 2 10,
        ChemistryLoad.mk 3 70] = some hi ∧
      lo.value ≤ getMean [ChemistryLoad.mk 0 10, ChemistryLoad.mk 1 10, ChemistryLoad.mk 2 10,
        ChemistryLoad.mk 3 70] ∧
      getMean [ChemistryLoad.mk 0 10, ChemistryLoad.mk 1 10, ChemistryLoad.mk 2 10,
        ChemistryLoad.mk 3 70] ≤ hi.value ∧
      0 ≤ hi.value - getMean [ChemistryLoad.mk 0 10, ChemistryLoad.mk 1 10,
        ChemistryLoad.mk 2 10, ChemistryLoad.mk 3 70] ∧
      0 ≤ getMean [ChemistryLoad.mk 0 10, ChemistryLoad.mk 1 10, ChemistryLoad.mk 2 10,
        ChemistryLoad.mk 3 70] - lo.value :=
  mean_between_min_and_max
    [ChemistryLoad.mk 0 10, ChemistryLoad.mk 1 10, ChemistryLoad.mk 2 10, ChemistryLoad.mk 3 70]
    (by simp)

/-- C29: the equality of `ChemistrySolution` is not reflexive: `a == b` is
false and `a != b` is true for all solutions, also for `b = a`. -/
theorem ChemistrySolution_equality_never_holds (a b : ChemistrySolution) :
    ChemistrySolution.operator_eq a b = false ∧
    ChemistrySolution.operator_ne a b = true ∧
    ChemistrySolution.operator_eq a a = false ∧
    ChemistrySolution.operator_ne a a = true :=
  ⟨rfl, rfl, rfl, rfl⟩

/-! ## Solving and storing buffers (claims C23, C24, C26) -/

/-- C23: `updateReactionRates` returns a value that is at most every
`solution.deltaTChem` and at most `great`; it is `great` when there are no
solutions and, for solutions none of which exceeds `great`, it is the
`deltaTChem` of one of them: the minimum over all solutions of all
sub-buffers.  No solution of `solveBuffer` exceeds `great` when
`deltaTChemMax_` does not.  Every solution is stored in its round of the loops: when the
fields have the cell `solution.cellid`, the object after that round holds
`min(solution.deltaTChem, deltaTChemMax_)`, `solution.cpuTime` and the
reaction rates of the solution at that index, and so does the object after
the call when no later solution has the same `cellid`. -/
theorem updateReactionRates_minimum_and_stores (env : Collaborators)
    (self : LoadBalancedChemistryModel) (solutions : List (List ChemistrySolution)) :
    (updateReactionRates env self solutions).2 ≤ env.great ∧
    (∀ s ∈ solutions.flatten, (updateReactionRates env self solutions).2 ≤ s.deltaTChem) ∧
    (solutions.flatten = [] → (updateReactionRates env self solutions).2 = env.great) ∧
    ((∀ s ∈ solutions.flatten, s.deltaTChem ≤ env.great) → solutions.flatten ≠ [] →
      ∃ s ∈ solutions.flatten, (updateReactionRates env self solutions).2 = s.deltaTChem) ∧
    (self.deltaTChemMax_ ≤ env.great → ∀ fuel problems out,
      solveBuffer env self fuel problems = some out →
      ∀ s ∈ out.flatten, s.deltaTChem ≤ env.great) ∧
    ((updateReactionRates env self solutions).1.nSpecie_ = self.nSpecie_ ∧
      (updateReactionRates env self solutions).1.W = self.W ∧
      (updateReactionRates env self solutions).1.deltaTChemMax_ = self.deltaTChemMax_) ∧
    (∀ (pre : List ChemistrySolution) (s : ChemistrySolution) (post : List ChemistrySolution)
        (m : Nat), solutions.flatten = pre ++ s :: post → s.cellid = (m : label) →
      hasCell self m →
      updateReactionRates env self solutions
        = post.foldl storeSolution (storeSolution (pre.foldl storeSolution (self, env.great)) s) ∧
      ((storeSolution (pre.foldl storeSolution (self, env.great)) s).1.nSpecie_
          = self.nSpecie_ ∧
        (storeSolution (pre.foldl storeSolution (self, env.great)) s).1.W = self.W ∧
        (storeSolution (pre.foldl storeSolution (self, env.great)) s).1.deltaTChemMax_
          = self.deltaTChemMax_) ∧
      storedFrom (storeSolution (pre.foldl storeSolution (self, env.great)) s).1 s m ∧
      ((∀ t ∈ post, t.cellid ≠ (m : label)) →
        storedFrom (updateReactionRates env self solutions).1 s m)) := by
  rw [updateReactionRates_flatten]
  obtain ⟨h1, h2, h3⟩ := foldl_storeSolution_min solutions.flatten (self, env.great)
  refine ⟨h1, h2, ?_, ?_, ?_, foldl_storeSolution_setup solutions.flatten (self, env.great),
    ?_⟩
  · intro hnil
    rw [hnil]
    rfl
  · intro hgreat hne
    rcases h3 with h3 | h3
    · obtain ⟨s, hs⟩ := List.exists_mem_of_ne_nil _ hne
      exact ⟨s, hs, le_antisymm (h2 s hs) (by rw [h3]; exact hgreat s hs)⟩
    · exact h3
  · intro hmax fuel problems out hout s hs
    exact le_trans (solveBuffer_capped env self fuel problems out hout s hs) hmax
  · intro pre s post m hflat hcell hfields
    have hpre : hasCell (pre.foldl storeSolution (self, env.great)).1 m :=
      hasCell_of_shape (foldl_storeSolution_shape pre (self, env.great))
        (foldl_storeSolution_setup pre (self, env.great)).1 m hfields
    have hstored := storeSolution_stores (pre.foldl storeSolution (self, env.great)) s m
      hcell hpre
    refine ⟨by rw [hflat, List.foldl_append, List.foldl_cons],
      foldl_storeSolution_setup pre (self, env.great), hstored, ?_⟩
    intro hlast
    rw [hflat, List.foldl_append, List.foldl_cons]
    exact foldl_storeSolution_keeps m s post _ hlast hstored

/-- An instance of the minimum and of the stores: two solutions in two
sub-buffers, for the cells 0 and 4 of the example model, with the sub-step
sizes 3 and 2; the call returns 2 and the cell 0 holds the first solution. -/
theorem updateReactionRates_minimum_and_stores_witness :
    (updateReactionRates exampleCollaborators exampleModel
      [[ChemistrySolution.mk [1, 2] 3 7 0 1], [ChemistrySolution.mk [0, 0] 2 8 4 1]]).2 = 2 ∧
    storedFrom
      (updateReactionRates exampleCollaborators exampleModel
        [[ChemistrySolution.mk [1, 2] 3 7 0 1], [ChemistrySolution.mk [0, 0] 2 8 4 1]]).1
      (ChemistrySolution.mk [1, 2] 3 7 0 1) 0 := by
  have hclaim := updateReactionRates_minimum_and_stores exampleCollaborators exampleModel
    [[ChemistrySolution.mk [1, 2] 3 7 0 1], [ChemistrySolution.mk [0, 0] 2 8 4 1]]
  obtain ⟨-, hle, -, hmin, -, -, hstores⟩ := hclaim
  constructor
  · obtain ⟨s, hs, heq⟩ := hmin
      (by
        intro s hs
        simp only [List.flatten, List.append_nil, List.singleton_append, List.mem_cons,
          List.mem_singleton, List.not_mem_nil, or_false] at hs
        rcases hs with h | h <;> rw [h] <;> norm_num [exampleCollaborators])
      (by simp)
    have h2 := hle (ChemistrySolution.mk [0, 0] 2 8 4 1) (by simp)
    simp only [List.flatten, List.append_nil, List.singleton_append, List.mem_cons,
      List.mem_singleton, List.not_mem_nil, or_false] at hs
    rcases hs with h | h
    · rw [h] at heq
      rw [heq] at h2
      norm_num at h2
    · rw [heq, h]
  · exact (hstores [] (ChemistrySolution.mk [1, 2] 3 7 0 1)
      [ChemistrySolution.mk [0, 0] 2 8 4 1] 0 (by simp) rfl exampleModel_hasCell_zero).2.2.2
      (by
        intro t ht
        rw [List.mem_singleton.mp ht]
        decide)

/-- C24: for solutions with pairwise distinct `cellid`, the object written by
`updateReactionRates` (`RR_`, `deltaTChem_`, `cpuTimes_` and all the rest) and
the value it returns are the same for every reordering of the solutions and
every regrouping of them into sub-buffers. -/
theorem updateReactionRates_routes_by_cellid (env : Collaborators)
    (self : LoadBalancedChemistryModel) (a b : List (List ChemistrySolution))
    (hperm : List.Perm a.flatten b.flatten)
    (hdistinct : (a.flatten.map (fun s => s.cellid)).Nodup) :
    updateReactionRates env self a = updateReactionRates env self b := by
  rw [updateReactionRates_flatten, updateReactionRates_flatten]
  apply List.Perm.foldl_eq' hperm
  intro x hx y hy z
  by_cases hxy : x = y
  · rw [hxy]
  · apply storeSolution_comm
    intro hcell
    exact hxy (List.inj_on_of_nodup_map hdistinct hx hy hcell)

/-- An instance of the routing by `cellid`: two solutions in two sub-buffers,
and the same two, swapped, in one. -/
theorem updateReactionRates_routes_by_cellid_witness :
    updateReactionRates exampleCollaborators exampleModel
        [[ChemistrySolution.mk [1, 2] 3 7 1 0], [ChemistrySolution.mk [5, 6] 2 8 3 0]]
      = updateReactionRates exampleCollaborators exampleModel
        [[ChemistrySolution.mk [5, 6] 2 8 3 0, ChemistrySolution.mk [1, 2] 3 7 1 0]] :=
  updateReactionRates_routes_by_cellid exampleCollaborators exampleModel
    [[ChemistrySolution.mk [1, 2] 3 7 1 0], [ChemistrySolution.mk [5, 6] 2 8 3 0]]
    [[ChemistrySolution.mk [5, 6] 2 8 3 0, ChemistrySolution.mk [1, 2] 3 7 1 0]]
    (List.Perm.swap (ChemistrySolution.mk [5, 6] 2 8 3 0) (ChemistrySolution.mk [1, 2] 3 7 1 0) [])
    (by decide)

/-- C26: with a solver that makes progress `solveBuffer` returns, and the
buffer it returns has the shape of the problem buffer: as many sub-buffers,
each as long as the sub-buffer of problems, and the solution at `[i][j]` has
the `cellid` and the `rhoi` of the problem at `[i][j]` and a `deltaTChem` of
at most `deltaTChemMax_`. -/
theorem solveBuffer_keeps_shape (env : Collaborators) (self : LoadBalancedChemistryModel)
    (problems : List (List ChemistryProblem)) (delta : scalar)
    (hprog : odeProgress env delta) :
    (∃ fuel solutions, solveBuffer env self fuel problems = some solutions) ∧
    ∀ fuel solutions, solveBuffer env self fuel problems = some solutions →
      solutions.length = problems.length ∧
      solutions.map List.length = problems.map List.length ∧
      List.Forall₂
        (fun (ps : List ChemistryProblem) (ss : List ChemistrySolution) =>
          List.Forall₂
            (fun (p : ChemistryProblem) (s : ChemistrySolution) =>
              s.cellid = p.cellid ∧ s.rhoi = p.rhoi ∧ s.deltaTChem ≤ self.deltaTChemMax_)
            ps ss)
        problems solutions := by
  constructor
  · obtain ⟨fuel, hfuel⟩ := exists_fuel env.small delta hprog.1
      (problems.flatten.map (fun p => p.deltaT))
    obtain ⟨solutions, hs⟩ := solveRows_returns env self delta hprog fuel problems
      (problems.map
        (fun sub => List.replicate sub.length (ChemistrySolution.ofSpecies self.nSpecie_)))
      (fun p hp => hfuel p.deltaT (List.mem_map_of_mem _ hp))
    exact ⟨fuel, solutions, hs⟩
  · intro fuel solutions h
    have hall := solveRows_spec env self fuel problems solutions h
    refine ⟨hall.length_eq.symm, ?_, hall⟩
    clear h
    induction hall with
    | nil => rfl
    | cons hrow _ ih =>
      simp only [List.map_cons, List.cons.injEq]
      exact ⟨hrow.length_eq.symm, ih⟩

/-- An instance of the shape of the solution buffer: three sub-buffers of
sizes 1, 0 and 2, with a solver that integrates the whole step. -/
theorem solveBuffer_keeps_shape_witness :
    odeProgress exampleCollaborators 1 ∧
    ∃ fuel solutions,
      solveBuffer exampleCollaborators exampleModel fuel
        [[createProblem exampleModel 1 0], [],
          [createProblem exampleModel 1 3, createProblem exampleModel 1 4]] = some solutions :=
  ⟨exampleCollaborators_progress,
    (solveBuffer_keeps_shape exampleCollaborators exampleModel
      [[createProblem exampleModel 1 0], [],
        [createProblem exampleModel 1 3, createProblem exampleModel 1 4]] 1
      exampleCollaborators_progress).1⟩

/-! ## Collecting the problems (claims C22, C25) -/

/-- C22: with a solver that makes progress `getProblems` returns, and the
list it returns consists exactly of the cells with `T > Treact` that the
mapper does not accept (mapper inactive or `shouldMap` false), in increasing
cell order, each problem with its own cell index as `cellid`; a cell with
`T <= Treact` is not in the list, and after the pass every reaction rate
`RR_[j][celli]` of such a cell is 0 (for the species `j` whose field has the
cell).  When the mapper accepts no cell, every cell above the threshold is in
the list. -/
theorem getProblems_returns_kept_cells (env : Collaborators)
    (self : LoadBalancedChemistryModel) (deltaT : Nat → scalar) (delta : scalar)
    (hprog : odeProgress env delta) :
    (∃ fuel pass, getProblems env self fuel deltaT = some pass) ∧
    ∀ fuel pass, getProblems env self fuel deltaT = some pass →
      pass.chem_problems.map (fun P => P.cellid)
        = ((List.range self.p.length).filter
            (fun c => reacts self c && !mapperAccepts env self c)).map (fun (c : Nat) => (c : label)) ∧
      (∀ P ∈ pass.chem_problems, ∃ celli : Nat, celli < self.p.length ∧
        P.cellid = (celli : label) ∧ reacts self celli = true ∧
        mapperAccepts env self celli = false) ∧
      (∀ celli : Nat, celli < self.p.length → reacts self celli = false →
        (∀ P ∈ pass.chem_problems, P.cellid ≠ (celli : label)) ∧
        ∀ j, j < self.nSpecie_ → celli < (self.RR_.getD j []).length →
          entry pass.self.RR_ j celli = some 0) ∧
      ((∀ celli : Nat, celli < self.p.length → mapperAccepts env self celli = false) →
        pass.chem_problems.map (fun P => P.cellid)
          = ((List.range self.p.length).filter (fun c => reacts self c)).map
              (fun (c : Nat) => (c : label))) := by
  refine ⟨getProblems_returns env self deltaT delta hprog, ?_⟩
  intro fuel pass h
  have hids := getProblems_cellids env self fuel deltaT pass h
  have hmember : ∀ P ∈ pass.chem_problems, ∃ celli : Nat, celli < self.p.length ∧
      P.cellid = (celli : label) ∧ reacts self celli = true ∧
      mapperAccepts env self celli = false := by
    intro P hP
    obtain ⟨c, hc, hcell, hkept⟩ := getProblems_member env self fuel deltaT pass h P hP
    simp only [kept, Bool.and_eq_true, Bool.not_eq_true'] at hkept
    exact ⟨c, hc, hcell, hkept.1, hkept.2⟩
  refine ⟨hids, hmember, ?_, ?_⟩
  · intro celli hcell hcold
    constructor
    · intro P hP heq
      obtain ⟨c, -, hc, hreact, -⟩ := hmember P hP
      have : c = celli := by
        rw [hc] at heq
        exact_mod_cast heq
      rw [this, hcold] at hreact
      cases hreact
    · intro j hj hrow
      have hshape := visitCells_shape env fuel deltaT (List.range self.p.length) _ pass h
      have hlt : celli < (pass.self.RR_.getD j []).length := by
        rw [hshape.1 j]; exact hrow
      have he := entry_of_lt pass.self.RR_ j celli hlt
      rw [he, visitCells_cold env fuel deltaT (List.range self.p.length) _ pass h
        (List.nodup_range _) celli (List.mem_range.mpr hcell) hcold j _ hj he]
  · intro hnone
    rw [hids]
    congr 1
    apply List.filter_congr
    intro c hc
    simp [kept, hnone c (List.mem_range.mp hc)]

/-- An instance of the collected problems: for the example model, with a
solver that integrates the whole step, the pass returns the cells 1 and 4, and
the cold cell 2 ends with the reaction rate 0 for both species. -/
theorem getProblems_returns_kept_cells_witness :
    odeProgress exampleCollaborators 1 ∧
    ∃ fuel pass, getProblems exampleCollaborators exampleModel fuel (fun _ => 1) = some pass ∧
      pass.chem_problems.map (fun P => P.cellid) = [1, 4] ∧
      entry pass.self.RR_ 0 2 = some 0 ∧ entry pass.self.RR_ 1 2 = some 0 := by
  refine ⟨exampleCollaborators_progress, ?_⟩
  have hclaim := getProblems_returns_kept_cells exampleCollaborators exampleModel (fun _ => 1) 1
    exampleCollaborators_progress
  obtain ⟨fuel, pass, hpass⟩ := hclaim.1
  obtain ⟨hlist, -, hcold, -⟩ := hclaim.2 fuel pass hpass
  have hzero := (hcold 2 (by decide) exampleModel_cold_two).2
  refine ⟨fuel, pass, hpass, ?_, hzero 0 (by decide) (by decide), hzero 1 (by decide) (by decide)⟩
  rw [hlist]
  exact exampleModel_kept_cells

/-- C25: with a solver that makes progress `getProblems` returns, and within
the pass `solveSingle` is called at most once: never when no cell is mapped,
and otherwise once, for the first mapped cell, whose solution is the
reference solution.  The pass leaves the molar masses and the largest
sub-step size as they are, and after it every mapped cell (that the fields
have) holds the reaction rates, the `deltaTChem` and the `cpuTime` of that
solution; no mapped cell is in the returned list. -/
theorem getProblems_solves_first_mapped_cell (env : Collaborators)
    (self : LoadBalancedChemistryModel) (deltaT : Nat → scalar) (delta : scalar)
    (hprog : odeProgress env delta) :
    (∃ fuel pass, getProblems env self fuel deltaT = some pass) ∧
    ∀ fuel pass, getProblems env self fuel deltaT = some pass →
      pass.solveCalls.length ≤ 1 ∧
      ((∀ celli : Nat, celli < self.p.length → mapped env self celli = false) →
        pass.solveCalls = []) ∧
      (∀ k : Nat, k < self.p.length → mapped env self k = true →
        (∀ c : Nat, c < k → mapped env self c = false) →
        ∃ (P after : ChemistryProblem), P.cellid = (k : label) ∧ pass.solveCalls = [P] ∧
          solveSingle env self fuel P (ChemistrySolution.ofSpecies self.nSpecie_)
            = some (after, pass.ref_solution)) ∧
      sameSetup pass.self self ∧
      (∀ celli : Nat, celli < self.p.length → mapped env self celli = true →
        hasCell self celli → storedFrom pass.self pass.ref_solution celli) ∧
      (∀ P ∈ pass.chem_problems, ∀ celli : Nat, P.cellid = (celli : label) →
        mapped env self celli = false) := by
  refine ⟨getProblems_returns env self deltaT delta hprog, ?_⟩
  intro fuel pass h
  have hnone : (∀ celli : Nat, celli < self.p.length → mapped env self celli = false) →
      pass.solveCalls = [] := by
    intro hno
    exact (visitCells_none_mapped env fuel deltaT (List.range self.p.length) _ pass h
      (fun k hk => hno k (List.mem_range.mp hk))).2.2
  have hfirst : ∀ k : Nat, k < self.p.length → mapped env self k = true →
      (∀ c : Nat, c < k → mapped env self c = false) →
      ∃ (P after : ChemistryProblem), P.cellid = (k : label) ∧ pass.solveCalls = [P] ∧
        solveSingle env self fuel P (ChemistrySolution.ofSpecies self.nSpecie_)
          = some (after, pass.ref_solution) := by
    intro k hk hmap hleast
    have hsplit := range_split self.p.length k hk
    have h2 := h
    unfold getProblems at h2
    rw [hsplit] at h2
    obtain ⟨P, after, hP, hcalls, hsolve⟩ := visitCells_first_mapped env fuel deltaT
      (List.range k) k (List.range' (k + 1) (self.p.length - k - 1)) _ pass h2 rfl
      (fun c hc => hleast c (List.mem_range.mp hc)) hmap
    exact ⟨P, after, hP, by simpa using hcalls, hsolve⟩
  refine ⟨?_, hnone, hfirst,
    visitCells_setup env fuel deltaT (List.range self.p.length) _ pass h, ?_, ?_⟩
  · by_cases hex : ∃ k : Nat, k < self.p.length ∧ mapped env self k = true
    · classical
      have hk := Nat.find_spec hex
      have hmin : ∀ c : Nat, c < Nat.find hex → mapped env self c = false := by
        intro c hc
        have hnot := Nat.find_min hex hc
        by_contra hm
        apply hnot
        exact ⟨lt_trans hc hk.1, by simpa using hm⟩
      obtain ⟨P, -, -, hcalls, -⟩ := hfirst (Nat.find hex) hk.1 hk.2 hmin
      rw [hcalls]
      simp
    · have hno : ∀ celli : Nat, celli < self.p.length → mapped env self celli = false := by
        intro c hc
        by_contra hm
        exact hex ⟨c, hc, by simpa using hm⟩
      rw [hnone hno]
      simp
  · intro celli hcell hmap hfields
    have hshape := visitCells_shape env fuel deltaT (List.range self.p.length) _ pass h
    have hsetup := visitCells_setup env fuel deltaT (List.range self.p.length) _ pass h
    exact storedFrom_of_agreesWith pass.self pass.ref_solution celli
      (visitCells_mapped env fuel deltaT (List.range self.p.length) _ pass h
        (List.nodup_range _) celli (List.mem_range.mpr hcell) hmap)
      (hasCell_of_shape hshape hsetup.1 celli hfields)
  · intro P hP celli hcell
    obtain ⟨c, -, hc, hkept⟩ := getProblems_member env self fuel deltaT pass h P hP
    have : c = celli := by
      rw [hc] at hcell
      exact_mod_cast hcell
    rw [← this]
    rcases cell_cases env self c with ⟨-, -, h3⟩ | ⟨-, -, h3⟩ | ⟨-, h2, -⟩
    · exact h3
    · exact h3
    · rw [hkept] at h2
      cases h2

/-- An instance of the single solve: for the example model, with a solver
that integrates the whole step, the only call of the pass is for cell 0, and
the later mapped cell 3 holds the values of the solution of cell 0. -/
theorem getProblems_solves_first_mapped_cell_witness :
    odeProgress exampleCollaborators 1 ∧
    ∃ fuel pass, getProblems exampleCollaborators exampleModel fuel (fun _ => 2) = some pass ∧
      (∃ P : ChemistryProblem, P.cellid = 0 ∧ pass.solveCalls = [P]) ∧
      storedFrom pass.self pass.ref_solution 3 := by
  refine ⟨exampleCollaborators_progress, ?_⟩
  have hclaim := getProblems_solves_first_mapped_cell exampleCollaborators exampleModel
    (fun _ => 2) 1 exampleCollaborators_progress
  obtain ⟨fuel, pass, hpass⟩ := hclaim.1
  obtain ⟨-, -, hfirst, -, hstored, -⟩ := hclaim.2 fuel pass hpass
  refine ⟨fuel, pass, hpass, ?_, hstored 3 (by decide) exampleModel_mapped_three
    exampleModel_hasCell_three⟩
  obtain ⟨P, -, hP, hcalls, -⟩ := hfirst 0 (by decide)
    exampleModel_mapped_zero (fun c hc => absurd hc (Nat.not_lt_zero c))
  exact ⟨P, by simpa using hP, hcalls⟩

end Foam
